import Mathlib

/-!
samp-log: the asynchronous file log writer.

A shallow embedding of `src/FileLogWriter.cpp` / `src/FileLogWriter.hpp`.

* A `std::string` is a list of `char`s (`Str`); `size()` is `List.length`.
* Every call the writer makes into the C library or the operating system
  (`stat`, `mkdir`, `fopen`, `setvbuf`, `fwrite`, `fflush`, `fclose`, the
  steady clock, the plugin logger) is recorded, with its result, in a history
  `List Call`.  The results come from an environment `Env` whose answers may
  depend on the whole history so far, so an environment can stand for any
  file system, any clock and any concurrent process.
* Code that runs under `m_Mutex` is one atomic step of the step function
  `step`; the drain thread is cut at its critical section, so that producer
  calls can be interleaved between the queue swap, the routing loop, and the
  periodic sweep.  Outside the mutex the drain thread works on its own state
  (`local`, `m_Targets`, the history); the one exception is `m_Dropped`, which
  the sweep reads and resets, and the sweep is taken as one step.
* `Start` and `Stop` are called from one controlling thread: while it is
  blocked in `join`, no other lifecycle call is made.
* `m_QueuedBytes` (`std::size_t`) and `m_Dropped` (`std::uint64_t`) are
  natural numbers: the byte total is bounded by 8 MiB plus the sizes of two
  strings that are resident in memory at the same time, which is below
  `SIZE_MAX`, and the drop counter moves by one per call.  The clock values
  (`std::uint64_t`) are subtracted modulo `2 ^ 64`, as in the source.
-/

namespace FileLogWriter

/-- A `std::string`, one `Char` per `char`. -/
abbrev Str := List Char

def kMaxQueuedBytes : Nat := 8 * 1024 * 1024

def kFlushThresholdBytes : Nat := 64 * 1024

def kFlushIntervalMs : Nat := 250

def kWakeIntervalMs : Nat := 50

/-- The modulus of `std::uint64_t`. -/
def u64 : Nat := 2 ^ 64

/-- Subtraction of two `std::uint64_t` values, wrapping as in C++. -/
def u64sub (a b : Nat) : Nat := (a % u64 + u64 - b % u64) % u64

/-- The queue element `FileLogWriter::Entry`. -/
structure Entry where
  path : Str
  line : Str
  deriving DecidableEq

/-- An open `std::FILE *`: the position of the `fopen` call that produced it
in the history, and the path it was opened with. -/
structure Handle where
  id : Nat
  path : Str
  deriving DecidableEq

/-- What `mkdir` / `CreateDirectoryA` reports: success, failure with
`EEXIST` / `ERROR_ALREADY_EXISTS`, or any other failure. -/
inductive MkdirResult
  | created
  | alreadyExists
  | error
  deriving DecidableEq

/-- One call into the C library, the operating system or the plugin logger,
together with its result. -/
inductive Call
  | dirExists (path : Str) (res : Bool)
  | mkdir (path : Str) (res : MkdirResult)
  | fopen (path : Str) (res : Option Handle)
  | setvbuf (h : Handle) (size : Nat)
  | fwrite (h : Handle) (data : Str) (written : Nat)
  | fflush (h : Handle)
  | fclose (h : Handle)
  | nowMs (t : Nat)
  | isLogLevelWarning (res : Bool)
  | logWarning (dropped : Nat)
  deriving DecidableEq

/-- The environment: the result of each external call, given the history of
all calls made before it. -/
structure Env where
  dirExists : List Call → Str → Bool
  mkdir : List Call → Str → MkdirResult
  fopen : List Call → Str → Bool
  fwrite : List Call → Handle → Str → Nat
  clock : List Call → Nat
  warnEnabled : List Call → Bool

/-- The registry element `FileLogWriter::Target`, with the member
initialisers of the header. -/
structure Target where
  fp : Option Handle := none
  buffer : Str := []
  last_flush_ms : Nat := 0
  failed : Bool := false
  deriving DecidableEq

/-- Where the drain thread stands in `ThreadMain`. -/
inductive ThreadPc
  | notStarted
  | entry
  | loopHead
  | routing
  | sweeping
  | exiting
  | finished
  deriving DecidableEq

/-- The members of `FileLogWriter`, the frame of `ThreadMain`
(`localQ` is its variable `local`), whether a caller of `Stop()` is blocked in
`join`, and the history of external calls. -/
structure State where
  m_Queue : List Entry := []
  m_QueuedBytes : Nat := 0
  m_Running : Bool := false
  m_StopRequested : Bool := false
  m_Targets : List (Str × Target) := []
  m_Dropped : Nat := 0
  pc : ThreadPc := ThreadPc.notStarted
  localQ : List Entry := []
  last_global_flush : Nat := 0
  stopJoining : Bool := false
  trace : List Call := []

/-- The writer as constructed: `FileLogWriter() = default`. -/
def State.init : State := {}

/-! ## `NormalizePath` -/

/-- One iteration of the collapsing loop of `NormalizePath`; the state is
`(out, prev)`. -/
def collapseStep (st : Str × Char) (c : Char) : Str × Char :=
  if c = '/' ∧ st.2 = '/' then st else (st.1 ++ [c], c)

/-- `FileLogWriter::NormalizePath`: `std::replace` of every backslash, then
the loop that skips a `'/'` whose predecessor was a `'/'`. -/
def NormalizePath (path : Str) : Str :=
  let replaced := path.map (fun c => if c = '\\' then '/' else c)
  (replaced.foldl collapseStep ([], '\x00')).1

/-! ## `Start`, `Stop`, `Enqueue` -/

/-- `FileLogWriter::Start`. The new thread begins at the entry of
`ThreadMain`. -/
def Start (s : State) : State :=
  if s.m_Running then s
  else { s with m_StopRequested := false, m_Running := true, pc := ThreadPc.entry }

/-- The first critical section of `FileLogWriter::Stop`, up to the call of
`join`. -/
def StopRequest (s : State) : State :=
  if !s.m_Running then s
  else { s with m_StopRequested := true, stopJoining := true }

/-- The rest of `FileLogWriter::Stop`: `join` has returned, the second
critical section clears `m_Running`. -/
def StopJoin (s : State) : State :=
  { s with m_Running := false, stopJoining := false, pc := ThreadPc.notStarted }

/-- `FileLogWriter::Enqueue`, with its return value. -/
def Enqueue (s : State) (path line : Str) : State × Bool :=
  let path := NormalizePath path
  if path.isEmpty || line.isEmpty then (s, false)
  else if !s.m_Running then (s, false)
  else
    let add_bytes := path.length + line.length
    if s.m_QueuedBytes + add_bytes > kMaxQueuedBytes then
      ({ s with m_Dropped := s.m_Dropped + 1 }, false)
    else
      ({ s with m_QueuedBytes := s.m_QueuedBytes + add_bytes,
                m_Queue := s.m_Queue ++ [{ path := path, line := line }] }, true)

/-! ## External calls -/

/-- `FileLogWriter::NowMs`: the steady clock in milliseconds, cast to
`std::uint64_t`. -/
def NowMs (env : Env) (tr : List Call) : List Call × Nat :=
  let t := env.clock tr % u64
  (tr ++ [Call.nowMs t], t)

/-- `DirExists`: one `stat` / `GetFileAttributesA`. -/
def DirExists (env : Env) (tr : List Call) (path : Str) : List Call × Bool :=
  let r := env.dirExists tr path
  (tr ++ [Call.dirExists path r], r)

/-- `MkdirOne`: one `mkdir` / `CreateDirectoryA`; "already exists" counts as
success. -/
def MkdirOne (env : Env) (tr : List Call) (path : Str) : List Call × Bool :=
  let r := env.mkdir tr path
  (tr ++ [Call.mkdir path r],
    match r with
    | MkdirResult.created => true
    | MkdirResult.alreadyExists => true
    | MkdirResult.error => false)

/-- `std::string::find_last_of`, scanning from index `i` with the last match
so far in `acc`. -/
def find_last_of_from (chars : Str) : Nat → Str → Option Nat → Option Nat
  | _, [], acc => acc
  | i, c :: cs, acc =>
    find_last_of_from chars (i + 1) cs (if c ∈ chars then some i else acc)

/-- `path.find_last_of(chars)`; `none` is `npos`. -/
def find_last_of (path chars : Str) : Option Nat :=
  find_last_of_from chars 0 path none

/-- The `for` loop of `EnsureParentDirs` over the characters of `dir` that
are still to be read. The result is the history and `some current` when the
loop runs to its end, `none` when it returns `false`. -/
def mkdirLoop (env : Env) : Str → Str → List Call → List Call × Option Str
  | [], current, tr => (tr, some current)
  | c :: rest, cur, tr =>
    let current := cur ++ [c]
    if c ≠ '/' then mkdirLoop env rest current tr
    else if current.length ≤ 1 then mkdirLoop env rest current tr
    else
      let to_create :=
        if !current.isEmpty && current.getLast? = some '/' then current.dropLast
        else current
      if to_create.isEmpty then mkdirLoop env rest current tr
      else
        let ex := DirExists env tr to_create
        if ex.2 then mkdirLoop env rest current ex.1
        else
          let mk := MkdirOne env ex.1 to_create
          if mk.2 then mkdirLoop env rest current mk.1
          else (mk.1, none)

/-- The initialisation of `i` and `current` in `EnsureParentDirs`: a drive
letter with `":/"`, else a leading `'/'`, is taken over without being
visited. -/
def dirWalkStart (dir : Str) : Nat × Str :=
  if dir.length ≥ 3 ∧ (dir.getD 0 ' ').isAlpha ∧ dir.getD 1 ' ' = ':'
      ∧ dir.getD 2 ' ' = '/' then (3, dir.take 3)
  else if !dir.isEmpty && dir.getD 0 ' ' = '/' then (1, ['/'])
  else (0, [])

/-- The end of `EnsureParentDirs`, after the loop: the final component. -/
def mkdirFinal (env : Env) (tr : List Call) (cur : Str) : List Call × Bool :=
  let current :=
    if !cur.isEmpty && cur.getLast? = some '/' then cur.dropLast else cur
  if !current.isEmpty then
    let ex := DirExists env tr current
    if !ex.2 then
      let mk := MkdirOne env ex.1 current
      if !mk.2 then (mk.1, false) else (mk.1, true)
    else (ex.1, true)
  else (tr, true)

/-- `FileLogWriter::EnsureParentDirs`. -/
def EnsureParentDirs (env : Env) (tr : List Call) (path : Str) : List Call × Bool :=
  match find_last_of path ['/', '\\'] with
  | none => (tr, true)
  | some last_sep =>
    let dir := path.take last_sep
    if dir.isEmpty then (tr, true)
    else
      let start := dirWalkStart dir
      match mkdirLoop env (dir.drop start.1) start.2 tr with
      | (tr1, none) => (tr1, false)
      | (tr1, some cur) => mkdirFinal env tr1 cur

/-- `FileLogWriter::OpenTarget`: the history, the target and the return
value. -/
def OpenTarget (env : Env) (tr : List Call) (t : Target) (path : Str) :
    List Call × Target × Bool :=
  if t.fp.isSome || t.failed then (tr, t, t.fp.isSome)
  else
    let tr1 := (EnsureParentDirs env tr path).1
    if env.fopen tr1 path then
      let h : Handle := { id := tr1.length, path := path }
      let tr2 := tr1 ++ [Call.fopen path (some h), Call.setvbuf h (64 * 1024)]
      let now := NowMs env tr2
      (now.1, { t with fp := some h, last_flush_ms := now.2 }, true)
    else
      (tr1 ++ [Call.fopen path none], { t with fp := none, failed := true }, false)

/-- `FileLogWriter::FlushTarget`. -/
def FlushTarget (env : Env) (tr : List Call) (t : Target) : List Call × Target :=
  match t.fp with
  | none => (tr, t)
  | some h =>
    if t.buffer.isEmpty then (tr, t)
    else
      let n := env.fwrite tr h t.buffer
      let now := NowMs env (tr ++ [Call.fwrite h t.buffer n, Call.fflush h])
      (now.1, { t with buffer := [], last_flush_ms := now.2 })

/-! ## The registry `m_Targets`

`std::unordered_map<std::string, Target>` as an association list with one
element per key. The order in which the map is iterated is unspecified in
C++; here it is the order of insertion. -/

/-- `m_Targets[key]` read: the stored target, or a default-constructed one. -/
def Targets.find : List (Str × Target) → Str → Target
  | [], _ => {}
  | (a, u) :: m, key => if a = key then u else Targets.find m key

/-- `m_Targets[key]` written back: the element is replaced, or created if it
is missing. -/
def Targets.store : List (Str × Target) → Str → Target → List (Str × Target)
  | [], key, t => [(key, t)]
  | (a, u) :: m, key, t =>
    if a = key then (key, t) :: m else (a, u) :: Targets.store m key t

/-! ## `ThreadMain` -/

/-- The body of the routing loop `for (auto &e : local)` for one entry. -/
def routeEntry (env : Env) (acc : List Call × List (Str × Target)) (e : Entry) :
    List Call × List (Str × Target) :=
  let o := OpenTarget env acc.1 (Targets.find acc.2 e.path) e.path
  if !o.2.2 then (o.1, Targets.store acc.2 e.path o.2.1)
  else
    let t : Target := { o.2.1 with buffer := o.2.1.buffer ++ e.line }
    if t.buffer.length ≥ kFlushThresholdBytes then
      let f := FlushTarget env o.1 t
      (f.1, Targets.store acc.2 e.path f.2)
    else (o.1, Targets.store acc.2 e.path t)

/-- The body of the periodic loop over `m_Targets` for one target. -/
def sweepTarget (env : Env) (now : Nat) (tr : List Call) (t : Target) :
    List Call × Target :=
  if t.fp.isSome && !t.buffer.isEmpty
      && decide (u64sub now t.last_flush_ms ≥ kFlushIntervalMs) then
    FlushTarget env tr t
  else (tr, t)

/-- The periodic loop `for (auto &kv : m_Targets)`. -/
def sweepAll (env : Env) (now : Nat) :
    List Call → List (Str × Target) → List Call × List (Str × Target)
  | tr, [] => (tr, [])
  | tr, kv :: rest =>
    let f := sweepTarget env now tr kv.2
    let r := sweepAll env now f.1 rest
    (r.1, (kv.1, f.2) :: r.2)

/-- The final loop of `ThreadMain`: flush, then close, every target. -/
def closeAll (env : Env) : List Call → List (Str × Target) → List Call
  | tr, [] => tr
  | tr, kv :: rest =>
    let f := FlushTarget env tr kv.2
    match f.2.fp with
    | some h => closeAll env (f.1 ++ [Call.fclose h]) rest
    | none => closeAll env f.1 rest

/-- Entry of `ThreadMain`: `last_global_flush = NowMs()`. -/
def threadEntry (env : Env) (s : State) : State :=
  let now := NowMs env s.trace
  { s with trace := now.1, last_global_flush := now.2, localQ := [],
           pc := ThreadPc.loopHead }

/-- The critical section of the drain loop, after `wait_for` has returned:
the swap of `local` and `m_Queue`, and the exit test. -/
def drainLock (s : State) : State :=
  let s1 : State :=
    if !s.m_Queue.isEmpty then
      { s with localQ := s.m_Queue, m_Queue := s.localQ, m_QueuedBytes := 0 }
    else s
  if s1.m_StopRequested && s1.localQ.isEmpty && s1.m_Queue.isEmpty then
    { s1 with pc := ThreadPc.exiting }
  else { s1 with pc := ThreadPc.routing }

/-- The routing loop over `local`, and `local.clear()`. -/
def routeLocal (env : Env) (s : State) : State :=
  let r := s.localQ.foldl (routeEntry env) (s.trace, s.m_Targets)
  { s with trace := r.1, m_Targets := r.2, localQ := [], pc := ThreadPc.sweeping }

/-- The end of the loop body: read the clock, and when the flush interval has
elapsed sweep the targets and report the drop counter. -/
def periodic (env : Env) (s : State) : State :=
  let now := NowMs env s.trace
  if u64sub now.2 s.last_global_flush ≥ kFlushIntervalMs then
    let sw := sweepAll env now.2 now.1 s.m_Targets
    if s.m_Dropped ≠ 0 ∧ env.warnEnabled sw.1 = true then
      { s with trace := sw.1 ++ [Call.isLogLevelWarning true, Call.logWarning s.m_Dropped],
               m_Targets := sw.2, last_global_flush := now.2, m_Dropped := 0,
               pc := ThreadPc.loopHead }
    else
      { s with trace := if s.m_Dropped ≠ 0 then sw.1 ++ [Call.isLogLevelWarning false]
                        else sw.1,
               m_Targets := sw.2, last_global_flush := now.2,
               pc := ThreadPc.loopHead }
  else { s with trace := now.1, pc := ThreadPc.loopHead }

/-- After the loop: the final flush and close, and `m_Targets.clear()`. -/
def threadExit (env : Env) (s : State) : State :=
  { s with trace := closeAll env s.trace s.m_Targets, m_Targets := [],
           pc := ThreadPc.finished }

/-! ## The step function -/

/-- The atomic steps of the system: the three public calls (`Stop` in its
two halves) and the sections of the drain thread. -/
inductive Label
  | start
  | stopRequest
  | stopJoin
  | enqueue (path line : Str)
  | threadEntry
  | drainLock
  | route
  | sweep
  | threadExit
  deriving DecidableEq

/-- One step. A step that cannot be taken in `s` (a thread section the drain
thread is not at, a `join` before the thread has finished, a lifecycle call
while the controlling thread is blocked in `Stop`) leaves `s` as it is. -/
def step (env : Env) (s : State) : Label → State
  | Label.start => if s.stopJoining then s else Start s
  | Label.stopRequest => if s.stopJoining then s else StopRequest s
  | Label.stopJoin =>
    if s.stopJoining && decide (s.pc = ThreadPc.finished) then StopJoin s else s
  | Label.enqueue path line => (Enqueue s path line).1
  | Label.threadEntry => if s.pc = ThreadPc.entry then threadEntry env s else s
  | Label.drainLock => if s.pc = ThreadPc.loopHead then drainLock s else s
  | Label.route => if s.pc = ThreadPc.routing then routeLocal env s else s
  | Label.sweep => if s.pc = ThreadPc.sweeping then periodic env s else s
  | Label.threadExit => if s.pc = ThreadPc.exiting then threadExit env s else s

/-- Run a schedule of steps. -/
def exec (env : Env) (s : State) (ls : List Label) : State :=
  ls.foldl (step env) s

/-! ## Reference definitions and sample inputs -/

/-- A path separator: `'/'` or a backslash. -/
def isSeparator (c : Char) : Bool := c = '/' || c = '\\'

/-- The maximal runs of a string, each tagged with whether it is a run of
separators or a run of other characters. -/
def sepRuns : Str → List (Bool × Str)
  | [] => []
  | c :: cs =>
    match sepRuns cs with
    | [] => [(isSeparator c, [c])]
    | (b, r) :: rest =>
      if b = isSeparator c then (b, c :: r) :: rest
      else (isSeparator c, [c]) :: (b, r) :: rest

/-- The reference for `NormalizePath`, after the specification: every maximal
run of separators becomes a single `'/'`, every other character is kept. -/
def normalizeRef (path : Str) : Str :=
  (sepRuns path).flatMap (fun run => if run.1 then ['/'] else run.2)

/-- A Running writer whose queue holds one entry of exactly 8 MiB. -/
def fullState : State :=
  { m_Running := true, m_QueuedBytes := 8 * 1024 * 1024, pc := ThreadPc.loopHead,
    m_Queue := [{ path := ['q'], line := List.replicate (8 * 1024 * 1024 - 1) 'x' }] }

/-- A Running writer whose queue holds one entry of 8 MiB - 7 bytes. -/
def nearlyFullState : State :=
  { m_Running := true, m_QueuedBytes := 8 * 1024 * 1024 - 7, pc := ThreadPc.loopHead,
    m_Queue := [{ path := ['q'], line := List.replicate (8 * 1024 * 1024 - 8) 'x' }] }

/-- The collapsing loop of `NormalizePath` as a recursion on the input:
`prev` is the last character kept. -/
def collapse (prev : Char) : Str → Str
  | [] => []
  | c :: cs => if c = '/' ∧ prev = '/' then collapse prev cs else c :: collapse c cs

/-- Whether a string starts with a separator. -/
def headSep : Str → Bool
  | [] => false
  | c :: _ => isSeparator c

/-- The bytes the queue accounts for: the sum of `path.size() + line.size()`
over its entries. -/
def queueBytes (q : List Entry) : Nat :=
  (q.map (fun e => e.path.length + e.line.length)).sum

/-- The queue invariant, with what the drain thread and the lifecycle need to
keep it: `local` is empty outside the routing loop, and a writer that is not
Running has no drain thread. -/
def QueueInv (s : State) : Prop :=
  s.m_QueuedBytes = queueBytes s.m_Queue
  ∧ s.m_QueuedBytes ≤ kMaxQueuedBytes
  ∧ (s.pc ≠ ThreadPc.routing → s.localQ = [])
  ∧ (s.m_Running = false → s.pc = ThreadPc.notStarted)

/-- An environment in which every directory exists, every call succeeds,
the clock advances by 100 ms per call made, and warnings are enabled. -/
def okEnv : Env :=
  { dirExists := fun _ _ => true
    mkdir := fun _ _ => MkdirResult.alreadyExists
    fopen := fun _ _ => true
    fwrite := fun _ _ data => data.length
    clock := fun tr => 100 * tr.length
    warnEnabled := fun _ => true }

/-- The return values of the `Enqueue` calls of a schedule, in order. -/
def enqueueResults (env : Env) : State → List Label → List Bool
  | _, [] => []
  | s, Label.enqueue path line :: ls =>
    (Enqueue s path line).2 :: enqueueResults env (step env s (Label.enqueue path line)) ls
  | s, l :: ls => enqueueResults env (step env s l) ls

/-- The cumulative size of the `Enqueue` calls of a schedule, measured on the
paths as submitted. -/
def submittedBytes : List Label → Nat
  | [] => 0
  | Label.enqueue path line :: ls => path.length + line.length + submittedBytes ls
  | _ :: ls => submittedBytes ls

/-- The cumulative size of the `Enqueue` calls of a schedule, measured on the
normalized paths. -/
def normalizedBytes : List Label → Nat
  | [] => 0
  | Label.enqueue path line :: ls =>
    (NormalizePath path).length + line.length + normalizedBytes ls
  | _ :: ls => normalizedBytes ls

/-- Every `Enqueue` call of the schedule has a non-empty path and line. -/
def nonEmptyArgs : List Label → Prop
  | [] => True
  | Label.enqueue path line :: ls => path ≠ [] ∧ line ≠ [] ∧ nonEmptyArgs ls
  | _ :: ls => nonEmptyArgs ls

/-- An environment in which no directory exists or can be created and no file
can be opened. -/
def failEnv : Env :=
  { dirExists := fun _ _ => false
    mkdir := fun _ _ => MkdirResult.error
    fopen := fun _ _ => false
    fwrite := fun _ _ _ => 0
    clock := fun tr => 100 * tr.length
    warnEnabled := fun _ => false }

/-- An environment in which no directory exists or can be created, while
every file can be opened and written. -/
def noDirEnv : Env :=
  { dirExists := fun _ _ => false
    mkdir := fun _ _ => MkdirResult.error
    fopen := fun _ _ => true
    fwrite := fun _ _ data => data.length
    clock := fun tr => 100 * tr.length
    warnEnabled := fun _ => false }

/-- A target with an open handle and three buffered bytes. -/
def openSample : Target :=
  { fp := some { id := 0, path := "x/file.log".toList }, buffer := "abc".toList,
    last_flush_ms := 7 }

/-- A target whose open has failed. -/
def failedSample : Target := { failed := true }

/-! ## Observations on the history and the registry -/

/-- The bytes appended to the file opened as `path`: for every `fwrite` on a
handle of that path, the part of the data that was written. -/
def writtenTo (path : Str) : List Call → Str
  | [] => []
  | Call.fwrite h data n :: tr =>
    (if h.path = path then data.take n else []) ++ writtenTo path tr
  | _ :: tr => writtenTo path tr

/-- How many times `fopen` was called on `path`. -/
def opensOf (path : Str) : List Call → Nat
  | [] => 0
  | Call.fopen p _ :: tr => (if p = path then 1 else 0) + opensOf path tr
  | _ :: tr => opensOf path tr

/-- The lines of the entries for `path`, concatenated in order. -/
def linesFor (path : Str) : List Entry → Str
  | [] => []
  | e :: es => (if e.path = path then e.line else []) ++ linesFor path es

/-- The entries a schedule submits: one per `Enqueue` call, with the path
normalized. -/
def submitted : List Label → List Entry
  | [] => []
  | Label.enqueue path line :: ls =>
    { path := NormalizePath path, line := line } :: submitted ls
  | _ :: ls => submitted ls

/-- The entries a schedule gets accepted, starting in `s`. -/
def accepted (env : Env) : State → List Label → List Entry
  | _, [] => []
  | s, Label.enqueue path line :: ls =>
    (if (Enqueue s path line).2 then [{ path := NormalizePath path, line := line }] else [])
      ++ accepted env (step env s (Label.enqueue path line)) ls
  | s, l :: ls => accepted env (step env s l) ls

/-- A call that `EnsureParentDirs` makes: `stat` or `mkdir`. -/
def isDirCall : Call → Bool
  | Call.dirExists _ _ => true
  | Call.mkdir _ _ => true
  | _ => false

/-- The body of the routing loop as a function of the target it works on:
`routeEntry` reads the target of the entry's path, applies this, and stores
the result. -/
def routeTarget (env : Env) (tr : List Call) (t : Target) (e : Entry) :
    List Call × Target :=
  let o := OpenTarget env tr t e.path
  if !o.2.2 then (o.1, o.2.1)
  else
    let t1 : Target := { o.2.1 with buffer := o.2.1.buffer ++ e.line }
    if t1.buffer.length ≥ kFlushThresholdBytes then FlushTarget env o.1 t1
    else (o.1, t1)

/-- What holds of a target that belongs to the key `key`: a failed target has
no handle, a target without a handle has an empty buffer, and the handle of
the target was opened with the key as its path. -/
def TargetWf (key : Str) (t : Target) : Prop :=
  (t.failed = true → t.fp = none)
  ∧ (t.fp = none → t.buffer = [])
  ∧ (∀ h, t.fp = some h → h.path = key)

/-- What holds of the registry: the keys are distinct, and every stored
target is well-formed and has been through `OpenTarget` (it is open or
failed). -/
def RegistryOk (m : List (Str × Target)) : Prop :=
  (m.map Prod.fst).Nodup
  ∧ ∀ kv ∈ m, TargetWf kv.1 kv.2 ∧ (kv.2.fp = none → kv.2.failed = true)

/-- The history `tr2` extends `tr1` by calls of `EnsureParentDirs` only. -/
def DirExt (tr1 tr2 : List Call) : Prop :=
  ∃ ex, tr2 = tr1 ++ ex ∧ ∀ c ∈ ex, isDirCall c = true

/-- No target of the registry is marked failed. -/
def AllLive (m : List (Str × Target)) : Prop := ∀ kv ∈ m, kv.2.failed = false

/-- The invariant of the whole state: the queue invariant, a well-formed
registry, and an empty registry while no drain thread is inside its loop. -/
def StateInv (s : State) : Prop :=
  QueueInv s
  ∧ RegistryOk s.m_Targets
  ∧ (s.pc = ThreadPc.notStarted ∨ s.pc = ThreadPc.entry ∨ s.pc = ThreadPc.finished →
      s.m_Targets = [])

/-- Every accepted line is in exactly one place: written to the file of its
path, in the buffer of its target, in `local`, or in the shared queue, in this
order. `acc` lists the entries accepted so far. -/
def Content (s : State) (acc : List Entry) : Prop :=
  ∀ p, writtenTo p s.trace ++ (Targets.find s.m_Targets p).buffer ++ linesFor p s.localQ
        ++ linesFor p s.m_Queue = linesFor p acc

/-- Before `Stop()` has ever been called: no stop is requested, nobody waits
in `join`, a writer without a drain thread is not Running and has an empty
queue, and the drain thread has not left its loop. -/
def BeforeStop (s : State) : Prop :=
  s.m_StopRequested = false
  ∧ s.stopJoining = false
  ∧ (s.pc = ThreadPc.notStarted → s.m_Running = false ∧ s.m_Queue = [])
  ∧ s.pc ≠ ThreadPc.exiting
  ∧ s.pc ≠ ThreadPc.finished

/-- Outside the drain loop the shared queue is empty. -/
def Quiet (s : State) : Prop :=
  s.pc = ThreadPc.notStarted ∨ s.pc = ThreadPc.exiting ∨ s.pc = ThreadPc.finished →
    s.m_Queue = []

/-- A run of the writer: three enqueues for two files spread over two drain
cycles, then `Stop()` and the last drain cycle. -/
def sampleRun : List Label :=
  [Label.start, Label.threadEntry,
    Label.enqueue "logs/a.log".toList "one;".toList,
    Label.drainLock,
    Label.enqueue "logs/b.log".toList "uno;".toList,
    Label.route,
    Label.enqueue "logs\\a.log".toList "two;".toList,
    Label.sweep, Label.drainLock, Label.route, Label.sweep]

/-- The end of `sampleRun`: the drain thread finds the stop request, leaves
its loop, closes the targets, and `join` returns. -/
def sampleShutdown : List Label :=
  [Label.drainLock, Label.threadExit, Label.stopJoin]

/-- The routing loop `for (auto &e : local)` on its own: the history and the
registry after the entries `es` have been routed. -/
def routeAll (env : Env) (tr : List Call) (m : List (Str × Target)) (es : List Entry) :
    List Call × List (Str × Target) :=
  es.foldl (routeEntry env) (tr, m)

/-- The two queue entries that accepted calls `Enqueue(p, l1)` and
`Enqueue(q, l2)` leave in the queue, in this order. -/
def entryPair (p q l1 l2 : Str) : List Entry :=
  [{ path := NormalizePath p, line := l1 }, { path := NormalizePath q, line := l2 }]

/-- An environment in which the file `ro/a.log` cannot be opened and every
other call succeeds. -/
def readOnlyEnv : Env :=
  { okEnv with fopen := fun _ path => decide (path ≠ "ro/a.log".toList) }

/-- A run in which entries for `ro/a.log` and for `ok.log` are routed in two
drain cycles. -/
def mixedRun : List Label :=
  [Label.threadEntry,
    Label.enqueue "ro/a.log".toList "x1;".toList,
    Label.enqueue "ok.log".toList "y1;".toList,
    Label.drainLock, Label.route, Label.sweep,
    Label.enqueue "ro\\a.log".toList "x2;".toList,
    Label.enqueue "ok.log".toList "y2;".toList,
    Label.drainLock, Label.route, Label.sweep]



/-- A Stopped writer that still holds one queued entry and a drop count. -/
def stoppedState : State :=
  { m_Running := false, m_QueuedBytes := 2, m_Dropped := 5,
    m_Queue := [{ path := ['q'], line := ['x'] }] }

/-- A schedule in which `Stop()` is called while the writer is idle, and
another thread enqueues between the drain thread's last critical section and
the return of `join`. -/
def lateEnqueueRun : List Label :=
  [Label.start, Label.threadEntry, Label.stopRequest, Label.drainLock,
    Label.enqueue "a.log".toList "late;".toList,
    Label.threadExit, Label.stopJoin]

/-- A full life cycle: start, the drain thread runs and exits on `Stop()`. -/
def idleCycle : List Label :=
  [Label.start, Label.threadEntry, Label.stopRequest, Label.drainLock, Label.threadExit,
    Label.stopJoin]

/-- Every buffer of the registry is shorter than the flush threshold. -/
def BufBound (m : List (Str × Target)) : Prop :=
  ∀ kv ∈ m, kv.2.buffer.length < kFlushThresholdBytes

/-- An entry of 65535 bytes for `big.log`. -/
def bigEntry : Entry := { path := "big.log".toList, line := List.replicate 65535 'x' }

/-- A one-byte entry for `big.log`. -/
def byteEntry : Entry := { path := "big.log".toList, line := ['y'] }

/-- The condition under which the periodic sweep flushes a target: the handle
is open, the buffer is not empty, and the last flush is at least the flush
interval back. -/
def flushDue (now : Nat) (t : Target) : Bool :=
  t.fp.isSome && !t.buffer.isEmpty && decide (u64sub now t.last_flush_ms ≥ kFlushIntervalMs)

/-- The `fwrite` calls of a history: handle and data, in order. -/
def writesOf : List Call → List (Handle × Str)
  | [] => []
  | Call.fwrite h data _ :: tr => (h, data) :: writesOf tr
  | _ :: tr => writesOf tr

/-- The writes a sweep at time `now` owes: for every target that is due, its
whole buffer on its handle, in the order of the registry. -/
def dueWrites (now : Nat) : List (Str × Target) → List (Handle × Str)
  | [] => []
  | kv :: rest =>
    match kv.2.fp with
    | some h => if flushDue now kv.2 then (h, kv.2.buffer) :: dueWrites now rest
                else dueWrites now rest
    | none => dueWrites now rest

/-- A registry for the sweep: `a.log` was flushed at 100 and holds data,
`b.log` was flushed at 900 and holds data, `c.log` is open with nothing
buffered, `d.log` has failed. -/
def sweepSample : List (Str × Target) :=
  [("a.log".toList,
      { fp := some { id := 1, path := "a.log".toList }, buffer := "aa".toList,
        last_flush_ms := 100 }),
    ("b.log".toList,
      { fp := some { id := 2, path := "b.log".toList }, buffer := "bb".toList,
        last_flush_ms := 900 }),
    ("c.log".toList,
      { fp := some { id := 3, path := "c.log".toList }, buffer := [], last_flush_ms := 100 }),
    ("d.log".toList, { failed := true })]

/-- A drain thread about to read the clock for the periodic check, with
`sweepSample` as its registry and the last sweep at 100; the history has ten
calls, so `okEnv` reads 1000. -/
def sweepState : State :=
  { m_Running := true, pc := ThreadPc.sweeping, m_Targets := sweepSample,
    last_global_flush := 100, trace := List.replicate 10 (Call.nowMs 100) }

/-- The same, with the last sweep at 900. -/
def earlyState : State := { sweepState with last_global_flush := 900 }

/-- The counts carried by the drop messages of a history, in order. -/
def reportsOf : List Call → List Nat
  | [] => []
  | Call.logWarning n :: tr => n :: reportsOf tr
  | _ :: tr => reportsOf tr

/-- Whether `Enqueue(path, line)` in state `s` is refused for a full queue. -/
def isFullRefusal (s : State) (path line : Str) : Bool :=
  s.m_Running && !(NormalizePath path).isEmpty && !line.isEmpty
    && decide (s.m_QueuedBytes + ((NormalizePath path).length + line.length)
        > kMaxQueuedBytes)

/-- The number of `Enqueue` calls of a schedule that are refused for a full
queue, starting in `s`. -/
def fullRefusals (env : Env) : State → List Label → Nat
  | _, [] => 0
  | s, Label.enqueue path line :: ls =>
    (if isFullRefusal s path line then 1 else 0)
      + fullRefusals env (step env s (Label.enqueue path line)) ls
  | s, l :: ls => fullRefusals env (step env s l) ls

/-- Whether the step `l` taken in `s` is an `Enqueue` refused for a full
queue. -/
def refusedNow (s : State) : Label → Bool
  | Label.enqueue path line => isFullRefusal s path line
  | _ => false

/-- A drain thread about to read the clock for the periodic check, with three
refusals counted and the last sweep long ago. -/
def droppedState : State :=
  { m_Running := true, pc := ThreadPc.sweeping, m_Dropped := 3, last_global_flush := 0,
    trace := List.replicate 10 (Call.nowMs 0) }

/-- A schedule on a full queue: two refused enqueues, a sweep that reports
them, one more refusal. -/
def refusalRun : List Label :=
  [Label.enqueue "a.log".toList "x".toList, Label.enqueue "a.log".toList "y".toList,
    Label.sweep, Label.enqueue "a.log".toList "z".toList]

/-- The state `fullState` with the drain thread before its periodic check and
a history of ten calls. -/
def fullSweepState : State :=
  { fullState with pc := ThreadPc.sweeping, trace := List.replicate 10 (Call.nowMs 0) }

/-- The clock is non-decreasing across successive reads: a read after more
calls is not below a read after fewer. -/
def MonotoneClock (env : Env) : Prop :=
  ∀ tr ex, env.clock tr % u64 ≤ env.clock (tr ++ ex) % u64

/-- The history `b` continues the history `a`. -/
def Extends (a b : List Call) : Prop := ∃ ex, b = a ++ ex

/-- The value `x` is the initial stamp 0 or a clock read made at some point of
the history `tr`. -/
def Reading (env : Env) (tr : List Call) (x : Nat) : Prop :=
  x = 0 ∨ ∃ pre ex, tr = pre ++ ex ∧ x = env.clock pre % u64

/-- Every stamp of the registry is the initial 0 or an earlier clock read. -/
def StampsOk (env : Env) (tr : List Call) (m : List (Str × Target)) : Prop :=
  ∀ kv ∈ m, Reading env tr kv.2.last_flush_ms

/-- An environment like `okEnv` whose clock stops at the largest 64-bit
value instead of wrapping. -/
def steadyEnv : Env :=
  { okEnv with clock := fun tr => min (100 * tr.length) (2 ^ 64 - 1) }

/-- A run that reaches the periodic check with one open target. -/
def stampRun : List Label :=
  [Label.start, Label.threadEntry, Label.enqueue "a.log".toList "one;".toList,
    Label.drainLock, Label.route]

/-! ## The life of a handle

A `FILE*` is to be opened once, used while open, and closed once. `life`
reads this off a history for one handle. -/

/-- Whether a call opens, uses or closes the handle `h`. -/
def usesHandle (h : Handle) : Call → Bool
  | Call.fopen _ (some g) => decide (g = h)
  | Call.setvbuf g _ => decide (g = h)
  | Call.fwrite g _ _ => decide (g = h)
  | Call.fflush g => decide (g = h)
  | Call.fclose g => decide (g = h)
  | _ => false

/-- The calls of a history on the handle `h`, in order. -/
def handleCalls (h : Handle) (tr : List Call) : List Call := tr.filter (usesHandle h)

/-- Where a handle stands: not yet returned by `fopen`, open, closed, or
misused (opened twice, used while not open, closed twice). -/
inductive Life where
  | fresh
  | opened
  | closed
  | broken
  deriving DecidableEq

/-- One call seen by the handle `h`. -/
def lifeStep (h : Handle) (l : Life) (c : Call) : Life :=
  if usesHandle h c then
    match l, c with
    | Life.fresh, Call.fopen _ _ => Life.opened
    | Life.opened, Call.setvbuf _ _ => Life.opened
    | Life.opened, Call.fwrite _ _ _ => Life.opened
    | Life.opened, Call.fflush _ => Life.opened
    | Life.opened, Call.fclose _ => Life.closed
    | _, _ => Life.broken
  else l

/-- Where the handle `h` stands after the history `tr`. -/
def life (h : Handle) (tr : List Call) : Life := tr.foldl (lifeStep h) Life.fresh

/-- Some target of the registry holds the handle `h`. -/
def Held (m : List (Str × Target)) (h : Handle) : Prop := ∃ kv ∈ m, kv.2.fp = some h

/-- The handles of the history and of the registry agree: no handle was
misused, the open handles are those the registry holds, and a handle whose
id the history has not reached is fresh. -/
def HandleInv (tr : List Call) (m : List (Str × Target)) : Prop :=
  ∀ h, life h tr ≠ Life.broken
    ∧ (life h tr = Life.opened ↔ Held m h)
    ∧ (tr.length ≤ h.id → life h tr = Life.fresh)

/-- The calls `FlushTarget` makes on the handle `h` for the buffer `b` when
`fwrite` reports `n` bytes. -/
def flushCalls (h : Handle) (b : Str) (n : Nat) : List Call :=
  if b.isEmpty then [] else [Call.fwrite h b n, Call.fflush h]

/-- The handle `fopen` returns for `"logs/a.log"` in `sampleRun`. -/
def sampleHandle : Handle := { id := 2, path := "logs/a.log".toList }

/-- A schedule that ends at the exit of the drain loop with one target that
still holds the line `"one;"` in its buffer. -/
def closingRun : List Label :=
  [Label.start, Label.threadEntry,
    Label.enqueue "logs/a.log".toList "one;".toList,
    Label.drainLock, Label.route, Label.sweep, Label.stopRequest, Label.drainLock]

/-! ## Directory chains

A relative path `d1/d2/.../dn/file` and the directories `d1`, `d1/d2`, ...
that lead to its file. -/

/-- The directory portion `d1/d2/.../dn` of the components `d1`, ..., `dn`. -/
def joinDirs : List Str → Str
  | [] => []
  | [d] => d
  | d :: ds => d ++ '/' :: joinDirs ds

/-- The directories `d1`, `d1/d2`, ..., `d1/.../dn`, shortest first. -/
def dirChain : List Str → List Str
  | [] => []
  | d :: ds => d :: (dirChain ds).map (fun p => d ++ '/' :: p)

/-- The same directories below a directory string `cur` that has been read
already: `cur d1`, `cur d1/d2`, ... -/
def walkDirs (cur : Str) : List Str → List Str
  | [] => []
  | d :: ds => (cur ++ d) :: walkDirs (cur ++ d ++ ['/']) ds

/-- A component that reads as a drive letter: a letter and a colon. -/
def driveLike (d : Str) : Bool :=
  match d with
  | [a, b] => a.isAlpha && decide (b = ':')
  | _ => false

/-- What `EnsureParentDirs` does for one directory: `DirExists`, and
`MkdirOne` when the directory is reported missing. -/
def ensureDir (env : Env) (tr : List Call) (d : Str) : List Call × Bool :=
  let ex := DirExists env tr d
  if ex.2 then (ex.1, true) else MkdirOne env ex.1 d

/-- The directories of a list ensured one after the other, up to the first
failure. -/
def ensureAll (env : Env) : List Call → List Str → List Call × Bool
  | tr, [] => (tr, true)
  | tr, d :: ds =>
    let r := ensureDir env tr d
    if r.2 then ensureAll env r.1 ds else (r.1, false)

/-- The history shows the directory `d` to exist: a `DirExists` call found
it, or a create call made it or reported that it exists already. -/
def dirShown (tr : List Call) (d : Str) : Prop :=
  Call.dirExists d true ∈ tr ∨ Call.mkdir d MkdirResult.created ∈ tr
    ∨ Call.mkdir d MkdirResult.alreadyExists ∈ tr

/-- The paths of the create calls of a history, in order. -/
def mkdirPaths : List Call → List Str
  | [] => []
  | Call.mkdir p _ :: tr => p :: mkdirPaths tr
  | _ :: tr => mkdirPaths tr

/-- The directories a history shows to exist, latest last. -/
def knownDirs : List Call → List Str
  | [] => []
  | Call.dirExists p true :: tr => p :: knownDirs tr
  | Call.mkdir p MkdirResult.created :: tr => p :: knownDirs tr
  | Call.mkdir p MkdirResult.alreadyExists :: tr => p :: knownDirs tr
  | _ :: tr => knownDirs tr

/-- The path `p` names an entry directly inside the directory `q`. -/
def childOf (p q : Str) : Bool :=
  p.take (q.length + 1) == q ++ ['/'] && !(p.drop (q.length + 1)).contains '/'

/-- A file system that starts with an empty working directory and loses
nothing: a directory exists when the history shows it; a create call reports
one that exists, makes one whose parent is the working directory or exists,
and fails otherwise. -/
def plainFsEnv : Env :=
  { okEnv with
    dirExists := fun tr p => decide (p ∈ knownDirs tr)
    mkdir := fun tr p =>
      if p ∈ knownDirs tr then MkdirResult.alreadyExists
      else if !p.contains '/' || (knownDirs tr).any (childOf p) then MkdirResult.created
      else MkdirResult.error }

/-- A file system in which another process creates every directory between
the test and the create call: no directory is found, every create call
reports that the directory exists already. -/
def raceEnv : Env :=
  { okEnv with
    dirExists := fun _ _ => false
    mkdir := fun _ _ => MkdirResult.alreadyExists }

/-- The end of `EnsureParentDirs` applied to the result of its loop. -/
def finishWalk (env : Env) (r : List Call × Option Str) : List Call × Bool :=
  match r with
  | (tr1, none) => (tr1, false)
  | (tr1, some cur) => mkdirFinal env tr1 cur

/-! # Properties -/

/-! ## Enqueue -/

section EnqueueFacts

theorem normalizePath_isEmpty_false {path : Str} (h : NormalizePath path ≠ []) :
    (NormalizePath path).isEmpty = false := by
  cases hp : NormalizePath path with
  | nil => exact absurd hp h
  | cons c cs => rfl

theorem isEmpty_false_of_ne_nil {α : Type} {l : List α} (h : l ≠ []) :
    l.isEmpty = false := by
  cases l with
  | nil => exact absurd rfl h
  | cons c cs => rfl

/-- The three refusals of `Enqueue` and its acceptance, as one case split. -/
theorem enqueue_cases (s : State) (path line : Str) :
    (((NormalizePath path = [] ∨ line = []) ∨ s.m_Running = false) ∧
        Enqueue s path line = (s, false))
    ∨ (NormalizePath path ≠ [] ∧ line ≠ [] ∧ s.m_Running = true ∧
        s.m_QueuedBytes + ((NormalizePath path).length + line.length) > kMaxQueuedBytes ∧
        Enqueue s path line = ({ s with m_Dropped := s.m_Dropped + 1 }, false))
    ∨ (NormalizePath path ≠ [] ∧ line ≠ [] ∧ s.m_Running = true ∧
        s.m_QueuedBytes + ((NormalizePath path).length + line.length) ≤ kMaxQueuedBytes ∧
        Enqueue s path line =
          ({ s with
              m_QueuedBytes := s.m_QueuedBytes + ((NormalizePath path).length + line.length),
              m_Queue := s.m_Queue ++ [{ path := NormalizePath path, line := line }] },
            true)) := by
  by_cases hp : NormalizePath path = []
  · left
    refine ⟨Or.inl (Or.inl hp), ?_⟩
    simp [Enqueue, hp]
  by_cases hl : line = []
  · left
    refine ⟨Or.inl (Or.inr hl), ?_⟩
    simp [Enqueue, hl]
  by_cases hr : s.m_Running = true
  · by_cases hq :
      s.m_QueuedBytes + ((NormalizePath path).length + line.length) > kMaxQueuedBytes
    · right; left
      refine ⟨hp, hl, hr, hq, ?_⟩
      simp [Enqueue, normalizePath_isEmpty_false hp, isEmpty_false_of_ne_nil hl, hr, hq]
    · right; right
      refine ⟨hp, hl, hr, Nat.le_of_not_lt hq, ?_⟩
      simp only [Enqueue, normalizePath_isEmpty_false hp, isEmpty_false_of_ne_nil hl, hr]
      simp [hq]
  · left
    have hr2 : s.m_Running = false := by simpa using hr
    refine ⟨Or.inr hr2, ?_⟩
    simp [Enqueue, normalizePath_isEmpty_false hp, isEmpty_false_of_ne_nil hl, hr2]

end EnqueueFacts

/-- C1. A refusal for a full queue is atomic: on a Running writer, with a
path and a line that are non-empty after normalization, when
`queuedBytes + len(normalize(path)) + len(line)` exceeds 8 MiB, `Enqueue`
returns false, the drop counter grows by exactly one, and nothing else of the
state changes; in particular the queue and `queuedBytes` are unchanged. -/
theorem enqueue_refusal_atomic (s : State) (path line : Str)
    (hrun : s.m_Running = true) (hpath : NormalizePath path ≠ []) (hline : line ≠ [])
    (hfull : s.m_QueuedBytes + (NormalizePath path).length + line.length
      > 8 * 1024 * 1024) :
    (Enqueue s path line).2 = false
    ∧ (Enqueue s path line).1.m_Dropped = s.m_Dropped + 1
    ∧ (Enqueue s path line).1.m_Queue = s.m_Queue
    ∧ (Enqueue s path line).1.m_QueuedBytes = s.m_QueuedBytes
    ∧ (Enqueue s path line).1 = { s with m_Dropped := s.m_Dropped + 1 } := by
  have hfull2 :
      s.m_QueuedBytes + ((NormalizePath path).length + line.length) > kMaxQueuedBytes := by
    simp only [kMaxQueuedBytes]; omega
  rcases enqueue_cases s path line with h | h | h
  · rcases h.1 with (h1 | h1) | h1
    · exact absurd h1 hpath
    · exact absurd h1 hline
    · rw [hrun] at h1; exact absurd h1 (by decide)
  · rw [h.2.2.2.2]; simp
  · exact absurd h.2.2.2.1 (Nat.not_le_of_gt hfull2)

/-- C1 at `fullState`: an enqueue of 3 + 4 bytes is refused. -/
theorem enqueue_refusal_atomic_witness :
    (Enqueue fullState "a\\b".toList "line".toList).2 = false
    ∧ (Enqueue fullState "a\\b".toList "line".toList).1.m_Dropped = 1
    ∧ (Enqueue fullState "a\\b".toList "line".toList).1.m_Queue = fullState.m_Queue
    ∧ (Enqueue fullState "a\\b".toList "line".toList).1.m_QueuedBytes = 8 * 1024 * 1024 := by
  have h := enqueue_refusal_atomic fullState "a\\b".toList "line".toList rfl (by decide)
    (by decide) (by decide)
  exact ⟨h.1, h.2.1, h.2.2.1, h.2.2.2.1⟩

/-- C2. `Enqueue` returns true exactly when the writer is Running, the
normalized path and the line are non-empty and
`queuedBytes + len(normalize(path)) + len(line) ≤ 8 MiB` (a total of exactly
8 MiB is accepted); and then the new queue is the old one with the single entry
`(normalize(path), line)` at the back, `queuedBytes` has grown by
`len(normalize(path)) + len(line)`, and the drop counter (with everything
else) is unchanged. -/
theorem enqueue_accepts_iff (s : State) (path line : Str) :
    ((Enqueue s path line).2 = true ↔
      (s.m_Running = true ∧ NormalizePath path ≠ [] ∧ line ≠ [] ∧
        s.m_QueuedBytes + (NormalizePath path).length + line.length ≤ 8 * 1024 * 1024))
    ∧ ((Enqueue s path line).2 = true →
        (Enqueue s path line).1.m_Queue
            = s.m_Queue ++ [{ path := NormalizePath path, line := line }]
        ∧ (Enqueue s path line).1.m_QueuedBytes
            = s.m_QueuedBytes + ((NormalizePath path).length + line.length)
        ∧ (Enqueue s path line).1.m_Dropped = s.m_Dropped
        ∧ (Enqueue s path line).1 =
            { s with
              m_QueuedBytes := s.m_QueuedBytes + ((NormalizePath path).length + line.length),
              m_Queue := s.m_Queue ++ [{ path := NormalizePath path, line := line }] }) := by
  have hk : kMaxQueuedBytes = 8 * 1024 * 1024 := rfl
  rcases enqueue_cases s path line with h | h | h
  · rw [h.2]
    refine ⟨⟨fun hc => absurd hc (by simp), fun hc => ?_⟩, fun hc => absurd hc (by simp)⟩
    rcases h.1 with (h1 | h1) | h1
    · exact absurd h1 hc.2.1
    · exact absurd h1 hc.2.2.1
    · rw [hc.1] at h1; exact absurd h1 (by decide)
  · rw [h.2.2.2.2]
    refine ⟨⟨fun hc => absurd hc (by simp), fun hc => ?_⟩, fun hc => absurd hc (by simp)⟩
    have := h.2.2.2.1
    have := hc.2.2.2
    omega
  · rw [h.2.2.2.2]
    refine ⟨⟨fun _ => ⟨h.2.2.1, h.1, h.2.1, ?_⟩, fun _ => rfl⟩, fun _ => ⟨rfl, rfl, rfl, rfl⟩⟩
    have := h.2.2.2.1
    omega

/-- C2 at `nearlyFullState`: an enqueue of 3 + 4 bytes brings the total to
exactly 8 MiB and is accepted. -/
theorem enqueue_accepts_iff_witness :
    (Enqueue nearlyFullState "a\\b".toList "line".toList).2 = true
    ∧ (Enqueue nearlyFullState "a\\b".toList "line".toList).1.m_Queue
        = nearlyFullState.m_Queue ++ [{ path := "a/b".toList, line := "line".toList }]
    ∧ (Enqueue nearlyFullState "a\\b".toList "line".toList).1.m_QueuedBytes
        = 8 * 1024 * 1024
    ∧ (Enqueue nearlyFullState "a\\b".toList "line".toList).1.m_Dropped = 0 := by
  have h := enqueue_accepts_iff nearlyFullState "a\\b".toList "line".toList
  have hacc : (Enqueue nearlyFullState "a\\b".toList "line".toList).2 = true :=
    h.1.2 ⟨rfl, by decide, by decide, by decide⟩
  exact ⟨hacc, (h.2 hacc).1, (h.2 hacc).2.1, (h.2 hacc).2.2.1⟩

/-! ## NormalizePath -/

theorem foldl_collapseStep (l : Str) (out : Str) (prev : Char) :
    (l.foldl collapseStep (out, prev)).1 = out ++ collapse prev l := by
  induction l generalizing out prev with
  | nil => simp [collapse]
  | cons c cs ih =>
    simp only [List.foldl_cons, collapseStep, collapse]
    by_cases h : c = '/' ∧ prev = '/'
    · simp only [h, and_self, if_true]
      have := ih out prev
      simpa [h.1, h.2] using this
    · rw [if_neg h, if_neg h, ih]
      simp

theorem normalizePath_eq_collapse (path : Str) :
    NormalizePath path
      = collapse '\x00' (path.map (fun c => if c = '\\' then '/' else c)) := by
  simp [NormalizePath, foldl_collapseStep]

theorem sepRuns_head (s : Str) :
    (sepRuns s = [] ∧ s = []) ∨
    (∃ r rest, sepRuns s = (headSep s, r) :: rest ∧ r ≠ []) := by
  cases s with
  | nil => left; simp [sepRuns]
  | cons c cs =>
    right
    simp only [sepRuns, headSep]
    cases h : sepRuns cs with
    | nil => exact ⟨[c], [], rfl, by simp⟩
    | cons br rest =>
      obtain ⟨b, r⟩ := br
      by_cases hb : b = isSeparator c
      · subst hb
        exact ⟨c :: r, rest, by simp, by simp⟩
      · exact ⟨[c], (b, r) :: rest, by simp [hb], by simp⟩

theorem normalizeRef_nil : normalizeRef [] = [] := by
  simp [normalizeRef, sepRuns]

theorem normalizeRef_cons_other (c : Char) (cs : Str) (h : isSeparator c = false) :
    normalizeRef (c :: cs) = c :: normalizeRef cs := by
  simp only [normalizeRef, sepRuns]
  cases hr : sepRuns cs with
  | nil => simp [h]
  | cons br rest =>
    obtain ⟨b, r⟩ := br
    cases b <;> simp [h]

theorem normalizeRef_of_headSep (cs : Str) (h : headSep cs = true) :
    normalizeRef cs = '/' :: (normalizeRef cs).tail := by
  rcases sepRuns_head cs with ⟨_, h0⟩ | ⟨r, rest, h1, _⟩
  · subst h0; simp [headSep] at h
  · simp [normalizeRef, h1, h]

theorem normalizeRef_cons_sep (c : Char) (cs : Str) (h : isSeparator c = true) :
    normalizeRef (c :: cs)
      = if headSep cs then normalizeRef cs else '/' :: normalizeRef cs := by
  rcases sepRuns_head cs with ⟨h0, h1⟩ | ⟨r, rest, h1, _⟩
  · subst h1; simp [normalizeRef, sepRuns, h, headSep]
  · simp only [normalizeRef, sepRuns, h1, h]
    cases hs : headSep cs <;> simp

theorem collapse_eq_normalizeRef (s : Str) (prev : Char) :
    collapse prev (s.map (fun c => if c = '\\' then '/' else c))
      = if prev = '/' ∧ headSep s = true then (normalizeRef s).tail else normalizeRef s := by
  induction s generalizing prev with
  | nil => simp [collapse, normalizeRef_nil, headSep]
  | cons c cs ih =>
    by_cases hc : isSeparator c = true
    · have hmap : (if c = '\\' then '/' else c) = '/' := by
        simp only [isSeparator, Bool.or_eq_true, decide_eq_true_eq] at hc
        rcases hc with hc | hc <;> simp [hc]
      simp only [List.map_cons, hmap, collapse, headSep, hc, and_true, true_and]
      rw [normalizeRef_cons_sep c cs hc]
      by_cases hp : prev = '/'
      · subst hp
        rw [ih '/']
        by_cases hh : headSep cs = true
        · simp [hh]
        · simp [hh]
      · rw [ih '/']
        by_cases hh : headSep cs = true
        · simp only [hp, hh, if_true, if_false, true_and]
          exact (normalizeRef_of_headSep cs hh).symm
        · simp [hp, hh]
    · have hc2 : isSeparator c = false := by simpa using hc
      have hne : c ≠ '/' ∧ c ≠ '\\' := by
        simp only [isSeparator, Bool.or_eq_false_iff, decide_eq_false_iff_not] at hc2
        exact hc2
      simp only [List.map_cons, if_neg hne.2, collapse, hne.1, false_and, if_false, headSep, hc2,
        and_false]
      rw [ih c, normalizeRef_cons_other c cs hc2]
      simp [hne.1]

theorem collapse_subset (prev : Char) (l : Str) : ∀ c ∈ collapse prev l, c ∈ l := by
  induction l generalizing prev with
  | nil => simp [collapse]
  | cons a as ih =>
    intro c hc
    simp only [collapse] at hc
    split at hc
    · exact List.mem_cons_of_mem _ (ih prev c hc)
    · rcases List.mem_cons.1 hc with h | h
      · simp [h]
      · exact List.mem_cons_of_mem _ (ih a c h)

theorem collapse_chain (prev : Char) (l : Str) :
    List.Chain (fun a b => ¬(a = '/' ∧ b = '/')) prev (collapse prev l) := by
  induction l generalizing prev with
  | nil => simp [collapse]
  | cons a as ih =>
    simp only [collapse]
    split
    · exact ih prev
    · rename_i h
      exact List.Chain.cons (fun hh => h ⟨hh.2, hh.1⟩) (ih a)

/-- C6. `NormalizePath` equals its reference `normalizeRef`: every maximal run
of separators (`'/'` or backslash, in any mixture) becomes a single `'/'` and
every other character is kept in order; hence the output has no backslash and
no two adjacent `'/'`. The two sample values of the specification are
included. -/
theorem normalizePath_refines (path : Str) :
    NormalizePath path = normalizeRef path
    ∧ '\\' ∉ NormalizePath path
    ∧ ¬ (['/', '/'] <:+: NormalizePath path)
    ∧ NormalizePath "a\\b//c".toList = "a/b/c".toList
    ∧ NormalizePath [] = [] := by
  refine ⟨?_, ?_, ?_, by decide, by decide⟩
  · rw [normalizePath_eq_collapse, collapse_eq_normalizeRef]
    simp
  · rw [normalizePath_eq_collapse]
    intro h
    have := collapse_subset _ _ _ h
    simp only [List.mem_map] at this
    obtain ⟨a, _, ha⟩ := this
    by_cases hb : a = '\\'
    · simp [hb] at ha
    · simp [hb] at ha
  · rw [normalizePath_eq_collapse]
    intro hin
    have hch : List.Chain' (fun a b : Char => ¬(a = '/' ∧ b = '/'))
        ('\x00' :: collapse '\x00' (path.map (fun c => if c = '\\' then '/' else c))) :=
      collapse_chain _ _
    have := List.Chain'.infix (List.Chain'.tail hch) hin
    simp [List.chain'_pair] at this

/-! ## The queue invariant -/

theorem queueBytes_append (q : List Entry) (e : Entry) :
    queueBytes (q ++ [e]) = queueBytes q + (e.path.length + e.line.length) := by
  simp [queueBytes]

theorem queueInv_init : QueueInv State.init := by
  simp [QueueInv, State.init, queueBytes]

theorem queueInv_enqueue (s : State) (path line : Str) (h : QueueInv s) :
    QueueInv (Enqueue s path line).1 := by
  obtain ⟨h1, h2, h3, h4⟩ := h
  rcases enqueue_cases s path line with c | c | c
  · rw [c.2]; exact ⟨h1, h2, h3, h4⟩
  · rw [c.2.2.2.2]; exact ⟨h1, h2, h3, h4⟩
  · rw [c.2.2.2.2]
    refine ⟨?_, c.2.2.2.1, h3, h4⟩
    simp only [queueBytes_append, h1]

theorem queueInv_drainLock (s : State) (h : QueueInv s) (hpc : s.pc = ThreadPc.loopHead) :
    QueueInv (drainLock s) ∧ (drainLock s).m_Queue = [] ∧ (drainLock s).m_QueuedBytes = 0 := by
  obtain ⟨h1, h2, h3, h4⟩ := h
  have hl : s.localQ = [] := h3 (by rw [hpc]; decide)
  have hr : s.m_Running = true := by
    cases hrun : s.m_Running with
    | true => rfl
    | false => have := h4 hrun; rw [hpc] at this; exact absurd this (by decide)
  cases hq : s.m_Queue with
  | nil =>
    have hz : s.m_QueuedBytes = 0 := by rw [h1, hq]; rfl
    unfold drainLock
    simp only [hq, hl, List.isEmpty_nil, Bool.not_true, Bool.false_eq_true, if_false,
      Bool.and_true]
    split <;> simp [QueueInv, hq, hz, hl, hr, queueBytes]
  | cons e q =>
    unfold drainLock
    simp only [hq, hl, List.isEmpty_cons, Bool.not_false, if_true, Bool.and_false,
      Bool.false_eq_true, if_false, Bool.and_true]
    simp [QueueInv, hr, queueBytes]

theorem queueInv_step (env : Env) (s : State) (l : Label) (h : QueueInv s) :
    QueueInv (step env s l) := by
  cases l with
  | enqueue path line => exact queueInv_enqueue s path line h
  | drainLock =>
    simp only [step]
    split
    · rename_i hpc; exact (queueInv_drainLock s h hpc).1
    · exact h
  | start =>
    obtain ⟨h1, h2, h3, h4⟩ := h
    simp only [step, Start]
    split
    · exact ⟨h1, h2, h3, h4⟩
    · split
      · exact ⟨h1, h2, h3, h4⟩
      · rename_i hr
        have hr2 : s.m_Running = false := by simpa using hr
        have hpc := h4 hr2
        refine ⟨h1, h2, fun _ => h3 (by rw [hpc]; decide), fun hc => ?_⟩
        simp at hc
  | stopRequest =>
    obtain ⟨h1, h2, h3, h4⟩ := h
    simp only [step, StopRequest]
    split
    · exact ⟨h1, h2, h3, h4⟩
    · split
      · exact ⟨h1, h2, h3, h4⟩
      · rename_i hr
        refine ⟨h1, h2, h3, fun hc => ?_⟩
        simp only [Bool.not_eq_true', Bool.not_eq_false] at hr
        exact absurd hc (by simp [hr])
  | stopJoin =>
    obtain ⟨h1, h2, h3, h4⟩ := h
    simp only [step, StopJoin]
    split
    · rename_i hc
      simp only [Bool.and_eq_true, decide_eq_true_eq] at hc
      exact ⟨h1, h2, fun _ => h3 (by rw [hc.2]; decide), fun _ => rfl⟩
    · exact ⟨h1, h2, h3, h4⟩
  | threadEntry =>
    obtain ⟨h1, h2, h3, h4⟩ := h
    simp only [step, threadEntry]
    split
    · rename_i hpc
      refine ⟨h1, h2, fun _ => rfl, fun hc => ?_⟩
      have := h4 hc
      rw [hpc] at this
      exact absurd this (by decide)
    · exact ⟨h1, h2, h3, h4⟩
  | route =>
    obtain ⟨h1, h2, h3, h4⟩ := h
    simp only [step, routeLocal]
    split
    · rename_i hpc
      refine ⟨h1, h2, fun _ => rfl, fun hc => ?_⟩
      have := h4 hc
      rw [hpc] at this
      exact absurd this (by decide)
    · exact ⟨h1, h2, h3, h4⟩
  | sweep =>
    obtain ⟨h1, h2, h3, h4⟩ := h
    simp only [step]
    split
    · rename_i hpc
      have hl : s.localQ = [] := h3 (by rw [hpc]; decide)
      have hr : s.m_Running = true := by
        cases hrun : s.m_Running with
        | true => rfl
        | false => have := h4 hrun; rw [hpc] at this; exact absurd this (by decide)
      unfold periodic
      simp only
      split
      · split
        · exact ⟨h1, h2, fun _ => hl, fun hc => by rw [hr] at hc; exact absurd hc (by decide)⟩
        · exact ⟨h1, h2, fun _ => hl, fun hc => by rw [hr] at hc; exact absurd hc (by decide)⟩
      · exact ⟨h1, h2, fun _ => hl, fun hc => by rw [hr] at hc; exact absurd hc (by decide)⟩
    · exact ⟨h1, h2, h3, h4⟩
  | threadExit =>
    obtain ⟨h1, h2, h3, h4⟩ := h
    simp only [step, threadExit]
    split
    · rename_i hpc
      have hl : s.localQ = [] := h3 (by rw [hpc]; decide)
      refine ⟨h1, h2, fun _ => hl, fun hc => ?_⟩
      have := h4 hc
      rw [hpc] at this
      exact absurd this (by decide)
    · exact ⟨h1, h2, h3, h4⟩

theorem exec_append (env : Env) (s : State) (l1 l2 : List Label) :
    exec env s (l1 ++ l2) = exec env (exec env s l1) l2 := by
  simp [exec, List.foldl_append]

theorem exec_cons (env : Env) (s : State) (l : Label) (ls : List Label) :
    exec env s (l :: ls) = exec env (step env s l) ls := rfl

theorem queueInv_exec (env : Env) (ls : List Label) (s : State) (h : QueueInv s) :
    QueueInv (exec env s ls) := by
  induction ls generalizing s with
  | nil => exact h
  | cons l ls ih => exact ih _ (queueInv_step env s l h)

/-- C3. Queue accounting: in every state reached from the constructed writer
by any schedule of `Start`, `Enqueue`, the sections of the drain thread and
`Stop`, under any environment, `queuedBytes` is the sum of
`len(path) + len(line)` over the entries in the shared queue and is at most
8 MiB; and a swap taken by the drain loop in such a state leaves the shared
queue empty with `queuedBytes = 0`. -/
theorem queue_accounting_invariant (env : Env) (ls : List Label) :
    (exec env State.init ls).m_QueuedBytes = queueBytes (exec env State.init ls).m_Queue
    ∧ (exec env State.init ls).m_QueuedBytes ≤ 8 * 1024 * 1024
    ∧ ((exec env State.init ls).pc = ThreadPc.loopHead →
        (step env (exec env State.init ls) Label.drainLock).m_Queue = []
        ∧ (step env (exec env State.init ls) Label.drainLock).m_QueuedBytes = 0) := by
  have h := queueInv_exec env ls State.init queueInv_init
  refine ⟨h.1, h.2.1, fun hpc => ?_⟩
  simp only [step, hpc, if_true]
  exact (queueInv_drainLock _ h hpc).2

/-- C3 on a schedule: two accepted enqueues, then the swap. -/
theorem queue_accounting_invariant_witness :
    (exec okEnv State.init
        [Label.start, Label.threadEntry, Label.enqueue "a/b".toList "one".toList,
          Label.enqueue "a\\b".toList "two".toList]).m_QueuedBytes = 12
    ∧ (exec okEnv State.init
        [Label.start, Label.threadEntry, Label.enqueue "a/b".toList "one".toList,
          Label.enqueue "a\\b".toList "two".toList]).pc = ThreadPc.loopHead
    ∧ (step okEnv (exec okEnv State.init
        [Label.start, Label.threadEntry, Label.enqueue "a/b".toList "one".toList,
          Label.enqueue "a\\b".toList "two".toList]) Label.drainLock).m_Queue = []
    ∧ (step okEnv (exec okEnv State.init
        [Label.start, Label.threadEntry, Label.enqueue "a/b".toList "one".toList,
          Label.enqueue "a\\b".toList "two".toList]) Label.drainLock).m_QueuedBytes = 0 := by
  have h := queue_accounting_invariant okEnv
    [Label.start, Label.threadEntry, Label.enqueue "a/b".toList "one".toList,
      Label.enqueue "a\\b".toList "two".toList]
  exact ⟨by decide, by decide, (h.2.2 (by decide)).1, (h.2.2 (by decide)).2⟩

/-! ## Sequences of enqueues -/

theorem collapse_length_le (prev : Char) (l : Str) : (collapse prev l).length ≤ l.length := by
  induction l generalizing prev with
  | nil => simp [collapse]
  | cons a as ih =>
    simp only [collapse]
    split
    · exact Nat.le_succ_of_le (ih prev)
    · simpa using ih a

theorem normalizePath_length_le (path : Str) : (NormalizePath path).length ≤ path.length := by
  rw [normalizePath_eq_collapse]
  simpa using collapse_length_le '\x00' (path.map (fun c => if c = '\\' then '/' else c))

theorem normalizePath_ne_nil {path : Str} (h : path ≠ []) : NormalizePath path ≠ [] := by
  cases path with
  | nil => exact absurd rfl h
  | cons c cs =>
    rw [normalizePath_eq_collapse]
    simp [collapse]

theorem normalizedBytes_le_submittedBytes (ls : List Label) :
    normalizedBytes ls ≤ submittedBytes ls := by
  induction ls with
  | nil => simp [normalizedBytes, submittedBytes]
  | cons l ls ih =>
    cases l <;> simp only [normalizedBytes, submittedBytes] <;> try exact ih
    rename_i path line
    have := normalizePath_length_le path
    omega

/-- What a step other than an `Enqueue` and the end of `Stop` does to the
fields `Enqueue` reads, on a Running writer. -/
theorem step_other_frame (env : Env) (s : State) (l : Label) (hrun : s.m_Running = true)
    (hj : l ≠ Label.stopJoin) (he : ∀ path line, l ≠ Label.enqueue path line) :
    (step env s l).m_Running = true
    ∧ (step env s l).m_QueuedBytes ≤ s.m_QueuedBytes
    ∧ (step env s l).m_Dropped ≤ s.m_Dropped := by
  cases l with
  | enqueue path line => exact absurd rfl (he path line)
  | stopJoin => exact absurd rfl hj
  | start => simp only [step, Start, hrun, if_true, ite_self]; simp [hrun]
  | stopRequest =>
    simp only [step, StopRequest, hrun]
    split <;> simp [hrun]
  | threadEntry =>
    simp only [step, threadEntry]
    split <;> simp [hrun]
  | drainLock =>
    simp only [step, drainLock]
    split
    · split <;> split <;> simp [hrun]
    · simp [hrun]
  | route =>
    simp only [step, routeLocal]
    split <;> simp [hrun]
  | sweep =>
    simp only [step, periodic]
    split
    · split
      · split <;> simp [hrun]
      · simp [hrun]
    · simp [hrun]
  | threadExit =>
    simp only [step, threadExit]
    split <;> simp [hrun]

theorem all_accepted_of_normalized_budget (env : Env) (ls : List Label) (s : State)
    (hrun : s.m_Running = true) (hdrop : s.m_Dropped = 0)
    (hj : Label.stopJoin ∉ ls) (hne : nonEmptyArgs ls)
    (hcum : s.m_QueuedBytes + normalizedBytes ls ≤ kMaxQueuedBytes) :
    (∀ b ∈ enqueueResults env s ls, b = true) ∧ (exec env s ls).m_Dropped = 0 := by
  induction ls generalizing s with
  | nil => simp [enqueueResults, exec, hdrop]
  | cons l ls ih =>
    have hj1 : l ≠ Label.stopJoin := fun h => hj (by simp [h])
    have hj2 : Label.stopJoin ∉ ls := fun h => hj (List.mem_cons_of_mem _ h)
    by_cases he : ∃ path line, l = Label.enqueue path line
    · obtain ⟨path, line, rfl⟩ := he
      simp only [nonEmptyArgs] at hne
      simp only [normalizedBytes] at hcum
      have hp := normalizePath_ne_nil hne.1
      rcases enqueue_cases s path line with c | c | c
      · rcases c.1 with (h1 | h1) | h1
        · exact absurd h1 hp
        · exact absurd h1 hne.2.1
        · rw [hrun] at h1; exact absurd h1 (by decide)
      · have := c.2.2.2.1
        omega
      · have hs : step env s (Label.enqueue path line) = (Enqueue s path line).1 := rfl
        have := ih (step env s (Label.enqueue path line))
          (by rw [hs, c.2.2.2.2]; exact hrun) (by rw [hs, c.2.2.2.2]; exact hdrop) hj2 hne.2.2
          (by rw [hs, c.2.2.2.2]; simp only; omega)
        refine ⟨?_, by rw [exec_cons]; exact this.2⟩
        intro b hb
        simp only [enqueueResults, List.mem_cons] at hb
        rcases hb with hb | hb
        · rw [hb, c.2.2.2.2]
        · exact this.1 b hb
    · have he2 : ∀ path line, l ≠ Label.enqueue path line := fun p q h => he ⟨p, q, h⟩
      have hf := step_other_frame env s l hrun hj1 he2
      have hres : enqueueResults env s (l :: ls) = enqueueResults env (step env s l) ls := by
        cases l <;> first | rfl | exact absurd rfl (he2 _ _)
      have hnb : normalizedBytes (l :: ls) = normalizedBytes ls := by
        cases l <;> first | rfl | exact absurd rfl (he2 _ _)
      have hne2 : nonEmptyArgs ls := by
        cases l <;> first | exact hne | exact absurd rfl (he2 _ _)
      rw [hnb] at hcum
      have := ih (step env s l) hf.1 (by have := hf.2.2; omega) hj2 hne2
        (by have := hf.2.1; omega)
      rw [hres, exec_cons]
      exact this

/-- C5. On a Running writer with drop counter 0, for every schedule of
`Enqueue` calls with non-empty paths and lines, interleaved in any way with
the drain thread (queue swaps included), whose cumulative size, the sum of
`len(path) + len(line)` measured on the paths as submitted or as normalized,
fits into 8 MiB together with what is already queued (nothing, for a fresh
writer): every call returns true and the drop counter stays 0. -/
theorem enqueues_all_accepted (env : Env) (s : State) (ls : List Label)
    (hrun : s.m_Running = true) (hdrop : s.m_Dropped = 0)
    (hstop : Label.stopJoin ∉ ls) (hne : nonEmptyArgs ls)
    (hcum : s.m_QueuedBytes + submittedBytes ls ≤ 8 * 1024 * 1024
      ∨ s.m_QueuedBytes + normalizedBytes ls ≤ 8 * 1024 * 1024) :
    (∀ b ∈ enqueueResults env s ls, b = true) ∧ (exec env s ls).m_Dropped = 0 := by
  apply all_accepted_of_normalized_budget env ls s hrun hdrop hstop hne
  have := normalizedBytes_le_submittedBytes ls
  simp only [kMaxQueuedBytes]
  rcases hcum with h | h <;> omega

/-- C5 on a schedule: two enqueues around a queue swap, on a started writer. -/
theorem enqueues_all_accepted_witness :
    enqueueResults okEnv (exec okEnv State.init [Label.start, Label.threadEntry])
        [Label.enqueue "logs//a.log".toList "one".toList, Label.drainLock,
          Label.enqueue "logs\\a.log".toList "two".toList, Label.route, Label.sweep]
      = [true, true]
    ∧ (exec okEnv (exec okEnv State.init [Label.start, Label.threadEntry])
        [Label.enqueue "logs//a.log".toList "one".toList, Label.drainLock,
          Label.enqueue "logs\\a.log".toList "two".toList, Label.route,
          Label.sweep]).m_Dropped = 0 := by
  have h := enqueues_all_accepted okEnv (exec okEnv State.init [Label.start, Label.threadEntry])
    [Label.enqueue "logs//a.log".toList "one".toList, Label.drainLock,
      Label.enqueue "logs\\a.log".toList "two".toList, Label.route, Label.sweep]
    (by decide) (by decide) (by decide)
    ⟨by decide, by decide, by decide, by decide, True.intro⟩ (Or.inl (by decide))
  exact ⟨by decide, h.2⟩

/-! ## `OpenTarget` -/

theorem openTarget_of_open (env : Env) (tr : List Call) (t : Target) (path : Str)
    (h : t.fp ≠ none) : OpenTarget env tr t path = (tr, t, true) := by
  cases hfp : t.fp with
  | none => exact absurd hfp h
  | some hd => simp [OpenTarget, hfp]

theorem openTarget_of_failed (env : Env) (tr : List Call) (t : Target) (path : Str)
    (hfp : t.fp = none) (hf : t.failed = true) : OpenTarget env tr t path = (tr, t, false) := by
  simp [OpenTarget, hfp, hf]

theorem openTarget_fresh_ok (env : Env) (tr : List Call) (t : Target) (path : Str)
    (hfp : t.fp = none) (hf : t.failed = false)
    (hopen : env.fopen (EnsureParentDirs env tr path).1 path = true) :
    OpenTarget env tr t path =
      ((EnsureParentDirs env tr path).1 ++
          [Call.fopen path (some { id := (EnsureParentDirs env tr path).1.length, path := path }),
            Call.setvbuf { id := (EnsureParentDirs env tr path).1.length, path := path }
              (64 * 1024),
            Call.nowMs (env.clock ((EnsureParentDirs env tr path).1 ++
              [Call.fopen path
                  (some { id := (EnsureParentDirs env tr path).1.length, path := path }),
                Call.setvbuf { id := (EnsureParentDirs env tr path).1.length, path := path }
                  (64 * 1024)]) % u64)],
        { t with
          fp := some { id := (EnsureParentDirs env tr path).1.length, path := path },
          last_flush_ms := env.clock ((EnsureParentDirs env tr path).1 ++
              [Call.fopen path
                  (some { id := (EnsureParentDirs env tr path).1.length, path := path }),
                Call.setvbuf { id := (EnsureParentDirs env tr path).1.length, path := path }
                  (64 * 1024)]) % u64 },
        true) := by
  simp [OpenTarget, hfp, hf, hopen, NowMs]

theorem openTarget_fresh_fail (env : Env) (tr : List Call) (t : Target) (path : Str)
    (hfp : t.fp = none) (hf : t.failed = false)
    (hopen : env.fopen (EnsureParentDirs env tr path).1 path = false) :
    OpenTarget env tr t path =
      ((EnsureParentDirs env tr path).1 ++ [Call.fopen path none],
        { t with fp := none, failed := true }, false) := by
  simp [OpenTarget, hfp, hf, hopen]

/-- C10. A failure of `EnsureParentDirs` alone never marks a target failed.
On a target that is neither open nor failed (a fresh one in particular),
`fopen` is called right after the calls of `EnsureParentDirs`, whatever
`EnsureParentDirs` returned; and when `EnsureParentDirs` returns false and the
`fopen` succeeds, `OpenTarget` returns true, `failed` stays false and the
handle is open. -/
theorem openTarget_ignores_dir_failure (env : Env) (tr : List Call) (t : Target) (path : Str)
    (hfp : t.fp = none) (hf : t.failed = false) :
    (∃ res rest, (OpenTarget env tr t path).1
        = (EnsureParentDirs env tr path).1 ++ Call.fopen path res :: rest)
    ∧ ((EnsureParentDirs env tr path).2 = false →
        env.fopen (EnsureParentDirs env tr path).1 path = true →
        (OpenTarget env tr t path).2.2 = true
        ∧ (OpenTarget env tr t path).2.1.failed = false
        ∧ (OpenTarget env tr t path).2.1.fp
            = some { id := (EnsureParentDirs env tr path).1.length, path := path }) := by
  constructor
  · cases hopen : env.fopen (EnsureParentDirs env tr path).1 path with
    | true =>
      rw [openTarget_fresh_ok env tr t path hfp hf hopen]
      exact ⟨_, _, rfl⟩
    | false =>
      rw [openTarget_fresh_fail env tr t path hfp hf hopen]
      exact ⟨_, _, rfl⟩
  · intro _ hopen
    rw [openTarget_fresh_ok env tr t path hfp hf hopen]
    exact ⟨rfl, hf, rfl⟩

/-- C10 on a sample: the parent directory cannot be created, the file opens. -/
theorem openTarget_ignores_dir_failure_witness :
    (EnsureParentDirs noDirEnv [] "x/file.log".toList).2 = false
    ∧ (OpenTarget noDirEnv [] {} "x/file.log".toList).2.2 = true
    ∧ (OpenTarget noDirEnv [] {} "x/file.log".toList).2.1.failed = false
    ∧ (OpenTarget noDirEnv [] {} "x/file.log".toList).2.1.fp
        = some { id := 2, path := "x/file.log".toList } := by
  have h := (openTarget_ignores_dir_failure noDirEnv [] {} "x/file.log".toList rfl rfl).2
    (by decide) (by decide)
  exact ⟨by decide, h.1, h.2.1, h.2.2⟩

/-! ## The history and the registry -/

theorem writtenTo_append (p : Str) (a b : List Call) :
    writtenTo p (a ++ b) = writtenTo p a ++ writtenTo p b := by
  induction a with
  | nil => simp [writtenTo]
  | cons c a ih => cases c <;> simp [writtenTo, ih]

theorem opensOf_append (p : Str) (a b : List Call) :
    opensOf p (a ++ b) = opensOf p a + opensOf p b := by
  induction a with
  | nil => simp [opensOf]
  | cons c a ih => cases c <;> simp [opensOf, ih, Nat.add_assoc]

theorem linesFor_append (p : Str) (a b : List Entry) :
    linesFor p (a ++ b) = linesFor p a ++ linesFor p b := by
  induction a with
  | nil => simp [linesFor]
  | cons c a ih => simp [linesFor, ih]

theorem writtenTo_dirCalls (p : Str) (ex : List Call) (h : ∀ c ∈ ex, isDirCall c = true) :
    writtenTo p ex = [] := by
  induction ex with
  | nil => rfl
  | cons c ex ih =>
    have hc := h c (List.mem_cons_self _ _)
    have ht := ih (fun d hd => h d (List.mem_cons_of_mem _ hd))
    cases c <;> simp [isDirCall] at hc <;> simp [writtenTo, ht]

theorem opensOf_dirCalls (p : Str) (ex : List Call) (h : ∀ c ∈ ex, isDirCall c = true) :
    opensOf p ex = 0 := by
  induction ex with
  | nil => rfl
  | cons c ex ih =>
    have hc := h c (List.mem_cons_self _ _)
    have ht := ih (fun d hd => h d (List.mem_cons_of_mem _ hd))
    cases c <;> simp [isDirCall] at hc <;> simp [opensOf, ht]

theorem dirExt_refl (tr : List Call) : DirExt tr tr := ⟨[], by simp⟩

theorem dirExt_trans {a b c : List Call} (h1 : DirExt a b) (h2 : DirExt b c) : DirExt a c := by
  obtain ⟨x, hx, hx2⟩ := h1
  obtain ⟨y, hy, hy2⟩ := h2
  refine ⟨x ++ y, by rw [hy, hx, List.append_assoc], ?_⟩
  intro d hd
  rcases List.mem_append.1 hd with hd | hd
  · exact hx2 d hd
  · exact hy2 d hd

theorem dirExt_dirExists (env : Env) (tr : List Call) (p : Str) :
    DirExt tr (DirExists env tr p).1 :=
  ⟨[_], rfl, by intro d hd; simp only [List.mem_singleton] at hd; rw [hd]; rfl⟩

theorem dirExt_mkdirOne (env : Env) (tr : List Call) (p : Str) :
    DirExt tr (MkdirOne env tr p).1 :=
  ⟨[_], rfl, by intro d hd; simp only [List.mem_singleton] at hd; rw [hd]; rfl⟩

theorem mkdirLoop_trace (env : Env) (rest cur : Str) (tr : List Call) :
    DirExt tr (mkdirLoop env rest cur tr).1 := by
  induction rest generalizing cur tr with
  | nil => exact dirExt_refl tr
  | cons c rest ih =>
    unfold mkdirLoop
    dsimp only
    split_ifs <;>
      first
      | exact ih _ _
      | exact dirExt_trans (dirExt_dirExists env tr _) (ih _ _)
      | exact dirExt_trans (dirExt_dirExists env tr _)
          (dirExt_trans (dirExt_mkdirOne env _ _) (ih _ _))
      | exact dirExt_trans (dirExt_dirExists env tr _) (dirExt_mkdirOne env _ _)

theorem mkdirFinal_trace (env : Env) (tr : List Call) (cur : Str) :
    DirExt tr (mkdirFinal env tr cur).1 := by
  unfold mkdirFinal
  dsimp only
  split_ifs <;>
    first
    | exact dirExt_refl tr
    | exact dirExt_dirExists env tr _
    | exact dirExt_trans (dirExt_dirExists env tr _) (dirExt_mkdirOne env _ _)

theorem ensureParentDirs_trace (env : Env) (tr : List Call) (path : Str) :
    DirExt tr (EnsureParentDirs env tr path).1 := by
  unfold EnsureParentDirs
  cases find_last_of path ['/', '\\'] with
  | none => exact dirExt_refl tr
  | some last_sep =>
    dsimp only
    split_ifs with h1
    · exact dirExt_refl tr
    · have hl := mkdirLoop_trace env
        ((path.take last_sep).drop (dirWalkStart (path.take last_sep)).1)
        (dirWalkStart (path.take last_sep)).2 tr
      cases hm : mkdirLoop env
          ((path.take last_sep).drop (dirWalkStart (path.take last_sep)).1)
          (dirWalkStart (path.take last_sep)).2 tr with
      | mk tr1 o =>
        rw [hm] at hl
        cases o with
        | none => exact hl
        | some cur => exact dirExt_trans hl (mkdirFinal_trace env tr1 cur)

theorem writtenTo_dirExt (p : Str) {a b : List Call} (h : DirExt a b) :
    writtenTo p b = writtenTo p a := by
  obtain ⟨ex, rfl, hex⟩ := h
  rw [writtenTo_append, writtenTo_dirCalls p ex hex, List.append_nil]

theorem opensOf_dirExt (p : Str) {a b : List Call} (h : DirExt a b) :
    opensOf p b = opensOf p a := by
  obtain ⟨ex, rfl, hex⟩ := h
  rw [opensOf_append, opensOf_dirCalls p ex hex, Nat.add_zero]

/-! ## The registry operations -/

theorem find_of_not_mem_keys (m : List (Str × Target)) (k : Str)
    (h : k ∉ m.map Prod.fst) : Targets.find m k = {} := by
  induction m with
  | nil => rfl
  | cons kv m ih =>
    obtain ⟨a, u⟩ := kv
    simp only [List.map_cons, List.mem_cons, not_or] at h
    have hne : a ≠ k := fun e => h.1 e.symm
    simp only [Targets.find, if_neg hne]
    exact ih h.2

theorem find_of_mem (m : List (Str × Target)) (k : Str) (t : Target)
    (hnd : (m.map Prod.fst).Nodup) (h : (k, t) ∈ m) : Targets.find m k = t := by
  induction m with
  | nil => simp at h
  | cons kv m ih =>
    obtain ⟨a, u⟩ := kv
    simp only [List.map_cons, List.nodup_cons] at hnd
    rcases List.mem_cons.1 h with h | h
    · injection h with h1 h2
      subst h1; subst h2
      simp [Targets.find]
    · have hne : a ≠ k := by
        rintro rfl
        exact hnd.1 (List.mem_map.2 ⟨(a, t), h, rfl⟩)
      simp only [Targets.find, if_neg hne]
      exact ih hnd.2 h

theorem find_mem_of_mem_keys (m : List (Str × Target)) (k : Str)
    (h : k ∈ m.map Prod.fst) : (k, Targets.find m k) ∈ m := by
  induction m with
  | nil => simp at h
  | cons kv m ih =>
    obtain ⟨a, u⟩ := kv
    by_cases hk : a = k
    · subst hk
      simp [Targets.find]
    · have hin : k ∈ m.map Prod.fst := by
        simp only [List.map_cons, List.mem_cons] at h
        rcases h with h | h
        · exact absurd h.symm hk
        · exact h
      simp only [Targets.find, if_neg hk]
      exact List.mem_cons_of_mem _ (ih hin)

theorem store_keys (m : List (Str × Target)) (k : Str) (t : Target) :
    (Targets.store m k t).map Prod.fst
      = if k ∈ m.map Prod.fst then m.map Prod.fst else m.map Prod.fst ++ [k] := by
  induction m with
  | nil => simp [Targets.store]
  | cons kv m ih =>
    obtain ⟨a, u⟩ := kv
    by_cases hk : a = k
    · subst hk
      simp only [Targets.store, if_true, List.map_cons, List.mem_cons, true_or]
    · have hk2 : ¬ k = a := fun e => hk e.symm
      simp only [Targets.store, if_neg hk, List.map_cons, ih, List.mem_cons, hk2, false_or]
      by_cases hin : k ∈ m.map Prod.fst
      · rw [if_pos hin, if_pos hin]
      · rw [if_neg hin, if_neg hin]; rfl

theorem store_nodup (m : List (Str × Target)) (k : Str) (t : Target)
    (hnd : (m.map Prod.fst).Nodup) : ((Targets.store m k t).map Prod.fst).Nodup := by
  rw [store_keys]
  by_cases h : k ∈ m.map Prod.fst
  · rw [if_pos h]; exact hnd
  · rw [if_neg h, List.nodup_append]
    refine ⟨hnd, by simp, ?_⟩
    intro a ha hb
    simp only [List.mem_singleton] at hb
    exact h (hb ▸ ha)

theorem mem_store (m : List (Str × Target)) (k : Str) (t : Target) (kv : Str × Target)
    (hnd : (m.map Prod.fst).Nodup)
    (h : kv ∈ Targets.store m k t) : kv = (k, t) ∨ (kv ∈ m ∧ kv.1 ≠ k) := by
  induction m with
  | nil => left; simpa [Targets.store] using h
  | cons au m ih =>
    obtain ⟨a, u⟩ := au
    simp only [List.map_cons, List.nodup_cons] at hnd
    by_cases hk : a = k
    · subst hk
      simp only [Targets.store, if_true, List.mem_cons] at h
      rcases h with h | h
      · left; exact h
      · right
        refine ⟨List.mem_cons_of_mem _ h, fun e => hnd.1 ?_⟩
        rw [← e]; exact List.mem_map.2 ⟨kv, h, rfl⟩
    · simp only [Targets.store, if_neg hk, List.mem_cons] at h
      rcases h with h | h
      · right; subst h; exact ⟨List.mem_cons_self _ _, hk⟩
      · rcases ih hnd.2 h with h2 | h2
        · left; exact h2
        · right; exact ⟨List.mem_cons_of_mem _ h2.1, h2.2⟩

theorem find_store_same (m : List (Str × Target)) (k : Str) (t : Target) :
    Targets.find (Targets.store m k t) k = t := by
  induction m with
  | nil => simp [Targets.store, Targets.find]
  | cons kv m ih =>
    obtain ⟨a, u⟩ := kv
    by_cases hk : a = k
    · simp [Targets.store, Targets.find, hk]
    · simp [Targets.store, Targets.find, hk, ih]

theorem find_store_other (m : List (Str × Target)) (k p : Str) (t : Target) (h : p ≠ k) :
    Targets.find (Targets.store m k t) p = Targets.find m p := by
  have h2 : ¬ k = p := fun e => h e.symm
  induction m with
  | nil => simp [Targets.store, Targets.find, h2]
  | cons kv m ih =>
    obtain ⟨a, u⟩ := kv
    by_cases hk : a = k
    · subst hk; simp [Targets.store, Targets.find, h2]
    · by_cases hp : a = p
      · subst hp; simp [Targets.store, Targets.find, hk]
      · simp [Targets.store, Targets.find, hk, hp, ih]

theorem store_find_self (m : List (Str × Target)) (k : Str) (h : k ∈ m.map Prod.fst) :
    Targets.store m k (Targets.find m k) = m := by
  induction m with
  | nil => simp at h
  | cons kv m ih =>
    obtain ⟨a, u⟩ := kv
    by_cases hk : a = k
    · subst hk; simp [Targets.store, Targets.find]
    · have hin : k ∈ m.map Prod.fst := by
        simp only [List.map_cons, List.mem_cons] at h
        rcases h with h | h
        · exact absurd h.symm hk
        · exact h
      simp [Targets.store, Targets.find, hk, ih hin]

/-! ## `FlushTarget`, `OpenTarget` and the routing of one entry -/

theorem flushTarget_of_no_handle (env : Env) (tr : List Call) (t : Target) (h : t.fp = none) :
    FlushTarget env tr t = (tr, t) := by
  simp [FlushTarget, h]

theorem flushTarget_of_empty (env : Env) (tr : List Call) (t : Target) (h : t.buffer = []) :
    FlushTarget env tr t = (tr, t) := by
  unfold FlushTarget
  cases t.fp <;> simp [h]

theorem flushTarget_of_data (env : Env) (tr : List Call) (t : Target) (hd : Handle)
    (hfp : t.fp = some hd) (hb : t.buffer ≠ []) :
    FlushTarget env tr t =
      (tr ++ [Call.fwrite hd t.buffer (env.fwrite tr hd t.buffer), Call.fflush hd,
          Call.nowMs (env.clock (tr ++ [Call.fwrite hd t.buffer (env.fwrite tr hd t.buffer),
            Call.fflush hd]) % u64)],
        { t with buffer := [],
                 last_flush_ms := env.clock (tr ++
                   [Call.fwrite hd t.buffer (env.fwrite tr hd t.buffer), Call.fflush hd]) % u64 }) := by
  simp [FlushTarget, hfp, isEmpty_false_of_ne_nil hb, NowMs]

/-- What `FlushTarget` does, seen from one path `p`. -/
theorem flushTarget_effect (env : Env) (tr : List Call) (t : Target) (k : Str)
    (hwf : TargetWf k t) :
    TargetWf k (FlushTarget env tr t).2
    ∧ (FlushTarget env tr t).2.fp = t.fp
    ∧ (FlushTarget env tr t).2.failed = t.failed
    ∧ (t.fp ≠ none → (FlushTarget env tr t).2.buffer = [])
    ∧ (∀ p, opensOf p (FlushTarget env tr t).1 = opensOf p tr)
    ∧ (∀ p, p ≠ k → writtenTo p (FlushTarget env tr t).1 = writtenTo p tr)
    ∧ ((∀ tr0 h d, env.fwrite tr0 h d = d.length) →
        writtenTo k (FlushTarget env tr t).1 ++ (FlushTarget env tr t).2.buffer
          = writtenTo k tr ++ t.buffer) := by
  cases hfp : t.fp with
  | none =>
    rw [flushTarget_of_no_handle env tr t hfp]
    refine ⟨hwf, hfp, rfl, fun h => absurd rfl h, fun _ => rfl, fun _ _ => rfl, fun _ => rfl⟩
  | some hd =>
    by_cases hb : t.buffer = []
    · rw [flushTarget_of_empty env tr t hb]
      refine ⟨hwf, hfp, rfl, fun _ => hb, fun _ => rfl, fun _ _ => rfl, fun _ => rfl⟩
    · rw [flushTarget_of_data env tr t hd hfp hb]
      have hpath : hd.path = k := hwf.2.2 hd hfp
      refine ⟨⟨?_, ?_, ?_⟩, hfp, rfl, fun _ => rfl, ?_, ?_, ?_⟩
      · exact hwf.1
      · intro _; rfl
      · exact hwf.2.2
      · intro p; simp [opensOf_append, opensOf]
      · intro p hp
        have : ¬ hd.path = p := fun e => hp (by rw [← e, hpath])
        simp [writtenTo_append, writtenTo, this]
      · intro hw
        simp [writtenTo_append, writtenTo, hpath, hw]

/-- What `OpenTarget` does on the target of its path, seen from one path. -/
theorem openTarget_effect (env : Env) (tr : List Call) (t : Target) (k : Str)
    (hwf : TargetWf k t) :
    TargetWf k (OpenTarget env tr t k).2.1
    ∧ ((OpenTarget env tr t k).2.2 = true ↔ (OpenTarget env tr t k).2.1.fp ≠ none)
    ∧ ((OpenTarget env tr t k).2.1.fp = none → (OpenTarget env tr t k).2.1.failed = true)
    ∧ (OpenTarget env tr t k).2.1.buffer = t.buffer
    ∧ (t.failed = true → (OpenTarget env tr t k).2.1.failed = true)
    ∧ (∀ p, opensOf p (OpenTarget env tr t k).1
        = opensOf p tr + (if p = k ∧ t.fp = none ∧ t.failed = false then 1 else 0))
    ∧ (∀ p, writtenTo p (OpenTarget env tr t k).1 = writtenTo p tr)
    ∧ ((∀ tr0 p, env.fopen tr0 p = true) → t.failed = false →
        (OpenTarget env tr t k).2.2 = true ∧ (OpenTarget env tr t k).2.1.failed = false) := by
  by_cases hfp : t.fp = none
  · cases hf : t.failed with
    | true =>
      rw [openTarget_of_failed env tr t k hfp hf]
      refine ⟨hwf, by simp [hfp], fun _ => hf, rfl, fun _ => hf, fun p => by simp, fun _ => rfl,
        fun _ h => absurd h (by simp)⟩
    | false =>
      have hdir := ensureParentDirs_trace env tr k
      cases hopen : env.fopen (EnsureParentDirs env tr k).1 k with
      | true =>
        rw [openTarget_fresh_ok env tr t k hfp hf hopen]
        refine ⟨⟨fun h => ?_, fun h => ?_, fun h hh => ?_⟩, by simp, fun h => ?_, rfl,
          fun h => ?_, fun p => ?_, fun p => ?_, fun _ _ => ⟨rfl, hf⟩⟩
        · exact absurd h (by simp [hf])
        · exact absurd h (by simp)
        · simp only [Option.some.injEq] at hh
          rw [← hh]
        · exact absurd h (by simp)
        · exact absurd h (by simp)
        · simp only [opensOf_append, opensOf_dirExt p hdir, opensOf, hfp, true_and, and_true]
          by_cases hp : p = k
          · simp [hp]
          · have : ¬ k = p := fun e => hp e.symm
            simp [hp, this]
        · simp only [writtenTo_append, writtenTo_dirExt p hdir, writtenTo, List.append_nil]
      | false =>
        rw [openTarget_fresh_fail env tr t k hfp hf hopen]
        refine ⟨⟨fun _ => rfl, fun _ => hwf.2.1 hfp, fun h hh => ?_⟩, by simp, fun _ => rfl, rfl,
          fun _ => rfl, fun p => ?_, fun p => ?_, fun ho _ => ?_⟩
        · exact absurd hh (by simp)
        · simp only [opensOf_append, opensOf_dirExt p hdir, opensOf, hfp, true_and, and_true]
          by_cases hp : p = k
          · simp [hp]
          · have : ¬ k = p := fun e => hp e.symm
            simp [hp, this]
        · simp only [writtenTo_append, writtenTo_dirExt p hdir, writtenTo, List.append_nil]
        · rw [ho] at hopen; exact absurd hopen (by simp)
  · rw [openTarget_of_open env tr t k hfp]
    refine ⟨hwf, by simp [hfp], fun h => absurd h hfp, rfl, fun h => h, fun p => by simp [hfp],
      fun _ => rfl, fun _ hf => ⟨rfl, hf⟩⟩

theorem routeEntry_eq (env : Env) (acc : List Call × List (Str × Target)) (e : Entry) :
    routeEntry env acc e
      = ((routeTarget env acc.1 (Targets.find acc.2 e.path) e).1,
          Targets.store acc.2 e.path (routeTarget env acc.1 (Targets.find acc.2 e.path) e).2) := by
  unfold routeEntry routeTarget
  dsimp only
  split_ifs <;> rfl

theorem routeTarget_of_failed (env : Env) (tr : List Call) (t : Target) (e : Entry)
    (hwf : TargetWf e.path t) (hf : t.failed = true) : routeTarget env tr t e = (tr, t) := by
  unfold routeTarget
  rw [openTarget_of_failed env tr t e.path (hwf.1 hf) hf]
  simp

/-- What the routing of one entry does to the target of its path, seen from
one path. -/
theorem routeTarget_effect (env : Env) (tr : List Call) (t : Target) (e : Entry)
    (hwf : TargetWf e.path t) :
    TargetWf e.path (routeTarget env tr t e).2
    ∧ ((routeTarget env tr t e).2.fp = none → (routeTarget env tr t e).2.failed = true)
    ∧ (∀ p, opensOf p (routeTarget env tr t e).1
        = opensOf p tr + (if p = e.path ∧ t.fp = none ∧ t.failed = false then 1 else 0))
    ∧ (∀ p, p ≠ e.path → writtenTo p (routeTarget env tr t e).1 = writtenTo p tr)
    ∧ ((∀ tr0 p, env.fopen tr0 p = true) → (∀ tr0 h d, env.fwrite tr0 h d = d.length) →
        t.failed = false →
        (routeTarget env tr t e).2.failed = false
        ∧ writtenTo e.path (routeTarget env tr t e).1 ++ (routeTarget env tr t e).2.buffer
            = writtenTo e.path tr ++ t.buffer ++ e.line) := by
  obtain ⟨o1, o2, o3, o4, _, o6, o7, o8⟩ := openTarget_effect env tr t e.path hwf
  unfold routeTarget
  dsimp only
  cases hok : (OpenTarget env tr t e.path).2.2 with
  | false =>
    have hnone : (OpenTarget env tr t e.path).2.1.fp = none := by
      by_contra hc
      have := o2.2 hc
      rw [hok] at this
      exact absurd this (by simp)
    simp only [Bool.not_false, if_true]
    refine ⟨o1, o3, o6, fun p _ => o7 p, fun ho _ hf => ?_⟩
    have := (o8 ho hf).1
    rw [hok] at this
    exact absurd this (by simp)
  | true =>
    have hsome : (OpenTarget env tr t e.path).2.1.fp ≠ none := o2.1 hok
    simp only [Bool.not_true, Bool.false_eq_true, if_false]
    have hwf1 : TargetWf e.path
        { (OpenTarget env tr t e.path).2.1 with
          buffer := (OpenTarget env tr t e.path).2.1.buffer ++ e.line } :=
      ⟨o1.1, fun h => absurd h hsome, o1.2.2⟩
    split
    · obtain ⟨f1, f2, f3, _, f5, f6, f7⟩ := flushTarget_effect env (OpenTarget env tr t e.path).1
        { (OpenTarget env tr t e.path).2.1 with
          buffer := (OpenTarget env tr t e.path).2.1.buffer ++ e.line } e.path hwf1
      refine ⟨f1, fun h => ?_, fun p => ?_, fun p hp => ?_, fun ho hw hf => ⟨?_, ?_⟩⟩
      · rw [f2] at h; exact absurd h hsome
      · rw [f5 p, o6 p]
      · rw [f6 p hp, o7 p]
      · rw [f3]; exact (o8 ho hf).2
      · rw [f7 hw, o7, o4, List.append_assoc]
    · refine ⟨hwf1, fun h => absurd h hsome, o6, fun p _ => o7 p, fun ho _ hf => ⟨(o8 ho hf).2, ?_⟩⟩
      simp only [o7, o4, List.append_assoc]

/-- When the open succeeds the line is appended to the buffer, and the buffer
is then kept, or passed whole to `fwrite` once it has reached the threshold. -/
theorem routeTarget_of_opened (env : Env) (tr : List Call) (t : Target) (e : Entry)
    (hok : (OpenTarget env tr t e.path).2.2 = true) :
    ((OpenTarget env tr t e.path).2.1.buffer ++ e.line).length < kFlushThresholdBytes
      ∧ routeTarget env tr t e
          = ((OpenTarget env tr t e.path).1,
              { (OpenTarget env tr t e.path).2.1 with
                buffer := (OpenTarget env tr t e.path).2.1.buffer ++ e.line })
    ∨ ((OpenTarget env tr t e.path).2.1.buffer ++ e.line).length ≥ kFlushThresholdBytes
      ∧ routeTarget env tr t e
          = FlushTarget env (OpenTarget env tr t e.path).1
              { (OpenTarget env tr t e.path).2.1 with
                buffer := (OpenTarget env tr t e.path).2.1.buffer ++ e.line } := by
  unfold routeTarget
  dsimp only
  simp only [hok, Bool.not_true, Bool.false_eq_true, if_false]
  by_cases hlen :
      ((OpenTarget env tr t e.path).2.1.buffer ++ e.line).length ≥ kFlushThresholdBytes
  · right; exact ⟨hlen, by rw [if_pos hlen]⟩
  · left; exact ⟨Nat.lt_of_not_le hlen, by rw [if_neg hlen]⟩

/-! ## The routing loop and the registry -/

theorem find_wf (m : List (Str × Target)) (k : Str) (hm : RegistryOk m) :
    TargetWf k (Targets.find m k) := by
  by_cases hin : k ∈ m.map Prod.fst
  · exact (hm.2 _ (find_mem_of_mem_keys m k hin)).1
  · rw [find_of_not_mem_keys m k hin]
    exact ⟨fun h => absurd h (by simp), fun _ => rfl, fun h hh => absurd hh (by simp)⟩

theorem find_fresh_iff (m : List (Str × Target)) (k : Str) (hm : RegistryOk m) :
    ((Targets.find m k).fp = none ∧ (Targets.find m k).failed = false)
      ↔ k ∉ m.map Prod.fst := by
  constructor
  · rintro ⟨h1, h2⟩ hin
    have := (hm.2 _ (find_mem_of_mem_keys m k hin)).2 h1
    rw [h2] at this
    exact absurd this (by simp)
  · intro hin
    rw [find_of_not_mem_keys m k hin]
    exact ⟨rfl, rfl⟩

theorem routeEntry_registryOk (env : Env) (tr : List Call) (m : List (Str × Target))
    (e : Entry) (hm : RegistryOk m) : RegistryOk (routeEntry env (tr, m) e).2 := by
  rw [routeEntry_eq]
  obtain ⟨r1, r2, _⟩ := routeTarget_effect env tr (Targets.find m e.path) e (find_wf m e.path hm)
  refine ⟨store_nodup _ _ _ hm.1, ?_⟩
  intro kv hkv
  rcases mem_store _ _ _ kv hm.1 hkv with h | h
  · rw [h]; exact ⟨r1, r2⟩
  · exact hm.2 kv h.1

theorem routeEntry_keys (env : Env) (tr : List Call) (m : List (Str × Target)) (e : Entry) :
    (routeEntry env (tr, m) e).2.map Prod.fst
      = if e.path ∈ m.map Prod.fst then m.map Prod.fst else m.map Prod.fst ++ [e.path] := by
  rw [routeEntry_eq]
  exact store_keys _ _ _

/-- An entry for a failed target is discarded: no call is made, and the
registry is as before. -/
theorem routeEntry_of_failed (env : Env) (tr : List Call) (m : List (Str × Target))
    (e : Entry) (hm : RegistryOk m) (hf : (Targets.find m e.path).failed = true) :
    routeEntry env (tr, m) e = (tr, m) := by
  have hin : e.path ∈ m.map Prod.fst := by
    by_contra hc
    rw [find_of_not_mem_keys m e.path hc] at hf
    exact absurd hf (by simp)
  rw [routeEntry_eq]
  dsimp only
  rw [routeTarget_of_failed env tr _ e (find_wf m e.path hm) hf, store_find_self m e.path hin]

theorem routeEntry_opens (env : Env) (tr : List Call) (m : List (Str × Target))
    (e : Entry) (hm : RegistryOk m) (p : Str) :
    opensOf p (routeEntry env (tr, m) e).1
      = opensOf p tr + (if p = e.path ∧ e.path ∉ m.map Prod.fst then 1 else 0) := by
  rw [routeEntry_eq]
  obtain ⟨_, _, r3, _⟩ := routeTarget_effect env tr (Targets.find m e.path) e (find_wf m e.path hm)
  dsimp only
  rw [r3 p]
  have := find_fresh_iff m e.path hm
  by_cases hp : p = e.path
  · by_cases hin : e.path ∈ m.map Prod.fst
    · have h2 : ¬ ((Targets.find m e.path).fp = none ∧ (Targets.find m e.path).failed = false) :=
        fun h => (this.1 h) hin
      rw [if_neg (fun h => h2 h.2), if_neg (fun h => h.2 hin)]
    · rw [if_pos ⟨hp, this.2 hin⟩, if_pos ⟨hp, hin⟩]
  · rw [if_neg (fun h => hp h.1), if_neg (fun h => hp h.1)]

theorem find_live (m : List (Str × Target)) (k : Str) (h : AllLive m) :
    (Targets.find m k).failed = false := by
  by_cases hin : k ∈ m.map Prod.fst
  · exact h _ (find_mem_of_mem_keys m k hin)
  · rw [find_of_not_mem_keys m k hin]

/-- The routing of one entry, seen from one path, when every open and every
write succeeds: the line reaches the buffer or the file of its path. -/
theorem routeEntry_content (env : Env) (hopen : ∀ tr0 p, env.fopen tr0 p = true)
    (hwrite : ∀ tr0 h d, env.fwrite tr0 h d = d.length)
    (tr : List Call) (m : List (Str × Target)) (e : Entry)
    (hm : RegistryOk m) (hl : AllLive m) :
    AllLive (routeEntry env (tr, m) e).2
    ∧ ∀ p, writtenTo p (routeEntry env (tr, m) e).1
            ++ (Targets.find (routeEntry env (tr, m) e).2 p).buffer
          = writtenTo p tr ++ (Targets.find m p).buffer
            ++ (if e.path = p then e.line else []) := by
  rw [routeEntry_eq]
  obtain ⟨_, _, _, r4, r5⟩ :=
    routeTarget_effect env tr (Targets.find m e.path) e (find_wf m e.path hm)
  obtain ⟨r6, r7⟩ := r5 hopen hwrite (find_live m e.path hl)
  dsimp only
  constructor
  · intro kv hkv
    rcases mem_store _ _ _ kv hm.1 hkv with h | h
    · rw [h]; exact r6
    · exact hl kv h.1
  · intro p
    by_cases hp : e.path = p
    · subst hp
      rw [find_store_same, r7, if_pos rfl]
    · have hp2 : p ≠ e.path := fun h => hp h.symm
      rw [find_store_other _ _ _ _ hp2, r4 p hp2, if_neg hp, List.append_nil]

theorem foldl_routeEntry_registryOk (env : Env) (es : List Entry) (tr : List Call)
    (m : List (Str × Target)) (hm : RegistryOk m) :
    RegistryOk (es.foldl (routeEntry env) (tr, m)).2 := by
  induction es generalizing tr m with
  | nil => exact hm
  | cons e es ih =>
    simp only [List.foldl_cons]
    have hih := ih (routeEntry env (tr, m) e).1 (routeEntry env (tr, m) e).2
      (routeEntry_registryOk env tr m e hm)
    simp only [Prod.mk.eta] at hih
    exact hih

theorem foldl_routeEntry_content (env : Env) (hopen : ∀ tr0 p, env.fopen tr0 p = true)
    (hwrite : ∀ tr0 h d, env.fwrite tr0 h d = d.length)
    (es : List Entry) (tr : List Call) (m : List (Str × Target))
    (hm : RegistryOk m) (hl : AllLive m) :
    AllLive (es.foldl (routeEntry env) (tr, m)).2
    ∧ ∀ p, writtenTo p (es.foldl (routeEntry env) (tr, m)).1
            ++ (Targets.find (es.foldl (routeEntry env) (tr, m)).2 p).buffer
          = writtenTo p tr ++ (Targets.find m p).buffer ++ linesFor p es := by
  induction es generalizing tr m with
  | nil => exact ⟨hl, fun p => by simp [linesFor]⟩
  | cons e es ih =>
    simp only [List.foldl_cons]
    obtain ⟨h1, h2⟩ := routeEntry_content env hopen hwrite tr m e hm hl
    have hih := ih (routeEntry env (tr, m) e).1 (routeEntry env (tr, m) e).2
      (routeEntry_registryOk env tr m e hm) h1
    simp only [Prod.mk.eta] at hih
    obtain ⟨h3, h4⟩ := hih
    refine ⟨h3, fun p => ?_⟩
    rw [h4 p, h2 p]
    simp [linesFor, List.append_assoc]

theorem foldl_routeEntry_opens (env : Env) (es : List Entry) (tr : List Call)
    (m : List (Str × Target)) (hm : RegistryOk m) (p : Str) :
    opensOf p (es.foldl (routeEntry env) (tr, m)).1
        + (if p ∈ m.map Prod.fst then 1 else 0)
      = opensOf p tr
        + (if p ∈ (es.foldl (routeEntry env) (tr, m)).2.map Prod.fst then 1 else 0)
    ∧ (p ∈ m.map Prod.fst → p ∈ (es.foldl (routeEntry env) (tr, m)).2.map Prod.fst) := by
  induction es generalizing tr m with
  | nil => exact ⟨rfl, fun h => h⟩
  | cons e es ih =>
    simp only [List.foldl_cons]
    have hih := ih (routeEntry env (tr, m) e).1 (routeEntry env (tr, m) e).2
      (routeEntry_registryOk env tr m e hm)
    simp only [Prod.mk.eta] at hih
    obtain ⟨h1, h2⟩ := hih
    have hk := routeEntry_keys env tr m e
    have ho := routeEntry_opens env tr m e hm p
    have hmono : p ∈ m.map Prod.fst → p ∈ (routeEntry env (tr, m) e).2.map Prod.fst := by
      intro h
      rw [hk]
      split
      · exact h
      · exact List.mem_append_left _ h
    refine ⟨?_, fun h => h2 (hmono h)⟩
    have hstep : opensOf p (routeEntry env (tr, m) e).1 + (if p ∈ m.map Prod.fst then 1 else 0)
        = opensOf p tr
          + (if p ∈ (routeEntry env (tr, m) e).2.map Prod.fst then 1 else 0) := by
      rw [ho, hk]
      by_cases hin : e.path ∈ m.map Prod.fst
      · rw [if_pos hin]
        have : ¬ (p = e.path ∧ e.path ∉ m.map Prod.fst) := fun h => h.2 hin
        rw [if_neg this]; rfl
      · rw [if_neg hin]
        by_cases hp : p = e.path
        · subst hp
          rw [if_pos ⟨rfl, hin⟩, if_neg hin,
            if_pos (List.mem_append_right _ (List.mem_singleton.2 rfl))]
        · have : ¬ (p = e.path ∧ e.path ∉ m.map Prod.fst) := fun h => hp h.1
          rw [if_neg this]
          by_cases hpm : p ∈ m.map Prod.fst
          · rw [if_pos hpm, if_pos (List.mem_append_left _ hpm)]
          · have hnot : p ∉ m.map Prod.fst ++ [e.path] := by
              intro h
              rcases List.mem_append.1 h with h | h
              · exact hpm h
              · exact hp (List.mem_singleton.1 h)
            rw [if_neg hpm, if_neg hnot]
    omega

theorem foldl_routeEntry_failed (env : Env) (es : List Entry) (tr : List Call)
    (m : List (Str × Target)) (hm : RegistryOk m) (p : Str)
    (hf : (Targets.find m p).failed = true) :
    Targets.find (es.foldl (routeEntry env) (tr, m)).2 p = Targets.find m p := by
  induction es generalizing tr m with
  | nil => rfl
  | cons e es ih =>
    simp only [List.foldl_cons]
    have hstep : Targets.find (routeEntry env (tr, m) e).2 p = Targets.find m p := by
      by_cases hp : p = e.path
      · subst hp
        rw [routeEntry_of_failed env tr m e hm hf]
      · rw [routeEntry_eq]
        exact find_store_other _ _ _ _ hp
    have hih := ih (routeEntry env (tr, m) e).1 (routeEntry env (tr, m) e).2
      (routeEntry_registryOk env tr m e hm) (by rw [hstep]; exact hf)
    simp only [Prod.mk.eta] at hih
    rw [hih, hstep]

/-! ## The periodic sweep and the final loop -/

theorem registryOk_cons (k : Str) (t : Target) (rest : List (Str × Target)) :
    RegistryOk ((k, t) :: rest)
      ↔ k ∉ rest.map Prod.fst ∧ TargetWf k t ∧ (t.fp = none → t.failed = true)
        ∧ RegistryOk rest := by
  unfold RegistryOk
  simp only [List.map_cons, List.nodup_cons, List.mem_cons, forall_eq_or_imp]
  constructor
  · rintro ⟨⟨h1, h2⟩, ⟨h3, h4⟩, h5⟩
    exact ⟨h1, h3, h4, h2, h5⟩
  · rintro ⟨h1, h3, h4, h2, h5⟩
    exact ⟨⟨h1, h2⟩, ⟨h3, h4⟩, h5⟩

theorem sweepTarget_cases (env : Env) (now : Nat) (tr : List Call) (t : Target) :
    sweepTarget env now tr t = FlushTarget env tr t ∨ sweepTarget env now tr t = (tr, t) := by
  unfold sweepTarget
  split
  · left; rfl
  · right; rfl

/-- What the sweep does to one target, seen from one path. -/
theorem sweepTarget_effect (env : Env) (now : Nat) (tr : List Call) (t : Target) (k : Str)
    (hwf : TargetWf k t) :
    TargetWf k (sweepTarget env now tr t).2
    ∧ (sweepTarget env now tr t).2.fp = t.fp
    ∧ (sweepTarget env now tr t).2.failed = t.failed
    ∧ (t.fp = none → sweepTarget env now tr t = (tr, t))
    ∧ (∀ p, opensOf p (sweepTarget env now tr t).1 = opensOf p tr)
    ∧ (∀ p, p ≠ k → writtenTo p (sweepTarget env now tr t).1 = writtenTo p tr)
    ∧ ((∀ tr0 h d, env.fwrite tr0 h d = d.length) →
        writtenTo k (sweepTarget env now tr t).1 ++ (sweepTarget env now tr t).2.buffer
          = writtenTo k tr ++ t.buffer) := by
  rcases sweepTarget_cases env now tr t with h | h
  · rw [h]
    obtain ⟨f1, f2, f3, _, f5, f6, f7⟩ := flushTarget_effect env tr t k hwf
    exact ⟨f1, f2, f3, fun hn => flushTarget_of_no_handle env tr t hn, f5, f6, f7⟩
  · rw [h]
    exact ⟨hwf, rfl, rfl, fun _ => rfl, fun _ => rfl, fun _ _ => rfl, fun _ => rfl⟩

/-- What the periodic sweep does, seen from one path. -/
theorem sweepAll_effect (env : Env) (now : Nat) (m : List (Str × Target)) (tr : List Call)
    (hm : RegistryOk m) :
    (sweepAll env now tr m).2.map Prod.fst = m.map Prod.fst
    ∧ RegistryOk (sweepAll env now tr m).2
    ∧ (AllLive m → AllLive (sweepAll env now tr m).2)
    ∧ (∀ p, opensOf p (sweepAll env now tr m).1 = opensOf p tr)
    ∧ (∀ p, p ∉ m.map Prod.fst → writtenTo p (sweepAll env now tr m).1 = writtenTo p tr)
    ∧ (∀ p, (Targets.find m p).fp = none →
        Targets.find (sweepAll env now tr m).2 p = Targets.find m p)
    ∧ ((∀ tr0 h d, env.fwrite tr0 h d = d.length) →
        ∀ p, writtenTo p (sweepAll env now tr m).1
              ++ (Targets.find (sweepAll env now tr m).2 p).buffer
            = writtenTo p tr ++ (Targets.find m p).buffer) := by
  induction m generalizing tr with
  | nil =>
    exact ⟨rfl, hm, fun h => h, fun _ => rfl, fun _ _ => rfl, fun _ _ => rfl, fun _ _ => rfl⟩
  | cons kv rest ih =>
    obtain ⟨k, t⟩ := kv
    obtain ⟨hk, hwf, hset, hrest⟩ := (registryOk_cons k t rest).1 hm
    obtain ⟨s1, s2, s3, s4, s5, s6, s7⟩ := sweepTarget_effect env now tr t k hwf
    obtain ⟨i1, i2, i3, i4, i5, i6, i7⟩ := ih (sweepTarget env now tr t).1 hrest
    simp only [sweepAll]
    refine ⟨?_, ?_, ?_, ?_, ?_, ?_, ?_⟩
    · simp only [List.map_cons, i1]
    · rw [registryOk_cons]
      refine ⟨by rw [i1]; exact hk, s1, fun h => ?_, i2⟩
      rw [s3]; rw [s2] at h; exact hset h
    · intro hl kv hkv
      rcases List.mem_cons.1 hkv with h | h
      · rw [h]
        show (sweepTarget env now tr t).2.failed = false
        rw [s3]
        exact hl (k, t) (List.mem_cons_self _ _)
      · exact i3 (fun x hx => hl x (List.mem_cons_of_mem _ hx)) kv h
    · intro p; rw [i4 p, s5 p]
    · intro p hp
      simp only [List.map_cons, List.mem_cons, not_or] at hp
      rw [i5 p hp.2, s6 p hp.1]
    · intro p hp
      by_cases hpk : k = p
      · subst hpk
        simp only [Targets.find, if_true] at hp ⊢
        rw [s4 hp]
      · simp only [Targets.find, if_neg hpk] at hp ⊢
        exact i6 p hp
    · intro hw p
      by_cases hpk : k = p
      · subst hpk
        simp only [Targets.find, if_true]
        rw [i5 k hk]
        exact s7 hw
      · simp only [Targets.find, if_neg hpk]
        rw [i7 hw p, s6 p (fun e => hpk e.symm)]

/-- What the final loop does, seen from one path. -/
theorem closeAll_effect (env : Env) (m : List (Str × Target)) (tr : List Call)
    (hm : RegistryOk m) :
    (∀ p, opensOf p (closeAll env tr m) = opensOf p tr)
    ∧ (∀ p, p ∉ m.map Prod.fst → writtenTo p (closeAll env tr m) = writtenTo p tr)
    ∧ ((∀ tr0 h d, env.fwrite tr0 h d = d.length) →
        ∀ p, writtenTo p (closeAll env tr m) = writtenTo p tr ++ (Targets.find m p).buffer) := by
  induction m generalizing tr with
  | nil => exact ⟨fun _ => rfl, fun _ _ => rfl, fun _ _ => by simp [closeAll, Targets.find]⟩
  | cons kv rest ih =>
    obtain ⟨k, t⟩ := kv
    obtain ⟨hk, hwf, _, hrest⟩ := (registryOk_cons k t rest).1 hm
    obtain ⟨f1, f2, _, f4, f5, f6, f7⟩ := flushTarget_effect env tr t k hwf
    simp only [closeAll]
    cases hfp : (FlushTarget env tr t).2.fp with
    | none =>
      obtain ⟨i1, i2, i3⟩ := ih (FlushTarget env tr t).1 hrest
      have hbuf : (FlushTarget env tr t).2.buffer = [] := f1.2.1 hfp
      refine ⟨fun p => by rw [i1 p, f5 p], fun p hp => ?_, fun hw p => ?_⟩
      · simp only [List.map_cons, List.mem_cons, not_or] at hp
        rw [i2 p hp.2, f6 p hp.1]
      · by_cases hpk : k = p
        · subst hpk
          simp only [Targets.find, if_true]
          rw [i2 k hk]
          have := f7 hw
          rw [hbuf, List.append_nil] at this
          exact this
        · simp only [Targets.find, if_neg hpk]
          rw [i3 hw p, f6 p (fun e => hpk e.symm)]
    | some hd =>
      obtain ⟨i1, i2, i3⟩ := ih ((FlushTarget env tr t).1 ++ [Call.fclose hd]) hrest
      have hbuf : (FlushTarget env tr t).2.buffer = [] :=
        f4 (by rw [← f2, hfp]; simp)
      refine ⟨fun p => ?_, fun p hp => ?_, fun hw p => ?_⟩
      · rw [i1 p, opensOf_append, f5 p]; simp [opensOf]
      · simp only [List.map_cons, List.mem_cons, not_or] at hp
        rw [i2 p hp.2, writtenTo_append, f6 p hp.1]; simp [writtenTo]
      · by_cases hpk : k = p
        · subst hpk
          simp only [Targets.find, if_true]
          rw [i2 k hk, writtenTo_append]
          have := f7 hw
          rw [hbuf, List.append_nil] at this
          rw [this]; simp [writtenTo]
        · simp only [Targets.find, if_neg hpk]
          rw [i3 hw p, writtenTo_append, f6 p (fun e => hpk e.symm)]; simp [writtenTo]

/-! ## The invariant of the whole state -/

theorem registryOk_nil : RegistryOk [] := by
  refine ⟨by simp, ?_⟩
  intro kv hkv
  simp at hkv

theorem stateInv_init : StateInv State.init :=
  ⟨queueInv_init, registryOk_nil, fun _ => rfl⟩

/-- `Enqueue` touches the queue, the byte count and the drop counter only. -/
theorem enqueue_frame (s : State) (path line : Str) :
    (Enqueue s path line).1.m_Targets = s.m_Targets
    ∧ (Enqueue s path line).1.pc = s.pc
    ∧ (Enqueue s path line).1.trace = s.trace
    ∧ (Enqueue s path line).1.localQ = s.localQ
    ∧ (Enqueue s path line).1.m_Running = s.m_Running
    ∧ (Enqueue s path line).1.m_StopRequested = s.m_StopRequested
    ∧ (Enqueue s path line).1.stopJoining = s.stopJoining := by
  rcases enqueue_cases s path line with c | c | c
  · rw [c.2]; exact ⟨rfl, rfl, rfl, rfl, rfl, rfl, rfl⟩
  · rw [c.2.2.2.2]; exact ⟨rfl, rfl, rfl, rfl, rfl, rfl, rfl⟩
  · rw [c.2.2.2.2]; exact ⟨rfl, rfl, rfl, rfl, rfl, rfl, rfl⟩

theorem stateInv_step (env : Env) (s : State) (l : Label) (h : StateInv s) :
    StateInv (step env s l) := by
  obtain ⟨hq, hr, he⟩ := h
  refine ⟨queueInv_step env s l hq, ?_⟩
  cases l with
  | enqueue path line =>
    obtain ⟨f1, f2, _⟩ := enqueue_frame s path line
    simp only [step]
    rw [f1, f2]
    exact ⟨hr, he⟩
  | start =>
    simp only [step, Start]
    split
    · exact ⟨hr, he⟩
    · split
      · exact ⟨hr, he⟩
      · rename_i hrun
        have hpc := hq.2.2.2 (by simpa using hrun)
        exact ⟨hr, fun _ => he (Or.inl hpc)⟩
  | stopRequest =>
    simp only [step, StopRequest]
    split
    · exact ⟨hr, he⟩
    · split <;> exact ⟨hr, he⟩
  | stopJoin =>
    simp only [step, StopJoin]
    split
    · rename_i hc
      simp only [Bool.and_eq_true, decide_eq_true_eq] at hc
      exact ⟨hr, fun _ => he (Or.inr (Or.inr hc.2))⟩
    · exact ⟨hr, he⟩
  | threadEntry =>
    simp only [step, threadEntry]
    split
    · rename_i hpc
      refine ⟨hr, fun _ => he (Or.inr (Or.inl hpc))⟩
    · exact ⟨hr, he⟩
  | drainLock =>
    simp only [step, drainLock]
    split
    · split <;> split <;>
        exact ⟨hr, fun hc => by rcases hc with hc | hc | hc <;> simp at hc⟩
    · exact ⟨hr, he⟩
  | route =>
    simp only [step, routeLocal]
    split
    · exact ⟨foldl_routeEntry_registryOk env s.localQ s.trace s.m_Targets hr,
        fun hc => by rcases hc with hc | hc | hc <;> simp at hc⟩
    · exact ⟨hr, he⟩
  | sweep =>
    simp only [step, periodic]
    split
    · split
      · split
        · exact ⟨(sweepAll_effect env _ s.m_Targets _ hr).2.1,
            fun hc => by rcases hc with hc | hc | hc <;> simp at hc⟩
        · exact ⟨(sweepAll_effect env _ s.m_Targets _ hr).2.1,
            fun hc => by rcases hc with hc | hc | hc <;> simp at hc⟩
      · exact ⟨hr, fun hc => by rcases hc with hc | hc | hc <;> simp at hc⟩
    · exact ⟨hr, he⟩
  | threadExit =>
    simp only [step, threadExit]
    split
    · exact ⟨registryOk_nil, fun _ => rfl⟩
    · exact ⟨hr, he⟩

theorem stateInv_exec (env : Env) (ls : List Label) (s : State) (h : StateInv s) :
    StateInv (exec env s ls) := by
  induction ls generalizing s with
  | nil => exact h
  | cons l ls ih => exact ih _ (stateInv_step env s l h)

/-! ## Delivery -/

/-- The critical section of the drain loop, field by field, when `local` is
empty on entry. -/
theorem drainLock_fields (s : State) (hl : s.localQ = []) :
    (drainLock s).trace = s.trace
    ∧ (drainLock s).m_Targets = s.m_Targets
    ∧ (drainLock s).localQ = s.m_Queue
    ∧ (drainLock s).m_Queue = []
    ∧ (drainLock s).m_Running = s.m_Running
    ∧ (drainLock s).m_StopRequested = s.m_StopRequested
    ∧ (drainLock s).stopJoining = s.stopJoining
    ∧ (drainLock s).m_Dropped = s.m_Dropped
    ∧ ((drainLock s).pc = ThreadPc.exiting ∧ s.m_Queue = [] ∧ s.m_StopRequested = true
        ∨ (drainLock s).pc = ThreadPc.routing
          ∧ (s.m_Queue ≠ [] ∨ s.m_StopRequested = false)) := by
  cases hq : s.m_Queue with
  | nil =>
    cases hs : s.m_StopRequested with
    | true => simp [drainLock, hq, hl, hs]
    | false => simp [drainLock, hq, hl, hs]
  | cons e q =>
    cases hs : s.m_StopRequested with
    | true => simp [drainLock, hq, hl, hs]
    | false => simp [drainLock, hq, hl, hs]

theorem accepted_cons (env : Env) (s : State) (l : Label) (ls : List Label) :
    accepted env s (l :: ls) = accepted env s [l] ++ accepted env (step env s l) ls := by
  cases l <;> simp [accepted]

theorem accepted_append (env : Env) (s : State) (a b : List Label) :
    accepted env s (a ++ b) = accepted env s a ++ accepted env (exec env s a) b := by
  induction a generalizing s with
  | nil => simp [accepted, exec]
  | cons l a ih =>
    rw [List.cons_append, accepted_cons, ih, accepted_cons env s l a, exec_cons,
      List.append_assoc]

theorem content_step (env : Env) (hopen : ∀ tr0 p, env.fopen tr0 p = true)
    (hwrite : ∀ tr0 h d, env.fwrite tr0 h d = d.length)
    (s : State) (l : Label) (acc : List Entry)
    (hinv : StateInv s) (hlive : AllLive s.m_Targets) (hc : Content s acc) :
    AllLive (step env s l).m_Targets ∧ Content (step env s l) (acc ++ accepted env s [l]) := by
  obtain ⟨hq, hr, _⟩ := hinv
  cases l with
  | enqueue path line =>
    have hs : step env s (Label.enqueue path line) = (Enqueue s path line).1 := rfl
    rw [hs]
    simp only [accepted, List.append_nil]
    rcases enqueue_cases s path line with c | c | c
    · rw [c.2]; simpa using ⟨hlive, hc⟩
    · rw [c.2.2.2.2]; simpa using ⟨hlive, hc⟩
    · rw [c.2.2.2.2]
      refine ⟨hlive, fun p => ?_⟩
      have := hc p
      simp only [if_true, linesFor_append, ← this, List.append_assoc]
  | start =>
    simp only [accepted, List.append_nil, step, Start]
    split
    · exact ⟨hlive, hc⟩
    · split <;> exact ⟨hlive, hc⟩
  | stopRequest =>
    simp only [accepted, List.append_nil, step, StopRequest]
    split
    · exact ⟨hlive, hc⟩
    · split <;> exact ⟨hlive, hc⟩
  | stopJoin =>
    simp only [accepted, List.append_nil, step, StopJoin]
    split <;> exact ⟨hlive, hc⟩
  | threadEntry =>
    simp only [accepted, List.append_nil, step]
    split
    · rename_i hpc
      have hl : s.localQ = [] := hq.2.2.1 (by rw [hpc]; decide)
      refine ⟨hlive, fun p => ?_⟩
      have := hc p
      rw [hl] at this
      simpa [threadEntry, NowMs, writtenTo_append, writtenTo] using this
    · exact ⟨hlive, hc⟩
  | drainLock =>
    simp only [accepted, List.append_nil, step]
    split
    · rename_i hpc
      have hl : s.localQ = [] := hq.2.2.1 (by rw [hpc]; decide)
      obtain ⟨d1, d2, d3, d4, _⟩ := drainLock_fields s hl
      refine ⟨by rw [d2]; exact hlive, fun p => ?_⟩
      have := hc p
      rw [hl] at this
      rw [d1, d2, d3, d4, ← this]
      simp [linesFor]
    · exact ⟨hlive, hc⟩
  | route =>
    simp only [accepted, List.append_nil, step]
    split
    · obtain ⟨h1, h2⟩ :=
        foldl_routeEntry_content env hopen hwrite s.localQ s.trace s.m_Targets hr hlive
      refine ⟨h1, fun p => ?_⟩
      have := hc p
      simp only [routeLocal]
      rw [h2 p, ← this]
      simp [linesFor]
    · exact ⟨hlive, hc⟩
  | sweep =>
    simp only [accepted, List.append_nil, step]
    split
    · obtain ⟨_, _, s3, _, _, _, s7⟩ :=
        sweepAll_effect env (NowMs env s.trace).2 s.m_Targets (NowMs env s.trace).1 hr
      have hnow : ∀ p, writtenTo p (NowMs env s.trace).1 = writtenTo p s.trace := by
        intro p; simp [NowMs, writtenTo_append, writtenTo]
      unfold periodic
      dsimp only
      split
      · split
        · refine ⟨s3 hlive, fun p => ?_⟩
          have := hc p
          have h7 := s7 hwrite p
          rw [hnow p] at h7
          simp only [writtenTo_append, writtenTo, List.append_nil]
          rw [h7, this]
        · refine ⟨s3 hlive, fun p => ?_⟩
          have := hc p
          have h7 := s7 hwrite p
          rw [hnow p] at h7
          dsimp only
          split
          · simp only [writtenTo_append, writtenTo, List.append_nil]
            rw [h7, this]
          · rw [h7, this]
      · refine ⟨hlive, fun p => ?_⟩
        have := hc p
        dsimp only
        rw [hnow p, this]
    · exact ⟨hlive, hc⟩
  | threadExit =>
    simp only [accepted, List.append_nil, step]
    split
    · rename_i hpc
      have hl : s.localQ = [] := hq.2.2.1 (by rw [hpc]; decide)
      obtain ⟨_, _, c3⟩ := closeAll_effect env s.m_Targets s.trace hr
      refine ⟨fun kv hkv => by simp [threadExit] at hkv, fun p => ?_⟩
      have := hc p
      simp only [threadExit]
      rw [c3 hwrite p, ← this]
      simp [Targets.find]
    · exact ⟨hlive, hc⟩

theorem content_exec (env : Env) (hopen : ∀ tr0 p, env.fopen tr0 p = true)
    (hwrite : ∀ tr0 h d, env.fwrite tr0 h d = d.length)
    (ls : List Label) (s : State) (acc : List Entry)
    (hinv : StateInv s) (hlive : AllLive s.m_Targets) (hc : Content s acc) :
    AllLive (exec env s ls).m_Targets ∧ Content (exec env s ls) (acc ++ accepted env s ls) := by
  induction ls generalizing s acc with
  | nil => simpa [exec, accepted] using ⟨hlive, hc⟩
  | cons l ls ih =>
    obtain ⟨h1, h2⟩ := content_step env hopen hwrite s l acc hinv hlive hc
    have := ih (step env s l) (acc ++ accepted env s [l]) (stateInv_step env s l hinv) h1 h2
    rw [exec_cons, accepted_cons, ← List.append_assoc]
    exact this

theorem beforeStop_init : BeforeStop State.init := by
  simp [BeforeStop, State.init]

theorem beforeStop_step (env : Env) (s : State) (l : Label) (hl : l ≠ Label.stopRequest)
    (hq : QueueInv s) (h : BeforeStop s) : BeforeStop (step env s l) := by
  obtain ⟨h1, h2, h3, h4, h5⟩ := h
  cases l with
  | stopRequest => exact absurd rfl hl
  | enqueue path line =>
    have hs : step env s (Label.enqueue path line) = (Enqueue s path line).1 := rfl
    rw [hs]
    rcases enqueue_cases s path line with c | c | c
    · rw [c.2]; exact ⟨h1, h2, h3, h4, h5⟩
    · rw [c.2.2.2.2]; exact ⟨h1, h2, h3, h4, h5⟩
    · rw [c.2.2.2.2]
      refine ⟨h1, h2, fun hpc => ?_, h4, h5⟩
      have := (h3 hpc).1
      rw [c.2.2.1] at this
      exact absurd this (by simp)
  | start =>
    simp only [step, Start]
    split
    · exact ⟨h1, h2, h3, h4, h5⟩
    · split
      · exact ⟨h1, h2, h3, h4, h5⟩
      · exact ⟨rfl, h2, fun hc => by simp at hc, by simp, by simp⟩
  | stopJoin =>
    simp only [step, h2]
    simpa using ⟨h1, h2, h3, h4, h5⟩
  | threadEntry =>
    simp only [step, threadEntry]
    split
    · exact ⟨h1, h2, fun hc => by simp at hc, by simp, by simp⟩
    · exact ⟨h1, h2, h3, h4, h5⟩
  | drainLock =>
    simp only [step]
    split
    · rename_i hpc
      have hl : s.localQ = [] := hq.2.2.1 (by rw [hpc]; decide)
      obtain ⟨_, _, _, _, _, d6, d7, _, d9⟩ := drainLock_fields s hl
      rcases d9 with d9 | d9
      · rw [h1] at d9; exact absurd d9.2.2 (by simp)
      · refine ⟨by rw [d6]; exact h1, by rw [d7]; exact h2, fun hc => ?_, ?_, ?_⟩
        · rw [d9.1] at hc; exact absurd hc (by simp)
        · rw [d9.1]; simp
        · rw [d9.1]; simp
    · exact ⟨h1, h2, h3, h4, h5⟩
  | route =>
    simp only [step, routeLocal]
    split
    · exact ⟨h1, h2, fun hc => by simp at hc, by simp, by simp⟩
    · exact ⟨h1, h2, h3, h4, h5⟩
  | sweep =>
    simp only [step, periodic]
    split
    · split
      · split <;> exact ⟨h1, h2, fun hc => by simp at hc, by simp, by simp⟩
      · exact ⟨h1, h2, fun hc => by simp at hc, by simp, by simp⟩
    · exact ⟨h1, h2, h3, h4, h5⟩
  | threadExit =>
    simp only [step]
    rw [if_neg h4]
    exact ⟨h1, h2, h3, h4, h5⟩

theorem beforeStop_exec (env : Env) (ls : List Label) (s : State)
    (hl : Label.stopRequest ∉ ls) (hq : QueueInv s) (h : BeforeStop s) :
    BeforeStop (exec env s ls) := by
  induction ls generalizing s with
  | nil => exact h
  | cons l ls ih =>
    have h1 : l ≠ Label.stopRequest := fun e => hl (by simp [e])
    have h2 : Label.stopRequest ∉ ls := fun e => hl (List.mem_cons_of_mem _ e)
    exact ih _ h2 (queueInv_step env s l hq) (beforeStop_step env s l h1 hq h)

theorem quiet_step (env : Env) (s : State) (l : Label)
    (hl : ∀ path line, l ≠ Label.enqueue path line)
    (hq : QueueInv s) (h : Quiet s) : Quiet (step env s l) := by
  cases l with
  | enqueue path line => exact absurd rfl (hl path line)
  | start =>
    simp only [step, Start]
    split
    · exact h
    · split
      · exact h
      · intro hc; rcases hc with hc | hc | hc <;> simp at hc
  | stopRequest =>
    simp only [step, StopRequest]
    split
    · exact h
    · split <;> exact h
  | stopJoin =>
    simp only [step, StopJoin]
    split
    · rename_i hc
      simp only [Bool.and_eq_true, decide_eq_true_eq] at hc
      exact fun _ => h (Or.inr (Or.inr hc.2))
    · exact h
  | threadEntry =>
    simp only [step, threadEntry]
    split
    · intro hc; rcases hc with hc | hc | hc <;> simp at hc
    · exact h
  | drainLock =>
    simp only [step]
    split
    · rename_i hpc
      have hl : s.localQ = [] := hq.2.2.1 (by rw [hpc]; decide)
      exact fun _ => (drainLock_fields s hl).2.2.2.1
    · exact h
  | route =>
    simp only [step, routeLocal]
    split
    · intro hc; rcases hc with hc | hc | hc <;> simp at hc
    · exact h
  | sweep =>
    simp only [step, periodic]
    split
    · split
      · split <;> (intro hc; rcases hc with hc | hc | hc <;> simp at hc)
      · intro hc; rcases hc with hc | hc | hc <;> simp at hc
    · exact h
  | threadExit =>
    simp only [step, threadExit]
    split
    · rename_i hpc
      exact fun _ => h (Or.inr (Or.inl hpc))
    · exact h

theorem quiet_exec (env : Env) (ls : List Label) (s : State)
    (hl : ∀ path line, Label.enqueue path line ∉ ls)
    (hq : QueueInv s) (h : Quiet s) : Quiet (exec env s ls) := by
  induction ls generalizing s with
  | nil => exact h
  | cons l ls ih =>
    have h1 : ∀ path line, l ≠ Label.enqueue path line :=
      fun p q e => hl p q (by simp [e])
    have h2 : ∀ path line, Label.enqueue path line ∉ ls :=
      fun p q e => hl p q (List.mem_cons_of_mem _ e)
    exact ih _ h2 (queueInv_step env s l hq) (quiet_step env s l h1 hq h)

theorem accepted_of_all_true (env : Env) (ls : List Label) (s : State)
    (h : ∀ b ∈ enqueueResults env s ls, b = true) : accepted env s ls = submitted ls := by
  induction ls generalizing s with
  | nil => rfl
  | cons l ls ih =>
    cases l with
    | enqueue path line =>
      simp only [enqueueResults, List.mem_cons, forall_eq_or_imp] at h
      simp only [accepted, submitted, h.1, if_true, List.singleton_append]
      rw [ih _ h.2]
    | start => exact ih _ h
    | stopRequest => exact ih _ h
    | stopJoin => exact ih _ h
    | threadEntry => exact ih _ h
    | drainLock => exact ih _ h
    | route => exact ih _ h
    | sweep => exact ih _ h
    | threadExit => exact ih _ h

theorem accepted_of_no_enqueue (env : Env) (ls : List Label) (s : State)
    (hl : ∀ path line, Label.enqueue path line ∉ ls) : accepted env s ls = [] := by
  induction ls generalizing s with
  | nil => rfl
  | cons l ls ih =>
    have h2 : ∀ path line, Label.enqueue path line ∉ ls :=
      fun p q e => hl p q (List.mem_cons_of_mem _ e)
    cases l with
    | enqueue path line => exact absurd (List.mem_cons_self _ _) (hl path line)
    | start => exact ih _ h2
    | stopRequest => exact ih _ h2
    | stopJoin => exact ih _ h2
    | threadEntry => exact ih _ h2
    | drainLock => exact ih _ h2
    | route => exact ih _ h2
    | sweep => exact ih _ h2
    | threadExit => exact ih _ h2

/-- C4. Exactly-once ordered delivery. Take any schedule from the constructed
writer in which `Stop()` is called once, after every `Enqueue` call has
returned (`before` has no call of `Stop`, `after` has no call of `Enqueue`),
all `Enqueue` calls return true, and the writer is Stopped at the end; the
drain thread's sections may be interleaved in any way. If every `fopen`
succeeds and every `fwrite` writes all its bytes, then for every path the
bytes appended to its file are exactly the lines enqueued for that normalized
path, in submission order, each once. -/
theorem exactly_once_ordered_delivery (env : Env)
    (hopen : ∀ tr p, env.fopen tr p = true)
    (hwrite : ∀ tr h d, env.fwrite tr h d = d.length)
    (before after : List Label)
    (hbefore : Label.stopRequest ∉ before)
    (hafter : ∀ path line, Label.enqueue path line ∉ after)
    (haccepted : ∀ b ∈ enqueueResults env State.init before, b = true)
    (hstopped :
      (exec env State.init (before ++ Label.stopRequest :: after)).m_Running = false) :
    ∀ p, writtenTo p (exec env State.init (before ++ Label.stopRequest :: after)).trace
      = linesFor p (submitted before) := by
  intro p
  have hinv := stateInv_exec env (before ++ Label.stopRequest :: after) State.init stateInv_init
  have hcont := (content_exec env hopen hwrite (before ++ Label.stopRequest :: after)
    State.init [] stateInv_init (by intro kv hkv; simp [State.init] at hkv)
    (by intro q; simp [State.init, writtenTo, Targets.find, linesFor])).2
  have hb := beforeStop_exec env before State.init hbefore queueInv_init beforeStop_init
  have hqb := queueInv_exec env before State.init queueInv_init
  have hquiet1 : Quiet (step env (exec env State.init before) Label.stopRequest) := by
    intro hc
    have hpc : (step env (exec env State.init before) Label.stopRequest).pc
        = (exec env State.init before).pc := by
      simp only [step, StopRequest]
      split
      · rfl
      · split <;> rfl
    have hqu : (step env (exec env State.init before) Label.stopRequest).m_Queue
        = (exec env State.init before).m_Queue := by
      simp only [step, StopRequest]
      split
      · rfl
      · split <;> rfl
    rw [hpc] at hc
    rw [hqu]
    rcases hc with hc | hc | hc
    · exact (hb.2.2.1 hc).2
    · exact absurd hc hb.2.2.2.1
    · exact absurd hc hb.2.2.2.2
  have hquiet : Quiet (exec env State.init (before ++ Label.stopRequest :: after)) := by
    rw [exec_append, exec_cons]
    exact quiet_exec env after _ hafter (queueInv_step env _ _ hqb) hquiet1
  have hacc : accepted env State.init (before ++ Label.stopRequest :: after)
      = submitted before := by
    rw [accepted_append, accepted_of_all_true env before State.init haccepted, accepted_cons,
      accepted_of_no_enqueue env after _ hafter]
    simp [accepted]
  have hpc := hinv.1.2.2.2 hstopped
  have hqueue := hquiet (Or.inl hpc)
  have htargets := hinv.2.2 (Or.inl hpc)
  have hlocal := hinv.1.2.2.1 (by rw [hpc]; decide)
  have := hcont p
  rw [hacc, hqueue, htargets, hlocal] at this
  simpa [Targets.find, linesFor] using this

/-- C4 on `sampleRun`, `Stop()`, `sampleShutdown`: the file of `logs/a.log`
receives `one;two;`, the file of `logs/b.log` receives `uno;`. -/
theorem exactly_once_ordered_delivery_witness :
    (exec okEnv State.init (sampleRun ++ Label.stopRequest :: sampleShutdown)).m_Running = false
    ∧ writtenTo "logs/a.log".toList
        (exec okEnv State.init (sampleRun ++ Label.stopRequest :: sampleShutdown)).trace
      = "one;two;".toList
    ∧ writtenTo "logs/b.log".toList
        (exec okEnv State.init (sampleRun ++ Label.stopRequest :: sampleShutdown)).trace
      = "uno;".toList := by
  have h := exactly_once_ordered_delivery okEnv (fun _ _ => rfl) (fun _ _ _ => rfl)
    sampleRun sampleShutdown (by decide)
    (by intro path line hin; simp [sampleShutdown] at hin) (by decide) (by decide)
  refine ⟨by decide, ?_, ?_⟩
  · rw [h "logs/a.log".toList]; decide
  · rw [h "logs/b.log".toList]; decide

/-! ## One target per normalized path -/

theorem normalizePath_eq_normalizeRef (path : Str) : NormalizePath path = normalizeRef path := by
  rw [normalizePath_eq_collapse, collapse_eq_normalizeRef]
  simp

theorem enqueue_queue_of_accepted (s : State) (path line : Str)
    (h : (Enqueue s path line).2 = true) :
    (Enqueue s path line).1.m_Queue
      = s.m_Queue ++ [{ path := NormalizePath path, line := line }] := by
  rcases enqueue_cases s path line with c | c | c
  · rw [c.2] at h; exact absurd h (by simp)
  · rw [c.2.2.2.2] at h; exact absurd h (by simp)
  · rw [c.2.2.2.2]

theorem openTarget_buffer (env : Env) (tr : List Call) (t : Target) (k : Str) :
    (OpenTarget env tr t k).2.1.buffer = t.buffer := by
  by_cases hfp : t.fp = none
  · cases hf : t.failed with
    | true => rw [openTarget_of_failed env tr t k hfp hf]
    | false =>
      cases hopen : env.fopen (EnsureParentDirs env tr k).1 k with
      | true => rw [openTarget_fresh_ok env tr t k hfp hf hopen]
      | false => rw [openTarget_fresh_fail env tr t k hfp hf hopen]
  · rw [openTarget_of_open env tr t k hfp]

theorem openTarget_fp_of_ok (env : Env) (tr : List Call) (t : Target) (k : Str)
    (hok : (OpenTarget env tr t k).2.2 = true) : (OpenTarget env tr t k).2.1.fp ≠ none := by
  by_cases hfp : t.fp = none
  · cases hf : t.failed with
    | true =>
      rw [openTarget_of_failed env tr t k hfp hf] at hok
      exact absurd hok (by simp)
    | false =>
      cases hopen : env.fopen (EnsureParentDirs env tr k).1 k with
      | true => rw [openTarget_fresh_ok env tr t k hfp hf hopen]; simp
      | false =>
        rw [openTarget_fresh_fail env tr t k hfp hf hopen] at hok
        exact absurd hok (by simp)
  · rw [openTarget_of_open env tr t k hfp]
    exact hfp

/-- Two entries with the same key, below the flush threshold, on a target
whose open succeeds: both lines are appended to the one buffer, and nothing is
written. -/
theorem routeAll_pair_buffer (env : Env) (tr : List Call) (m : List (Str × Target))
    (k l1 l2 : Str)
    (hok : (OpenTarget env tr (Targets.find m k) k).2.2 = true)
    (hlen : ((Targets.find m k).buffer ++ l1 ++ l2).length < kFlushThresholdBytes) :
    (Targets.find (routeAll env tr m [{ path := k, line := l1 }, { path := k, line := l2 }]).2
        k).buffer = (Targets.find m k).buffer ++ l1 ++ l2
    ∧ (routeAll env tr m [{ path := k, line := l1 }, { path := k, line := l2 }]).1
        = (OpenTarget env tr (Targets.find m k) k).1 := by
  have hbuf := openTarget_buffer env tr (Targets.find m k) k
  have hfp := openTarget_fp_of_ok env tr (Targets.find m k) k hok
  obtain ⟨t1, ht1⟩ : ∃ t1 : Target, t1 =
      { (OpenTarget env tr (Targets.find m k) k).2.1 with
        buffer := (OpenTarget env tr (Targets.find m k) k).2.1.buffer ++ l1 } := ⟨_, rfl⟩
  have ht1fp : t1.fp ≠ none := by rw [ht1]; exact hfp
  have ht1buf : t1.buffer = (Targets.find m k).buffer ++ l1 := by rw [ht1, ← hbuf]
  have e1 : routeTarget env tr (Targets.find m k) { path := k, line := l1 }
      = ((OpenTarget env tr (Targets.find m k) k).1, t1) := by
    rcases routeTarget_of_opened env tr (Targets.find m k) { path := k, line := l1 } hok
      with h | h
    · rw [h.2, ht1]
    · have := h.1
      simp only [hbuf, List.length_append] at this hlen
      omega
  have hok2 : OpenTarget env (OpenTarget env tr (Targets.find m k) k).1 t1 k
      = ((OpenTarget env tr (Targets.find m k) k).1, t1, true) :=
    openTarget_of_open env _ _ k ht1fp
  obtain ⟨t2, ht2⟩ : ∃ t2 : Target, t2 = { t1 with buffer := t1.buffer ++ l2 } := ⟨_, rfl⟩
  have ht2buf : t2.buffer = (Targets.find m k).buffer ++ l1 ++ l2 := by rw [ht2, ← ht1buf]
  have e2 : routeTarget env (OpenTarget env tr (Targets.find m k) k).1 t1
      { path := k, line := l2 } = ((OpenTarget env tr (Targets.find m k) k).1, t2) := by
    rcases routeTarget_of_opened env (OpenTarget env tr (Targets.find m k) k).1 t1
      { path := k, line := l2 } (by rw [hok2]) with h | h
    · rw [h.2, hok2, ht2]
    · have := h.1
      rw [hok2] at this
      simp only [ht1buf, List.length_append] at this hlen
      omega
  simp only [routeAll, List.foldl_cons, List.foldl_nil]
  rw [routeEntry_eq env (tr, m)]
  dsimp only
  rw [e1, routeEntry_eq]
  dsimp only
  rw [find_store_same m k t1, e2, find_store_same]
  exact ⟨ht2buf, rfl⟩

/-- C7. Paths that differ only in separator style share one target. When `p`
and `q` are equal after every maximal run of separators is replaced by one
`'/'`: accepted `Enqueue` calls store their entries under the identical key;
the routing loop, given the two entries, leaves exactly one registry element
for that key and calls `fopen` on it once in all (not at all if the target
was there already); when the open succeeds and the buffer stays below the
flush threshold the one buffer receives both lines in submission order; and
when all opens and writes succeed, buffer and file together receive both
lines in submission order whatever their sizes. -/
theorem separator_styles_share_target (env : Env) (p q l1 l2 : Str)
    (hsame : normalizeRef p = normalizeRef q) :
    NormalizePath p = NormalizePath q
    ∧ (∀ s1 s2, (Enqueue s1 p l1).2 = true → (Enqueue s2 q l2).2 = true →
        (Enqueue s1 p l1).1.m_Queue
            = s1.m_Queue ++ [{ path := NormalizePath p, line := l1 }]
        ∧ (Enqueue s2 q l2).1.m_Queue
            = s2.m_Queue ++ [{ path := NormalizePath p, line := l2 }])
    ∧ (∀ tr m, RegistryOk m →
        ((routeAll env tr m (entryPair p q l1 l2)).2.map Prod.fst).Nodup
        ∧ NormalizePath p ∈ (routeAll env tr m (entryPair p q l1 l2)).2.map Prod.fst
        ∧ opensOf (NormalizePath p) (routeAll env tr m (entryPair p q l1 l2)).1
            = opensOf (NormalizePath p) tr
              + (if NormalizePath p ∈ m.map Prod.fst then 0 else 1)
        ∧ ((OpenTarget env tr (Targets.find m (NormalizePath p)) (NormalizePath p)).2.2 = true →
            ((Targets.find m (NormalizePath p)).buffer ++ l1 ++ l2).length
              < kFlushThresholdBytes →
            (Targets.find (routeAll env tr m (entryPair p q l1 l2)).2 (NormalizePath p)).buffer
              = (Targets.find m (NormalizePath p)).buffer ++ l1 ++ l2)
        ∧ ((∀ tr0 path, env.fopen tr0 path = true) →
            (∀ tr0 h d, env.fwrite tr0 h d = d.length) → AllLive m →
            writtenTo (NormalizePath p) (routeAll env tr m (entryPair p q l1 l2)).1
              ++ (Targets.find (routeAll env tr m (entryPair p q l1 l2)).2
                  (NormalizePath p)).buffer
              = writtenTo (NormalizePath p) tr ++ (Targets.find m (NormalizePath p)).buffer
                ++ l1 ++ l2)) := by
  have hk : NormalizePath p = NormalizePath q := by
    rw [normalizePath_eq_normalizeRef, normalizePath_eq_normalizeRef, hsame]
  refine ⟨hk, fun s1 s2 h1 h2 => ?_, fun tr m hm => ?_⟩
  · refine ⟨enqueue_queue_of_accepted s1 p l1 h1, ?_⟩
    rw [hk]
    exact enqueue_queue_of_accepted s2 q l2 h2
  · simp only [entryPair, ← hk]
    have hreg := foldl_routeEntry_registryOk env
      [{ path := NormalizePath p, line := l1 }, { path := NormalizePath p, line := l2 }] tr m hm
    have hop := foldl_routeEntry_opens env
      [{ path := NormalizePath p, line := l1 }, { path := NormalizePath p, line := l2 }] tr m hm
      (NormalizePath p)
    have hin : NormalizePath p ∈ (List.foldl (routeEntry env) (tr, m)
        [{ path := NormalizePath p, line := l1 },
          { path := NormalizePath p, line := l2 }]).2.map Prod.fst := by
      simp only [List.foldl_cons, List.foldl_nil]
      have h1 : NormalizePath p ∈ (routeEntry env (tr, m)
          { path := NormalizePath p, line := l1 }).2.map Prod.fst := by
        rw [routeEntry_keys]
        split
        · assumption
        · exact List.mem_append_right _ (List.mem_singleton.2 rfl)
      have h2 := routeEntry_keys env (routeEntry env (tr, m)
          { path := NormalizePath p, line := l1 }).1 (routeEntry env (tr, m)
          { path := NormalizePath p, line := l1 }).2 { path := NormalizePath p, line := l2 }
      simp only [Prod.mk.eta] at h2
      rw [h2, if_pos h1]
      exact h1
    refine ⟨hreg.1, hin, ?_, ?_, ?_⟩
    · have h1 := hop.1
      rw [if_pos hin] at h1
      simp only [routeAll]
      by_cases hmem : NormalizePath p ∈ m.map Prod.fst
      · rw [if_pos hmem] at h1 ⊢
        omega
      · rw [if_neg hmem] at h1 ⊢
        omega
    · intro hok hlen
      exact (routeAll_pair_buffer env tr m (NormalizePath p) l1 l2 hok hlen).1
    · intro hopen hwrite hlive
      have := (foldl_routeEntry_content env hopen hwrite
        [{ path := NormalizePath p, line := l1 }, { path := NormalizePath p, line := l2 }]
        tr m hm hlive).2 (NormalizePath p)
      simp only [routeAll]
      rw [this]
      simp [linesFor, List.append_assoc]

/-- C7 on `logs/a.log` and `logs\a.log`, routed into an empty registry. -/
theorem separator_styles_share_target_witness :
    normalizeRef "logs/a.log".toList = normalizeRef "logs\\a.log".toList
    ∧ (routeAll okEnv [] []
        (entryPair "logs/a.log".toList "logs\\a.log".toList "one".toList
          "two".toList)).2.map Prod.fst = ["logs/a.log".toList]
    ∧ opensOf (NormalizePath "logs/a.log".toList)
        (routeAll okEnv [] []
          (entryPair "logs/a.log".toList "logs\\a.log".toList "one".toList "two".toList)).1
        = 0 + (if NormalizePath "logs/a.log".toList ∈ [] then 0 else 1)
    ∧ (Targets.find (routeAll okEnv [] []
          (entryPair "logs/a.log".toList "logs\\a.log".toList "one".toList "two".toList)).2
        (NormalizePath "logs/a.log".toList)).buffer = [] ++ "one".toList ++ "two".toList := by
  have h := separator_styles_share_target okEnv "logs/a.log".toList "logs\\a.log".toList
    "one".toList "two".toList (by decide)
  have h3 := h.2.2 [] [] registryOk_nil
  exact ⟨by decide, by decide, h3.2.2.1, h3.2.2.2.1 (by decide) (by decide)⟩

/-! ## Sticky failure -/

theorem routeEntry_written_other (env : Env) (tr : List Call) (m : List (Str × Target))
    (e : Entry) (hm : RegistryOk m) (p : Str) (hp : p ≠ e.path) :
    writtenTo p (routeEntry env (tr, m) e).1 = writtenTo p tr := by
  rw [routeEntry_eq]
  exact (routeTarget_effect env tr (Targets.find m e.path) e (find_wf m e.path hm)).2.2.2.1 p hp

theorem foldl_routeEntry_written_failed (env : Env) (es : List Entry) (tr : List Call)
    (m : List (Str × Target)) (hm : RegistryOk m) (p : Str)
    (hf : (Targets.find m p).failed = true) :
    writtenTo p (es.foldl (routeEntry env) (tr, m)).1 = writtenTo p tr := by
  induction es generalizing tr m with
  | nil => rfl
  | cons e es ih =>
    simp only [List.foldl_cons]
    have hfind : Targets.find (routeEntry env (tr, m) e).2 p = Targets.find m p := by
      have := foldl_routeEntry_failed env [e] tr m hm p hf
      simpa using this
    have hw : writtenTo p (routeEntry env (tr, m) e).1 = writtenTo p tr := by
      by_cases hp : p = e.path
      · subst hp
        rw [routeEntry_of_failed env tr m e hm hf]
      · exact routeEntry_written_other env tr m e hm p hp
    have hih := ih (routeEntry env (tr, m) e).1 (routeEntry env (tr, m) e).2
      (routeEntry_registryOk env tr m e hm) (by rw [hfind]; exact hf)
    simp only [Prod.mk.eta] at hih
    rw [hih, hw]

theorem mem_keys_of_failed (m : List (Str × Target)) (p : Str)
    (hf : (Targets.find m p).failed = true) : p ∈ m.map Prod.fst := by
  by_contra hc
  rw [find_of_not_mem_keys m p hc] at hf
  exact absurd hf (by simp)

theorem sweepAll_written_of_no_handle (env : Env) (now : Nat) (m : List (Str × Target))
    (tr : List Call) (hm : RegistryOk m) (p : Str) (hfp : (Targets.find m p).fp = none) :
    writtenTo p (sweepAll env now tr m).1 = writtenTo p tr := by
  induction m generalizing tr with
  | nil => rfl
  | cons kv rest ih =>
    obtain ⟨k, t⟩ := kv
    obtain ⟨hk, hwf, _, hrest⟩ := (registryOk_cons k t rest).1 hm
    obtain ⟨_, _, _, s4, _, s6, _⟩ := sweepTarget_effect env now tr t k hwf
    simp only [sweepAll]
    by_cases hpk : k = p
    · subst hpk
      simp only [Targets.find, if_true] at hfp
      rw [(sweepAll_effect env now rest _ hrest).2.2.2.2.1 k hk, s4 hfp]
    · simp only [Targets.find, if_neg hpk] at hfp
      rw [ih _ hrest hfp, s6 p (fun e => hpk e.symm)]

theorem closeAll_written_of_no_handle (env : Env) (m : List (Str × Target))
    (tr : List Call) (hm : RegistryOk m) (p : Str) (hfp : (Targets.find m p).fp = none) :
    writtenTo p (closeAll env tr m) = writtenTo p tr := by
  induction m generalizing tr with
  | nil => rfl
  | cons kv rest ih =>
    obtain ⟨k, t⟩ := kv
    obtain ⟨hk, hwf, _, hrest⟩ := (registryOk_cons k t rest).1 hm
    obtain ⟨_, f2, _, _, _, f6, _⟩ := flushTarget_effect env tr t k hwf
    simp only [closeAll]
    by_cases hpk : k = p
    · subst hpk
      simp only [Targets.find, if_true] at hfp
      rw [f2, hfp]
      dsimp only
      rw [(closeAll_effect env rest _ hrest).2.1 k hk, flushTarget_of_no_handle env tr t hfp]
    · simp only [Targets.find, if_neg hpk] at hfp
      cases hfp2 : (FlushTarget env tr t).2.fp with
      | none =>
        dsimp only
        rw [ih _ hrest hfp, f6 p (fun e => hpk e.symm)]
      | some hd =>
        dsimp only
        rw [ih _ hrest hfp, writtenTo_append, f6 p (fun e => hpk e.symm)]
        simp [writtenTo]

/-- An entry whose open succeeds is appended to the buffer of its target; the
buffer is then kept, or handed whole to `fwrite` and cleared. The rest of the
registry plays no part. -/
theorem routeEntry_of_opened (env : Env) (tr : List Call) (m : List (Str × Target))
    (e : Entry)
    (hok : (OpenTarget env tr (Targets.find m e.path) e.path).2.2 = true) :
    (Targets.find (routeEntry env (tr, m) e).2 e.path).fp ≠ none
    ∧ ((Targets.find (routeEntry env (tr, m) e).2 e.path).buffer
          = (Targets.find m e.path).buffer ++ e.line
        ∧ (routeEntry env (tr, m) e).1 = (OpenTarget env tr (Targets.find m e.path) e.path).1
      ∨ (Targets.find (routeEntry env (tr, m) e).2 e.path).buffer = []
        ∧ ∃ h n t, (Targets.find (routeEntry env (tr, m) e).2 e.path).fp = some h
          ∧ (routeEntry env (tr, m) e).1
            = (OpenTarget env tr (Targets.find m e.path) e.path).1
              ++ [Call.fwrite h ((Targets.find m e.path).buffer ++ e.line) n, Call.fflush h,
                Call.nowMs t]) := by
  have hbuf := openTarget_buffer env tr (Targets.find m e.path) e.path
  have hfp := openTarget_fp_of_ok env tr (Targets.find m e.path) e.path hok
  obtain ⟨t1, ht1⟩ : ∃ t1 : Target, t1 =
      { (OpenTarget env tr (Targets.find m e.path) e.path).2.1 with
        buffer := (OpenTarget env tr (Targets.find m e.path) e.path).2.1.buffer ++ e.line } :=
    ⟨_, rfl⟩
  have ht1fp : t1.fp = (OpenTarget env tr (Targets.find m e.path) e.path).2.1.fp := by rw [ht1]
  have ht1buf : t1.buffer = (Targets.find m e.path).buffer ++ e.line := by rw [ht1, ← hbuf]
  rw [routeEntry_eq]
  dsimp only
  rw [find_store_same]
  rcases routeTarget_of_opened env tr (Targets.find m e.path) e hok with h | h
  · rw [h.2, ← ht1]
    exact ⟨by rw [ht1fp]; exact hfp, Or.inl ⟨ht1buf, rfl⟩⟩
  · rw [h.2, ← ht1]
    cases hh : t1.fp with
    | none => rw [ht1fp] at hh; exact absurd hh hfp
    | some hd =>
      have hne : t1.buffer ≠ [] := by
        intro hc
        have := h.1
        rw [hbuf, ← ht1buf, hc] at this
        simp [kFlushThresholdBytes] at this
      rw [flushTarget_of_data env _ t1 hd hh hne]
      refine ⟨by simp [hh], Or.inr ⟨rfl, hd,
        env.fwrite (OpenTarget env tr (Targets.find m e.path) e.path).1 hd t1.buffer,
        env.clock ((OpenTarget env tr (Targets.find m e.path) e.path).1 ++
          [Call.fwrite hd t1.buffer
              (env.fwrite (OpenTarget env tr (Targets.find m e.path) e.path).1 hd t1.buffer),
            Call.fflush hd]) % u64, hh, ?_⟩⟩
      rw [ht1buf]

/-- The calls of `fopen` on one path during a run: `base` before the run, one
more once the path has its target. -/
theorem opens_step (env : Env) (s : State) (l : Label) (p : Str) (base : Nat)
    (hl : l ≠ Label.start) (hinv : StateInv s)
    (h1 : opensOf p s.trace ≤ base + 1)
    (h2 : p ∉ s.m_Targets.map Prod.fst →
      (s.pc = ThreadPc.finished ∨ s.pc = ThreadPc.notStarted) ∨ opensOf p s.trace = base) :
    opensOf p (step env s l).trace ≤ base + 1
    ∧ (p ∉ (step env s l).m_Targets.map Prod.fst →
      ((step env s l).pc = ThreadPc.finished ∨ (step env s l).pc = ThreadPc.notStarted)
        ∨ opensOf p (step env s l).trace = base) := by
  obtain ⟨hq, hr, _⟩ := hinv
  cases l with
  | start => exact absurd rfl hl
  | enqueue path line =>
    obtain ⟨f1, f2, f3, _⟩ := enqueue_frame s path line
    simp only [step]
    rw [f1, f2, f3]
    exact ⟨h1, h2⟩
  | stopRequest =>
    simp only [step, StopRequest]
    split
    · exact ⟨h1, h2⟩
    · split <;> exact ⟨h1, h2⟩
  | stopJoin =>
    simp only [step, StopJoin]
    split
    · exact ⟨h1, fun _ => Or.inl (Or.inr rfl)⟩
    · exact ⟨h1, h2⟩
  | threadEntry =>
    simp only [step]
    split
    · rename_i hpc
      have ho : opensOf p (threadEntry env s).trace = opensOf p s.trace := by
        simp [threadEntry, NowMs, opensOf_append, opensOf]
      rw [ho]
      refine ⟨h1, fun hk => ?_⟩
      rcases h2 hk with h | h
      · rcases h with h | h <;> (rw [hpc] at h; exact absurd h (by decide))
      · exact Or.inr h
    · exact ⟨h1, h2⟩
  | drainLock =>
    simp only [step]
    split
    · rename_i hpc
      have hl : s.localQ = [] := hq.2.2.1 (by rw [hpc]; decide)
      obtain ⟨d1, d2, _⟩ := drainLock_fields s hl
      rw [d1, d2]
      refine ⟨h1, fun hk => ?_⟩
      rcases h2 hk with h | h
      · rcases h with h | h <;> (rw [hpc] at h; exact absurd h (by decide))
      · exact Or.inr h
    · exact ⟨h1, h2⟩
  | route =>
    simp only [step]
    split
    · rename_i hpc
      obtain ⟨o1, o2⟩ := foldl_routeEntry_opens env s.localQ s.trace s.m_Targets hr p
      simp only [routeLocal]
      by_cases hk : p ∈ s.m_Targets.map Prod.fst
      · rw [if_pos hk, if_pos (o2 hk)] at o1
        exact ⟨by omega, fun hc => absurd (o2 hk) hc⟩
      · rw [if_neg hk] at o1
        have hb : opensOf p s.trace = base := by
          rcases h2 hk with h | h
          · rcases h with h | h <;> (rw [hpc] at h; exact absurd h (by decide))
          · exact h
        constructor
        · split at o1 <;> omega
        · intro hc
          rw [if_neg hc] at o1
          right; omega
    · exact ⟨h1, h2⟩
  | sweep =>
    simp only [step]
    split
    · rename_i hpc
      obtain ⟨s1, _, _, s4, _⟩ :=
        sweepAll_effect env (NowMs env s.trace).2 s.m_Targets (NowMs env s.trace).1 hr
      have hnow : opensOf p (NowMs env s.trace).1 = opensOf p s.trace := by
        simp [NowMs, opensOf_append, opensOf]
      have hb : p ∉ s.m_Targets.map Prod.fst → opensOf p s.trace = base := by
        intro hk
        rcases h2 hk with h | h
        · rcases h with h | h <;> (rw [hpc] at h; exact absurd h (by decide))
        · exact h
      unfold periodic
      dsimp only
      split
      · split
        · dsimp only
          rw [s1]
          simp only [opensOf_append, opensOf, Nat.add_zero, s4 p, hnow]
          exact ⟨h1, fun hk => Or.inr (hb hk)⟩
        · dsimp only
          rw [s1]
          split
          · simp only [opensOf_append, opensOf, Nat.add_zero, s4 p, hnow]
            exact ⟨h1, fun hk => Or.inr (hb hk)⟩
          · simp only [s4 p, hnow]
            exact ⟨h1, fun hk => Or.inr (hb hk)⟩
      · dsimp only
        rw [hnow]
        exact ⟨h1, fun hk => Or.inr (hb hk)⟩
    · exact ⟨h1, h2⟩
  | threadExit =>
    simp only [step]
    split
    · simp only [threadExit]
      rw [(closeAll_effect env s.m_Targets s.trace hr).1 p]
      exact ⟨h1, fun _ => by simp⟩
    · exact ⟨h1, h2⟩

theorem opens_exec (env : Env) (ls : List Label) (s : State) (p : Str) (base : Nat)
    (hl : Label.start ∉ ls) (hinv : StateInv s)
    (h1 : opensOf p s.trace ≤ base + 1)
    (h2 : p ∉ s.m_Targets.map Prod.fst →
      (s.pc = ThreadPc.finished ∨ s.pc = ThreadPc.notStarted) ∨ opensOf p s.trace = base) :
    opensOf p (exec env s ls).trace ≤ base + 1 := by
  induction ls generalizing s with
  | nil => exact h1
  | cons l ls ih =>
    have hl1 : l ≠ Label.start := fun e => hl (by simp [e])
    have hl2 : Label.start ∉ ls := fun e => hl (List.mem_cons_of_mem _ e)
    obtain ⟨g1, g2⟩ := opens_step env s l p base hl1 hinv h1 h2
    exact ih _ hl2 (stateInv_step env s l hinv) g1 g2

/-- A failed target stays as it is for the rest of the run, and no call is
made for its path. -/
theorem failed_step (env : Env) (s : State) (l : Label) (p : Str) (t0 : Target)
    (hl : l ≠ Label.start) (hinv : StateInv s) (ht0 : t0.failed = true)
    (hk : (s.m_Targets = [] ∧ (s.pc = ThreadPc.finished ∨ s.pc = ThreadPc.notStarted))
      ∨ Targets.find s.m_Targets p = t0) :
    (((step env s l).m_Targets = []
        ∧ ((step env s l).pc = ThreadPc.finished ∨ (step env s l).pc = ThreadPc.notStarted))
      ∨ Targets.find (step env s l).m_Targets p = t0)
    ∧ opensOf p (step env s l).trace = opensOf p s.trace
    ∧ writtenTo p (step env s l).trace = writtenTo p s.trace := by
  obtain ⟨hq, hr, _⟩ := hinv
  have hfailed : Targets.find s.m_Targets p = t0 → (Targets.find s.m_Targets p).failed = true :=
    fun h => by rw [h]; exact ht0
  have hnofp : Targets.find s.m_Targets p = t0 → (Targets.find s.m_Targets p).fp = none :=
    fun h => (find_wf s.m_Targets p hr).1 (hfailed h)
  cases l with
  | start => exact absurd rfl hl
  | enqueue path line =>
    obtain ⟨f1, f2, f3, _⟩ := enqueue_frame s path line
    simp only [step]
    rw [f1, f2, f3]
    exact ⟨hk, rfl, rfl⟩
  | stopRequest =>
    simp only [step, StopRequest]
    split
    · exact ⟨hk, rfl, rfl⟩
    · split <;> exact ⟨hk, rfl, rfl⟩
  | stopJoin =>
    simp only [step, StopJoin]
    split
    · refine ⟨?_, rfl, rfl⟩
      rcases hk with h | h
      · exact Or.inl ⟨h.1, Or.inr rfl⟩
      · exact Or.inr h
    · exact ⟨hk, rfl, rfl⟩
  | threadEntry =>
    simp only [step]
    split
    · rename_i hpc
      refine ⟨?_, by simp [threadEntry, NowMs, opensOf_append, opensOf],
        by simp [threadEntry, NowMs, writtenTo_append, writtenTo]⟩
      rcases hk with h | h
      · rcases h.2 with h2 | h2 <;> (rw [hpc] at h2; exact absurd h2 (by decide))
      · exact Or.inr h
    · exact ⟨hk, rfl, rfl⟩
  | drainLock =>
    simp only [step]
    split
    · rename_i hpc
      have hloc : s.localQ = [] := hq.2.2.1 (by rw [hpc]; decide)
      obtain ⟨d1, d2, _⟩ := drainLock_fields s hloc
      rw [d1, d2]
      refine ⟨?_, rfl, rfl⟩
      rcases hk with h | h
      · rcases h.2 with h2 | h2 <;> (rw [hpc] at h2; exact absurd h2 (by decide))
      · exact Or.inr h
    · exact ⟨hk, rfl, rfl⟩
  | route =>
    simp only [step]
    split
    · rename_i hpc
      rcases hk with h | h
      · rcases h.2 with h2 | h2 <;> (rw [hpc] at h2; exact absurd h2 (by decide))
      · have hf := hfailed h
        have hin := mem_keys_of_failed s.m_Targets p hf
        obtain ⟨o1, o2⟩ := foldl_routeEntry_opens env s.localQ s.trace s.m_Targets hr p
        rw [if_pos hin, if_pos (o2 hin)] at o1
        simp only [routeLocal]
        refine ⟨Or.inr ?_, by omega, ?_⟩
        · rw [foldl_routeEntry_failed env s.localQ s.trace s.m_Targets hr p hf, h]
        · exact foldl_routeEntry_written_failed env s.localQ s.trace s.m_Targets hr p hf
    · exact ⟨hk, rfl, rfl⟩
  | sweep =>
    simp only [step]
    split
    · rename_i hpc
      rcases hk with h | h
      · rcases h.2 with h2 | h2 <;> (rw [hpc] at h2; exact absurd h2 (by decide))
      · obtain ⟨_, _, _, s4, _, s6, _⟩ :=
          sweepAll_effect env (NowMs env s.trace).2 s.m_Targets (NowMs env s.trace).1 hr
        have hw := sweepAll_written_of_no_handle env (NowMs env s.trace).2 s.m_Targets
          (NowMs env s.trace).1 hr p (hnofp h)
        have hnow1 : opensOf p (NowMs env s.trace).1 = opensOf p s.trace := by
          simp [NowMs, opensOf_append, opensOf]
        have hnow2 : writtenTo p (NowMs env s.trace).1 = writtenTo p s.trace := by
          simp [NowMs, writtenTo_append, writtenTo]
        have hfind := s6 p (hnofp h)
        unfold periodic
        dsimp only
        split
        · split
          · dsimp only
            refine ⟨Or.inr (by rw [hfind, h]), ?_, ?_⟩
            · simp only [opensOf_append, opensOf, Nat.add_zero, s4 p, hnow1]
            · simp only [writtenTo_append, writtenTo, List.append_nil, hw, hnow2]
          · dsimp only
            refine ⟨Or.inr (by rw [hfind, h]), ?_, ?_⟩
            · split
              · simp only [opensOf_append, opensOf, Nat.add_zero, s4 p, hnow1]
              · simp only [s4 p, hnow1]
            · split
              · simp only [writtenTo_append, writtenTo, List.append_nil, hw, hnow2]
              · simp only [hw, hnow2]
        · dsimp only
          exact ⟨Or.inr h, hnow1, hnow2⟩
    · exact ⟨hk, rfl, rfl⟩
  | threadExit =>
    simp only [step]
    split
    · rename_i hpc
      rcases hk with h | h
      · rcases h.2 with h2 | h2 <;> (rw [hpc] at h2; exact absurd h2 (by decide))
      · simp only [threadExit]
        refine ⟨Or.inl (by simp), (closeAll_effect env s.m_Targets s.trace hr).1 p, ?_⟩
        exact closeAll_written_of_no_handle env s.m_Targets s.trace hr p (hnofp h)
    · exact ⟨hk, rfl, rfl⟩

theorem failed_exec (env : Env) (ls : List Label) (s : State) (p : Str) (t0 : Target)
    (hl : Label.start ∉ ls) (hinv : StateInv s) (ht0 : t0.failed = true)
    (hk : (s.m_Targets = [] ∧ (s.pc = ThreadPc.finished ∨ s.pc = ThreadPc.notStarted))
      ∨ Targets.find s.m_Targets p = t0) :
    ((exec env s ls).m_Targets = [] ∨ Targets.find (exec env s ls).m_Targets p = t0)
    ∧ opensOf p (exec env s ls).trace = opensOf p s.trace
    ∧ writtenTo p (exec env s ls).trace = writtenTo p s.trace := by
  induction ls generalizing s with
  | nil =>
    refine ⟨?_, rfl, rfl⟩
    rcases hk with h | h
    · exact Or.inl h.1
    · exact Or.inr h
  | cons l ls ih =>
    have hl1 : l ≠ Label.start := fun e => hl (by simp [e])
    have hl2 : Label.start ∉ ls := fun e => hl (List.mem_cons_of_mem _ e)
    obtain ⟨g1, g2, g3⟩ := failed_step env s l p t0 hl1 hinv ht0 hk
    obtain ⟨i1, i2, i3⟩ := ih (step env s l) hl2 (stateInv_step env s l hinv) g1
    exact ⟨i1, by rw [exec_cons, i2, g2], by rw [exec_cons, i3, g3]⟩

/-- The first entry for a path whose `fopen` fails leaves a failed target with
an empty buffer. -/
theorem routeEntry_of_open_failure (env : Env) (tr : List Call) (m : List (Str × Target))
    (e : Entry) (hnew : e.path ∉ m.map Prod.fst)
    (hfail : env.fopen (EnsureParentDirs env tr e.path).1 e.path = false) :
    (Targets.find (routeEntry env (tr, m) e).2 e.path).failed = true
    ∧ (Targets.find (routeEntry env (tr, m) e).2 e.path).fp = none
    ∧ (Targets.find (routeEntry env (tr, m) e).2 e.path).buffer = [] := by
  rw [routeEntry_eq]
  dsimp only
  rw [find_store_same, find_of_not_mem_keys m e.path hnew]
  unfold routeTarget
  rw [openTarget_fresh_fail env tr {} e.path rfl rfl hfail]
  simp

/-! ## `OpenTarget`, idempotent and sticky -/

/-- C8. `OpenTarget` is idempotent and sticky. On a target with an open
handle it returns true; on a failed target it returns false; in both cases no
external call is made and the target is unchanged. On a target that is
neither open nor failed (a fresh one in particular) it returns true exactly
when `fopen` succeeds, and when `fopen` fails it sets `failed` and leaves the
handle absent. A failed target has no handle: `OpenTarget` keeps it so, and it
holds of every target the registry yields in every reachable state. -/
theorem openTarget_idempotent_sticky (env : Env) (tr : List Call) (t : Target) (path : Str) :
    (t.fp ≠ none → OpenTarget env tr t path = (tr, t, true))
    ∧ (t.failed = true → t.fp = none → OpenTarget env tr t path = (tr, t, false))
    ∧ (t.fp = none → t.failed = false →
        ((OpenTarget env tr t path).2.2 = true
            ↔ env.fopen (EnsureParentDirs env tr path).1 path = true)
        ∧ (env.fopen (EnsureParentDirs env tr path).1 path = false →
            (OpenTarget env tr t path).2.1.failed = true
            ∧ (OpenTarget env tr t path).2.1.fp = none))
    ∧ ((t.failed = true → t.fp = none) →
        (OpenTarget env tr t path).2.1.failed = true →
        (OpenTarget env tr t path).2.1.fp = none)
    ∧ (∀ ls key, (Targets.find (exec env State.init ls).m_Targets key).failed = true →
        (Targets.find (exec env State.init ls).m_Targets key).fp = none) := by
  refine ⟨openTarget_of_open env tr t path, fun hf hfp => openTarget_of_failed env tr t path hfp hf,
    ?_, ?_, fun ls key =>
      (find_wf _ key (stateInv_exec env ls State.init stateInv_init).2.1).1⟩
  · intro hfp hf
    cases hopen : env.fopen (EnsureParentDirs env tr path).1 path with
    | true => rw [openTarget_fresh_ok env tr t path hfp hf hopen]; simp
    | false => rw [openTarget_fresh_fail env tr t path hfp hf hopen]; simp
  · intro hwf
    by_cases hfp : t.fp = none
    · cases hf : t.failed with
      | true => rw [openTarget_of_failed env tr t path hfp hf]; exact fun _ => hfp
      | false =>
        cases hopen : env.fopen (EnsureParentDirs env tr path).1 path with
        | true => rw [openTarget_fresh_ok env tr t path hfp hf hopen]; simp [hf]
        | false => rw [openTarget_fresh_fail env tr t path hfp hf hopen]; simp
    · rw [openTarget_of_open env tr t path hfp]
      exact hwf

/-- C8 on samples: an open target, a failed target, and a fresh target whose
`fopen` fails. -/
theorem openTarget_idempotent_sticky_witness :
    OpenTarget failEnv [] openSample "x/file.log".toList = ([], openSample, true)
    ∧ OpenTarget okEnv [] failedSample "x/file.log".toList = ([], failedSample, false)
    ∧ (OpenTarget failEnv [] {} "file.log".toList).2.1.failed = true
    ∧ (OpenTarget failEnv [] {} "file.log".toList).2.1.fp = none
    ∧ (OpenTarget failEnv [] {} "file.log".toList).2.2 = false := by
  have h1 := openTarget_idempotent_sticky failEnv [] openSample "x/file.log".toList
  have h2 := openTarget_idempotent_sticky okEnv [] failedSample "x/file.log".toList
  have h3 := openTarget_idempotent_sticky failEnv [] {} "file.log".toList
  exact ⟨h1.1 (by decide), h2.2.1 rfl rfl, (h3.2.2.1 rfl rfl).2 (by decide) |>.1,
    (h3.2.2.1 rfl rfl).2 (by decide) |>.2, by decide⟩

/-! ## Refusals that are not counted -/

/-- C19. An `Enqueue` refused for a reason other than a full queue changes
nothing: in every writer state, when the path is empty after normalization, or
the line is empty, or the writer is not Running, `Enqueue` returns false and
the state is as before; in particular the queue, `queuedBytes` and the drop
counter are unchanged. -/
theorem enqueue_refusal_uncounted (s : State) (path line : Str)
    (h : NormalizePath path = [] ∨ line = [] ∨ s.m_Running = false) :
    (Enqueue s path line).2 = false
    ∧ (Enqueue s path line).1 = s
    ∧ (Enqueue s path line).1.m_Queue = s.m_Queue
    ∧ (Enqueue s path line).1.m_QueuedBytes = s.m_QueuedBytes
    ∧ (Enqueue s path line).1.m_Dropped = s.m_Dropped := by
  have hc : Enqueue s path line = (s, false) := by
    rcases enqueue_cases s path line with c | c | c
    · exact c.2
    · rcases h with h | h | h
      · exact absurd h c.1
      · exact absurd h c.2.1
      · rw [c.2.2.1] at h; exact absurd h (by decide)
    · rcases h with h | h | h
      · exact absurd h c.1
      · exact absurd h c.2.1
      · rw [c.2.2.1] at h; exact absurd h (by decide)
  rw [hc]
  exact ⟨rfl, rfl, rfl, rfl, rfl⟩

/-- C19 on samples: an empty path and an empty line on a Running writer with a
full queue, and a good entry on a Stopped writer. -/
theorem enqueue_refusal_uncounted_witness :
    (Enqueue fullState [] "line".toList).2 = false
    ∧ (Enqueue fullState [] "line".toList).1.m_Dropped = fullState.m_Dropped
    ∧ (Enqueue fullState "a.log".toList []).1.m_Dropped = fullState.m_Dropped
    ∧ (Enqueue stoppedState "a.log".toList "line".toList).2 = false
    ∧ (Enqueue stoppedState "a.log".toList "line".toList).1 = stoppedState := by
  have h1 := enqueue_refusal_uncounted fullState [] "line".toList (Or.inl (by decide))
  have h2 := enqueue_refusal_uncounted fullState "a.log".toList [] (Or.inr (Or.inl rfl))
  have h3 := enqueue_refusal_uncounted stoppedState "a.log".toList "line".toList
    (Or.inr (Or.inr rfl))
  exact ⟨h1.1, h1.2.2.2.2, h2.2.2.2.2, h3.1, h3.2.1⟩

/-! ## The life cycle -/

/-- C14. Lifecycle idempotence. `Start()` on a Running writer changes no state
(no second drain thread is spawned: the thread's position is as before).
`Stop()` on a Stopped writer returns from its first critical section with the
state unchanged, `stopRequested` included, without going on to `join`; this
holds of the constructed writer. `Start()` on a Stopped writer sets Running,
clears `stopRequested` and spawns the drain thread, also when the writer was
stopped before; and an entry that fits is then accepted again. -/
theorem lifecycle_idempotent (env : Env) (s : State) :
    (s.m_Running = true → Start s = s ∧ step env s Label.start = s)
    ∧ (s.m_Running = false → StopRequest s = s ∧ step env s Label.stopRequest = s)
    ∧ StopRequest State.init = State.init
    ∧ (s.m_Running = false →
        (Start s).m_Running = true ∧ (Start s).m_StopRequested = false
        ∧ (Start s).pc = ThreadPc.entry)
    ∧ ((Start (StopJoin s)).m_Running = true ∧ (Start (StopJoin s)).m_StopRequested = false
        ∧ (Start (StopJoin s)).pc = ThreadPc.entry)
    ∧ (∀ path line, s.m_Running = false → NormalizePath path ≠ [] → line ≠ [] →
        s.m_QueuedBytes + (NormalizePath path).length + line.length ≤ 8 * 1024 * 1024 →
        (Enqueue (Start s) path line).2 = true) := by
  refine ⟨fun h => ?_, fun h => ?_, rfl, fun h => ?_, ?_, fun path line h hp hl hfit => ?_⟩
  · constructor
    · simp [Start, h]
    · simp [step, Start, h]
  · constructor
    · simp [StopRequest, h]
    · simp [step, StopRequest, h]
  · simp [Start, h]
  · simp [Start, StopJoin]
  · rcases enqueue_cases (Start s) path line with c | c | c
    · rcases c.1 with (h1 | h1) | h1
      · exact absurd h1 hp
      · exact absurd h1 hl
      · simp [Start, h] at h1
    · have := c.2.2.2.1
      simp only [Start, h, Bool.false_eq_true, if_false, kMaxQueuedBytes] at this
      omega
    · rw [c.2.2.2.2]

/-- C14 on a full life cycle from the constructed writer: `Stop()` before any
`Start()` changes nothing, and after `idleCycle` a second `Start()` makes the
writer Running again and an entry is accepted. -/
theorem lifecycle_idempotent_witness :
    step okEnv State.init Label.stopRequest = State.init
    ∧ (exec okEnv State.init idleCycle).m_Running = false
    ∧ (Start (exec okEnv State.init idleCycle)).m_Running = true
    ∧ (Start (exec okEnv State.init idleCycle)).m_StopRequested = false
    ∧ (Enqueue (Start (exec okEnv State.init idleCycle)) "a.log".toList "x".toList).2 = true
    ∧ Start (Start State.init) = Start State.init := by
  have h0 := lifecycle_idempotent okEnv State.init
  have h1 := lifecycle_idempotent okEnv (exec okEnv State.init idleCycle)
  have h2 := lifecycle_idempotent okEnv (Start State.init)
  have hstop : (exec okEnv State.init idleCycle).m_Running = false := by decide
  exact ⟨(h0.2.1 rfl).2, hstop, (h1.2.2.2.1 hstop).1, (h1.2.2.2.1 hstop).2.1,
    h1.2.2.2.2.2 _ _ hstop (by decide) (by decide) (by decide), (h2.1 (by decide)).1⟩
/-! ## `Stop()` and a late `Enqueue` -/

/-- C13. The schedule `lateEnqueueRun`, evaluated: `Stop()` is called on an
idle Running writer; the drain thread finds the stop request with both queues
empty and leaves its loop; before `join` returns, an `Enqueue` is made, which
returns true because `m_Running` is still set; then the drain thread runs its
final loop and `Stop()` returns. The accepted entry is still in the shared
queue, `queuedBytes` is 10, and nothing has been written for its path. -/
theorem stop_strands_late_entry :
    enqueueResults okEnv State.init lateEnqueueRun = [true]
    ∧ (exec okEnv State.init lateEnqueueRun).m_Running = false
    ∧ (exec okEnv State.init lateEnqueueRun).stopJoining = false
    ∧ (exec okEnv State.init lateEnqueueRun).pc = ThreadPc.notStarted
    ∧ (exec okEnv State.init lateEnqueueRun).m_Queue
        = [{ path := "a.log".toList, line := "late;".toList }]
    ∧ (exec okEnv State.init lateEnqueueRun).m_QueuedBytes = 10
    ∧ (exec okEnv State.init lateEnqueueRun).m_Targets = []
    ∧ writtenTo "a.log".toList (exec okEnv State.init lateEnqueueRun).trace = [] := by
  decide

/-! ## The directory walk under a drive letter -/

/-- C18. `EnsureParentDirs` evaluated where no directory exists and none can
be created. For `C:/file.log` the directory portion is `C:`, which is shorter
than the drive pattern `C:/` the code looks for: `C:` is tested and its
creation is attempted, and the result is false. For `/file.log` no call is
made, and below `C:/` and `/` only the directories below them are visited. -/
theorem drive_root_file_tests_drive :
    EnsureParentDirs noDirEnv [] "C:/file.log".toList
      = ([Call.dirExists "C:".toList false, Call.mkdir "C:".toList MkdirResult.error], false)
    ∧ EnsureParentDirs noDirEnv [] "/file.log".toList = ([], true)
    ∧ EnsureParentDirs noDirEnv [] "C:/a/file.log".toList
      = ([Call.dirExists "C:/a".toList false, Call.mkdir "C:/a".toList MkdirResult.error],
          false)
    ∧ EnsureParentDirs noDirEnv [] "/a/file.log".toList
      = ([Call.dirExists "/a".toList false, Call.mkdir "/a".toList MkdirResult.error],
          false)
    ∧ EnsureParentDirs okEnv [] "C:/file.log".toList
      = ([Call.dirExists "C:".toList true], true) := by
  decide

/-! ## The flush threshold -/

/-- The routing of one entry to a target that is open or opens: the line is
appended as it is; below the threshold the buffer is kept and no call follows
the open, from the threshold on the whole buffer goes to one `fwrite` and the
buffer is cleared. -/
theorem routeTarget_threshold (env : Env) (tr : List Call) (t : Target) (e : Entry)
    (hok : (OpenTarget env tr t e.path).2.2 = true) :
    ((t.buffer ++ e.line).length < kFlushThresholdBytes
      ∧ (routeTarget env tr t e).2.buffer = t.buffer ++ e.line
      ∧ (routeTarget env tr t e).1 = (OpenTarget env tr t e.path).1)
    ∨ ((t.buffer ++ e.line).length ≥ kFlushThresholdBytes
      ∧ (routeTarget env tr t e).2.buffer = []
      ∧ ∃ h n ts, (routeTarget env tr t e).2.fp = some h
        ∧ (routeTarget env tr t e).1
          = (OpenTarget env tr t e.path).1
            ++ [Call.fwrite h (t.buffer ++ e.line) n, Call.fflush h, Call.nowMs ts]) := by
  have hbuf := openTarget_buffer env tr t e.path
  have hfp := openTarget_fp_of_ok env tr t e.path hok
  obtain ⟨t1, ht1⟩ : ∃ t1 : Target, t1 =
      { (OpenTarget env tr t e.path).2.1 with
        buffer := (OpenTarget env tr t e.path).2.1.buffer ++ e.line } := ⟨_, rfl⟩
  have ht1fp : t1.fp = (OpenTarget env tr t e.path).2.1.fp := by rw [ht1]
  have ht1buf : t1.buffer = t.buffer ++ e.line := by rw [ht1, ← hbuf]
  rcases routeTarget_of_opened env tr t e hok with h | h
  · left
    rw [h.2, ← ht1]
    exact ⟨by rw [← hbuf]; exact h.1, ht1buf, rfl⟩
  · right
    rw [h.2, ← ht1]
    have hlen : (t.buffer ++ e.line).length ≥ kFlushThresholdBytes := by
      rw [← hbuf]; exact h.1
    cases hh : t1.fp with
    | none => rw [ht1fp] at hh; exact absurd hh hfp
    | some hd =>
      have hne : t1.buffer ≠ [] := by
        intro hc
        rw [← ht1buf, hc] at hlen
        simp [kFlushThresholdBytes] at hlen
      rw [flushTarget_of_data env _ t1 hd hh hne]
      refine ⟨hlen, rfl, hd, env.fwrite (OpenTarget env tr t e.path).1 hd t1.buffer,
        env.clock ((OpenTarget env tr t e.path).1 ++
          [Call.fwrite hd t1.buffer (env.fwrite (OpenTarget env tr t e.path).1 hd t1.buffer),
            Call.fflush hd]) % u64, hh, ?_⟩
      rw [ht1buf]

theorem routeTarget_of_not_opened (env : Env) (tr : List Call) (t : Target) (e : Entry)
    (hok : (OpenTarget env tr t e.path).2.2 = false) :
    (routeTarget env tr t e).2.buffer = t.buffer := by
  unfold routeTarget
  dsimp only
  simp only [hok, Bool.not_false, if_true]
  exact openTarget_buffer env tr t e.path

theorem routeTarget_bufBound (env : Env) (tr : List Call) (t : Target) (e : Entry)
    (h : t.buffer.length < kFlushThresholdBytes) :
    (routeTarget env tr t e).2.buffer.length < kFlushThresholdBytes := by
  cases hok : (OpenTarget env tr t e.path).2.2 with
  | false => rw [routeTarget_of_not_opened env tr t e hok]; exact h
  | true =>
    rcases routeTarget_threshold env tr t e hok with c | c
    · rw [c.2.1]; exact c.1
    · rw [c.2.1]; simp [kFlushThresholdBytes]

theorem find_bufBound (m : List (Str × Target)) (k : Str) (h : BufBound m) :
    (Targets.find m k).buffer.length < kFlushThresholdBytes := by
  by_cases hin : k ∈ m.map Prod.fst
  · exact h _ (find_mem_of_mem_keys m k hin)
  · rw [find_of_not_mem_keys m k hin]
    simp [kFlushThresholdBytes]

theorem routeEntry_bufBound (env : Env) (tr : List Call) (m : List (Str × Target))
    (e : Entry) (hm : RegistryOk m) (h : BufBound m) :
    BufBound (routeEntry env (tr, m) e).2 := by
  rw [routeEntry_eq]
  intro kv hkv
  rcases mem_store _ _ _ kv hm.1 hkv with c | c
  · rw [c]
    exact routeTarget_bufBound env tr _ e (find_bufBound m e.path h)
  · exact h kv c.1

theorem foldl_routeEntry_bufBound (env : Env) (es : List Entry) (tr : List Call)
    (m : List (Str × Target)) (hm : RegistryOk m) (h : BufBound m) :
    BufBound (es.foldl (routeEntry env) (tr, m)).2 := by
  induction es generalizing tr m with
  | nil => exact h
  | cons e es ih =>
    simp only [List.foldl_cons]
    have hih := ih (routeEntry env (tr, m) e).1 (routeEntry env (tr, m) e).2
      (routeEntry_registryOk env tr m e hm) (routeEntry_bufBound env tr m e hm h)
    simp only [Prod.mk.eta] at hih
    exact hih

theorem flushTarget_buffer (env : Env) (tr : List Call) (t : Target) :
    (FlushTarget env tr t).2.buffer = [] ∨ FlushTarget env tr t = (tr, t) := by
  cases hfp : t.fp with
  | none => right; exact flushTarget_of_no_handle env tr t hfp
  | some hd =>
    by_cases hb : t.buffer = []
    · right; exact flushTarget_of_empty env tr t hb
    · left; rw [flushTarget_of_data env tr t hd hfp hb]

theorem sweepAll_bufBound (env : Env) (now : Nat) (m : List (Str × Target)) (tr : List Call)
    (h : BufBound m) : BufBound (sweepAll env now tr m).2 := by
  induction m generalizing tr with
  | nil => exact h
  | cons kv rest ih =>
    simp only [sweepAll]
    intro x hx
    rcases List.mem_cons.1 hx with hx | hx
    · rw [hx]
      show (sweepTarget env now tr kv.2).2.buffer.length < kFlushThresholdBytes
      rcases sweepTarget_cases env now tr kv.2 with c | c
      · rw [c]
        rcases flushTarget_buffer env tr kv.2 with f | f
        · rw [f]; simp [kFlushThresholdBytes]
        · rw [f]; exact h kv (List.mem_cons_self _ _)
      · rw [c]; exact h kv (List.mem_cons_self _ _)
    · exact ih _ (fun y hy => h y (List.mem_cons_of_mem _ hy)) x hx

theorem bufBound_step (env : Env) (s : State) (l : Label) (hinv : StateInv s)
    (h : BufBound s.m_Targets) : BufBound (step env s l).m_Targets := by
  cases l with
  | enqueue path line =>
    simp only [step]
    rw [(enqueue_frame s path line).1]
    exact h
  | start =>
    simp only [step, Start]
    split
    · exact h
    · split <;> exact h
  | stopRequest =>
    simp only [step, StopRequest]
    split
    · exact h
    · split <;> exact h
  | stopJoin =>
    simp only [step, StopJoin]
    split <;> exact h
  | threadEntry =>
    simp only [step, threadEntry]
    split <;> exact h
  | drainLock =>
    simp only [step, drainLock]
    split
    · split <;> split <;> exact h
    · exact h
  | route =>
    simp only [step, routeLocal]
    split
    · exact foldl_routeEntry_bufBound env s.localQ s.trace s.m_Targets hinv.2.1 h
    · exact h
  | sweep =>
    simp only [step, periodic]
    split
    · split
      · split <;> exact sweepAll_bufBound env _ s.m_Targets _ h
      · exact h
    · exact h
  | threadExit =>
    simp only [step, threadExit]
    split
    · intro kv hkv; simp at hkv
    · exact h

theorem bufBound_exec (env : Env) (ls : List Label) (s : State) (hinv : StateInv s)
    (h : BufBound s.m_Targets) : BufBound (exec env s ls).m_Targets := by
  induction ls generalizing s with
  | nil => exact h
  | cons l ls ih => exact ih _ (stateInv_step env s l hinv) (bufBound_step env s l hinv h)

/-- C15. The per-entry threshold flush bounds every buffer. When the routing
loop handles an entry whose target is open or opens, exactly the bytes of the
line are appended; if the buffer is then shorter than 64 KiB it is kept and
no call follows, and if it has reached 64 KiB (65536) the whole buffer is
passed to one `fwrite` on the target's handle and the buffer is cleared.
Routing an entry keeps every buffer of the registry shorter than 64 KiB; so
in every reachable state, and after any number of entries routed from one,
every buffer is shorter than 64 KiB and a target without a handle has an
empty buffer. -/
theorem threshold_bounds_buffers (env : Env) :
    (∀ tr m e, (OpenTarget env tr (Targets.find m e.path) e.path).2.2 = true →
        (((Targets.find m e.path).buffer ++ e.line).length < 65536
          ∧ (Targets.find (routeEntry env (tr, m) e).2 e.path).buffer
              = (Targets.find m e.path).buffer ++ e.line
          ∧ (routeEntry env (tr, m) e).1
              = (OpenTarget env tr (Targets.find m e.path) e.path).1)
        ∨ (((Targets.find m e.path).buffer ++ e.line).length ≥ 65536
          ∧ (Targets.find (routeEntry env (tr, m) e).2 e.path).buffer = []
          ∧ ∃ h n ts, (Targets.find (routeEntry env (tr, m) e).2 e.path).fp = some h
            ∧ (routeEntry env (tr, m) e).1
              = (OpenTarget env tr (Targets.find m e.path) e.path).1
                ++ [Call.fwrite h ((Targets.find m e.path).buffer ++ e.line) n,
                  Call.fflush h, Call.nowMs ts]))
    ∧ (∀ tr m e, RegistryOk m → BufBound m → BufBound (routeEntry env (tr, m) e).2)
    ∧ (∀ ls es kv,
        kv ∈ (routeAll env (exec env State.init ls).trace (exec env State.init ls).m_Targets
          es).2 →
        kv.2.buffer.length < 65536 ∧ (kv.2.fp = none → kv.2.buffer = []))
    ∧ (∀ ls kv, kv ∈ (exec env State.init ls).m_Targets →
        kv.2.buffer.length < 65536 ∧ (kv.2.fp = none → kv.2.buffer = [])) := by
  have hreach : ∀ ls, StateInv (exec env State.init ls)
      ∧ BufBound (exec env State.init ls).m_Targets := fun ls =>
    ⟨stateInv_exec env ls State.init stateInv_init,
      bufBound_exec env ls State.init stateInv_init (by intro kv hkv; simp [State.init] at hkv)⟩
  refine ⟨fun tr m e hok => ?_, fun tr m e hm hb => routeEntry_bufBound env tr m e hm hb,
    fun ls es kv hkv => ?_, fun ls kv hkv => ?_⟩
  · rw [routeEntry_eq]
    dsimp only
    rw [find_store_same]
    exact routeTarget_threshold env tr (Targets.find m e.path) e hok
  · obtain ⟨hi, hb⟩ := hreach ls
    exact ⟨foldl_routeEntry_bufBound env es _ _ hi.2.1 hb kv hkv,
      ((foldl_routeEntry_registryOk env es _ _ hi.2.1).2 kv hkv).1.2.1⟩
  · obtain ⟨hi, hb⟩ := hreach ls
    exact ⟨hb kv hkv, (hi.2.1.2 kv hkv).1.2.1⟩

/-- C15 on samples: 65535 bytes stay in the buffer, the next byte makes the
target write all 65536 and clear the buffer. -/
theorem threshold_bounds_buffers_witness :
    (Targets.find (routeEntry okEnv ([], []) bigEntry).2 bigEntry.path).buffer
      = [] ++ bigEntry.line
    ∧ (Targets.find (routeEntry okEnv ((routeEntry okEnv ([], []) bigEntry).1,
          (routeEntry okEnv ([], []) bigEntry).2) byteEntry).2 byteEntry.path).buffer
      = [] := by
  have h1 := (threshold_bounds_buffers okEnv).1 [] [] bigEntry (by decide)
  have h2 := (threshold_bounds_buffers okEnv).1 (routeEntry okEnv ([], []) bigEntry).1
    (routeEntry okEnv ([], []) bigEntry).2 byteEntry
    (by
      have hfp : (Targets.find (routeEntry okEnv ([], []) bigEntry).2 byteEntry.path).fp
          ≠ none := (routeEntry_of_opened okEnv [] [] bigEntry (by decide)).1
      rw [openTarget_of_open okEnv _ _ _ hfp])
  have hb1 : (Targets.find (routeEntry okEnv ([], []) bigEntry).2 bigEntry.path).buffer
      = [] ++ bigEntry.line := by
    rcases h1 with h1 | h1
    · exact h1.2.1
    · have := h1.1
      change (List.replicate 65535 'x').length ≥ 65536 at this
      rw [List.length_replicate] at this
      omega
  refine ⟨hb1, ?_⟩
  rcases h2 with h2 | h2
  · have := h2.1
    change ((Targets.find (routeEntry okEnv ([], []) bigEntry).2 bigEntry.path).buffer
      ++ ['y']).length < 65536 at this
    rw [hb1] at this
    change (List.replicate 65535 'x' ++ ['y']).length < 65536 at this
    rw [List.length_append, List.length_replicate] at this
    simp at this
  · exact h2.2.1

/-! ## The periodic sweep -/

theorem writesOf_append (a b : List Call) : writesOf (a ++ b) = writesOf a ++ writesOf b := by
  induction a with
  | nil => rfl
  | cons c a ih => cases c <;> simp [writesOf, ih]

/-- The sweep on one target: a due target is flushed, any other is left as it
is and no call is made. -/
theorem sweepTarget_gate (env : Env) (now : Nat) (tr : List Call) (t : Target) :
    (flushDue now t = true →
      ∃ h, t.fp = some h
        ∧ (sweepTarget env now tr t).2
          = { t with buffer := [],
                     last_flush_ms := env.clock (tr ++
                       [Call.fwrite h t.buffer (env.fwrite tr h t.buffer), Call.fflush h]) % u64 }
        ∧ (sweepTarget env now tr t).1
          = tr ++ [Call.fwrite h t.buffer (env.fwrite tr h t.buffer), Call.fflush h,
              Call.nowMs (env.clock (tr ++
                [Call.fwrite h t.buffer (env.fwrite tr h t.buffer), Call.fflush h]) % u64)])
    ∧ (flushDue now t = false → sweepTarget env now tr t = (tr, t)) := by
  constructor
  · intro hd
    have hd2 := hd
    simp only [flushDue, Bool.and_eq_true, Bool.not_eq_true', decide_eq_true_eq] at hd2
    cases hfp : t.fp with
    | none => rw [hfp] at hd2; simp at hd2
    | some h =>
      have hb : t.buffer ≠ [] := by
        intro hc
        have := hd2.1.2
        rw [hc] at this
        simp at this
      refine ⟨h, rfl, ?_, ?_⟩
      · have : sweepTarget env now tr t = FlushTarget env tr t := by
          unfold sweepTarget
          unfold flushDue at hd
          rw [if_pos hd]
        rw [this, flushTarget_of_data env tr t h hfp hb]
        simp [hfp]
      · have : sweepTarget env now tr t = FlushTarget env tr t := by
          unfold sweepTarget
          unfold flushDue at hd
          rw [if_pos hd]
        rw [this, flushTarget_of_data env tr t h hfp hb]
  · intro hd
    unfold sweepTarget
    unfold flushDue at hd
    rw [if_neg (by rw [hd]; simp)]

/-- The periodic sweep over the registry: key by key, a due target comes out
flushed and any other unchanged; the writes made are those of the due
targets. -/
theorem sweepAll_gate (env : Env) (now : Nat) (m : List (Str × Target)) (tr : List Call) :
    List.Forall₂
        (fun kv kv2 : Str × Target => kv2.1 = kv.1
          ∧ (flushDue now kv.2 = true →
              kv2.2.buffer = [] ∧ kv2.2.fp = kv.2.fp ∧ kv2.2.failed = kv.2.failed)
          ∧ (flushDue now kv.2 = false → kv2.2 = kv.2))
        m (sweepAll env now tr m).2
    ∧ writesOf (sweepAll env now tr m).1 = writesOf tr ++ dueWrites now m := by
  induction m generalizing tr with
  | nil => exact ⟨List.Forall₂.nil, by simp [sweepAll, dueWrites]⟩
  | cons kv rest ih =>
    obtain ⟨g1, g2⟩ := sweepTarget_gate env now tr kv.2
    obtain ⟨i1, i2⟩ := ih (sweepTarget env now tr kv.2).1
    simp only [sweepAll]
    constructor
    · refine List.Forall₂.cons ⟨rfl, fun hd => ?_, fun hd => ?_⟩ i1
      · obtain ⟨h, _, e2, _⟩ := g1 hd
        show (sweepTarget env now tr kv.2).2.buffer = [] ∧ _
        rw [e2]
        exact ⟨rfl, rfl, rfl⟩
      · show (sweepTarget env now tr kv.2).2 = kv.2
        rw [g2 hd]
    · rw [i2]
      cases hd : flushDue now kv.2 with
      | true =>
        obtain ⟨h, e1, _, e3⟩ := g1 hd
        rw [e3]
        simp [writesOf_append, writesOf, dueWrites, e1, hd]
      | false =>
        rw [g2 hd]
        cases hfp : kv.2.fp <;> simp [dueWrites, hfp, hd]

theorem sweepAll_after (env : Env) (now : Nat) (m : List (Str × Target)) (tr : List Call)
    (kv : Str × Target) (hkv : kv ∈ (sweepAll env now tr m).2) (hfp : kv.2.fp ≠ none) :
    kv.2.buffer = [] ∨ u64sub now kv.2.last_flush_ms < kFlushIntervalMs := by
  have h := (sweepAll_gate env now m tr).1
  generalize (sweepAll env now tr m).2 = m2 at h hkv
  induction h with
  | nil => simp at hkv
  | cons hab _ ih =>
    rename_i a b l1 l2 _
    rcases List.mem_cons.1 hkv with e | e
    · subst e
      cases hd : flushDue now a.2 with
      | true => exact Or.inl (hab.2.1 hd).1
      | false =>
        have hb := hab.2.2 hd
        rw [hb] at hfp ⊢
        simp only [flushDue, Bool.and_eq_false_iff, Bool.not_eq_false', decide_eq_false_iff_not]
          at hd
        rcases hd with (hd | hd) | hd
        · cases hx : a.2.fp with
          | none => exact absurd hx hfp
          | some x => rw [hx] at hd; simp at hd
        · left
          cases hx : a.2.buffer with
          | nil => rfl
          | cons c cs => rw [hx] at hd; simp at hd
        · right
          exact Nat.lt_of_not_le hd
    · exact ih e

/-- C16. The periodic flush is a two-level gate. In a drain cycle that reads
the time `now`: if `now - lastGlobalFlush` (as the code computes it) is below
250 ms, no target changes, no write is made and `lastGlobalFlush` stays; if it
is at least 250 ms, `lastGlobalFlush` becomes `now` and the registry is swept:
a target is flushed (its whole buffer in one `fwrite` on its handle, the
buffer cleared) exactly when its handle is open, its buffer is non-empty and
`now - lastFlush` is at least 250 ms, and every other target is unchanged. So
directly after a sweep every open target has an empty buffer or was last
flushed less than 250 ms before `now`. -/
theorem periodic_two_level_gate (env : Env) (s : State) :
    (u64sub (NowMs env s.trace).2 s.last_global_flush < 250 →
      (periodic env s).m_Targets = s.m_Targets
      ∧ (periodic env s).last_global_flush = s.last_global_flush
      ∧ (periodic env s).trace = s.trace ++ [Call.nowMs (NowMs env s.trace).2]
      ∧ writesOf (periodic env s).trace = writesOf s.trace)
    ∧ (u64sub (NowMs env s.trace).2 s.last_global_flush ≥ 250 →
      (periodic env s).last_global_flush = (NowMs env s.trace).2
      ∧ (periodic env s).m_Targets
          = (sweepAll env (NowMs env s.trace).2 (NowMs env s.trace).1 s.m_Targets).2
      ∧ List.Forall₂
          (fun kv kv2 : Str × Target => kv2.1 = kv.1
            ∧ (flushDue (NowMs env s.trace).2 kv.2 = true →
                kv2.2.buffer = [] ∧ kv2.2.fp = kv.2.fp ∧ kv2.2.failed = kv.2.failed)
            ∧ (flushDue (NowMs env s.trace).2 kv.2 = false → kv2.2 = kv.2))
          s.m_Targets (periodic env s).m_Targets
      ∧ writesOf (periodic env s).trace
          = writesOf s.trace ++ dueWrites (NowMs env s.trace).2 s.m_Targets
      ∧ (∀ kv ∈ (periodic env s).m_Targets, kv.2.fp ≠ none →
          kv.2.buffer = [] ∨ u64sub (NowMs env s.trace).2 kv.2.last_flush_ms < 250))
    ∧ (∀ now t, flushDue now t = true
        ↔ (t.fp ≠ none ∧ t.buffer ≠ [] ∧ u64sub now t.last_flush_ms ≥ 250)) := by
  have hk : kFlushIntervalMs = 250 := rfl
  have hnow : writesOf (NowMs env s.trace).1 = writesOf s.trace := by
    simp [NowMs, writesOf_append, writesOf]
  refine ⟨fun hlt => ?_, fun hge => ?_, fun now t => ?_⟩
  · have hn : ¬ u64sub (NowMs env s.trace).2 s.last_global_flush ≥ kFlushIntervalMs := by
      rw [hk]; omega
    unfold periodic
    dsimp only
    rw [if_neg hn]
    exact ⟨rfl, rfl, rfl, hnow⟩
  · have hp : u64sub (NowMs env s.trace).2 s.last_global_flush ≥ kFlushIntervalMs := by
      rw [hk]; exact hge
    obtain ⟨g1, g2⟩ :=
      sweepAll_gate env (NowMs env s.trace).2 s.m_Targets (NowMs env s.trace).1
    have hafter := sweepAll_after env (NowMs env s.trace).2 s.m_Targets (NowMs env s.trace).1
    rw [hnow] at g2
    unfold periodic
    dsimp only
    rw [if_pos hp]
    split
    · dsimp only
      refine ⟨rfl, rfl, g1, ?_, fun kv hkv hfp => hafter kv hkv hfp⟩
      simp [writesOf_append, writesOf, g2]
    · dsimp only
      refine ⟨rfl, rfl, g1, ?_, fun kv hkv hfp => hafter kv hkv hfp⟩
      split
      · simp [writesOf_append, writesOf, g2]
      · exact g2
  · simp only [flushDue, Bool.and_eq_true, Bool.not_eq_true', decide_eq_true_eq, hk]
    constructor
    · rintro ⟨⟨h1, h2⟩, h3⟩
      refine ⟨?_, ?_, h3⟩
      · intro hc; rw [hc] at h1; simp at h1
      · intro hc; rw [hc] at h2; simp at h2
    · rintro ⟨h1, h2, h3⟩
      refine ⟨⟨?_, ?_⟩, h3⟩
      · cases hx : t.fp with
        | none => exact absurd hx h1
        | some x => rfl
      · cases hx : t.buffer with
        | nil => exact absurd hx h2
        | cons c cs => rfl

/-- C16 on samples, with the clock at 1000: after a last sweep at 900 nothing
happens; after a last sweep at 100 only `a.log` (data, flushed at 100) is
written, while `b.log` (flushed at 900), `c.log` (empty) and `d.log` (failed)
are left alone. -/
theorem periodic_two_level_gate_witness :
    (periodic okEnv earlyState).m_Targets = earlyState.m_Targets
    ∧ (periodic okEnv earlyState).last_global_flush = 900
    ∧ (periodic okEnv sweepState).last_global_flush = 1000
    ∧ writesOf (periodic okEnv sweepState).trace
        = [({ id := 1, path := "a.log".toList }, "aa".toList)]
    ∧ (∀ kv ∈ (periodic okEnv sweepState).m_Targets, kv.2.fp ≠ none →
        kv.2.buffer = [] ∨ u64sub 1000 kv.2.last_flush_ms < 250) := by
  have h1 := (periodic_two_level_gate okEnv earlyState).1 (by decide)
  have h2 := (periodic_two_level_gate okEnv sweepState).2.1 (by decide)
  exact ⟨h1.1, h1.2.1, h2.1, by decide, h2.2.2.2.2⟩

/-! ## The drop counter -/

theorem reportsOf_append (a b : List Call) :
    reportsOf (a ++ b) = reportsOf a ++ reportsOf b := by
  induction a with
  | nil => rfl
  | cons c a ih => cases c <;> simp [reportsOf, ih]

theorem reportsOf_dirExt {a b : List Call} (h : DirExt a b) : reportsOf b = reportsOf a := by
  obtain ⟨ex, rfl, hex⟩ := h
  rw [reportsOf_append]
  suffices hs : reportsOf ex = [] by rw [hs, List.append_nil]
  clear a
  induction ex with
  | nil => rfl
  | cons c ex ih =>
    have hc := hex c (List.mem_cons_self _ _)
    have ht := ih (fun d hd => hex d (List.mem_cons_of_mem _ hd))
    cases c <;> simp [isDirCall] at hc <;> simp [reportsOf, ht]

theorem flushTarget_reports (env : Env) (tr : List Call) (t : Target) :
    reportsOf (FlushTarget env tr t).1 = reportsOf tr := by
  cases hfp : t.fp with
  | none => rw [flushTarget_of_no_handle env tr t hfp]
  | some hd =>
    by_cases hb : t.buffer = []
    · rw [flushTarget_of_empty env tr t hb]
    · rw [flushTarget_of_data env tr t hd hfp hb]
      simp [reportsOf_append, reportsOf]

theorem openTarget_reports (env : Env) (tr : List Call) (t : Target) (k : Str) :
    reportsOf (OpenTarget env tr t k).1 = reportsOf tr := by
  have hdir := reportsOf_dirExt (ensureParentDirs_trace env tr k)
  by_cases hfp : t.fp = none
  · cases hf : t.failed with
    | true => rw [openTarget_of_failed env tr t k hfp hf]
    | false =>
      cases hopen : env.fopen (EnsureParentDirs env tr k).1 k with
      | true =>
        rw [openTarget_fresh_ok env tr t k hfp hf hopen]
        simp [reportsOf_append, reportsOf, hdir]
      | false =>
        rw [openTarget_fresh_fail env tr t k hfp hf hopen]
        simp [reportsOf_append, reportsOf, hdir]
  · rw [openTarget_of_open env tr t k hfp]

theorem routeEntry_reports (env : Env) (tr : List Call) (m : List (Str × Target)) (e : Entry) :
    reportsOf (routeEntry env (tr, m) e).1 = reportsOf tr := by
  unfold routeEntry
  dsimp only
  split
  · exact openTarget_reports env tr _ e.path
  · split
    · rw [flushTarget_reports]
      exact openTarget_reports env tr _ e.path
    · exact openTarget_reports env tr _ e.path

theorem foldl_routeEntry_reports (env : Env) (es : List Entry) (tr : List Call)
    (m : List (Str × Target)) :
    reportsOf (es.foldl (routeEntry env) (tr, m)).1 = reportsOf tr := by
  induction es generalizing tr m with
  | nil => rfl
  | cons e es ih =>
    simp only [List.foldl_cons]
    have hih := ih (routeEntry env (tr, m) e).1 (routeEntry env (tr, m) e).2
    simp only [Prod.mk.eta] at hih
    rw [hih, routeEntry_reports]

theorem sweepAll_reports (env : Env) (now : Nat) (m : List (Str × Target)) (tr : List Call) :
    reportsOf (sweepAll env now tr m).1 = reportsOf tr := by
  induction m generalizing tr with
  | nil => rfl
  | cons kv rest ih =>
    simp only [sweepAll]
    rw [ih]
    rcases sweepTarget_cases env now tr kv.2 with c | c
    · rw [c, flushTarget_reports]
    · rw [c]

theorem closeAll_reports (env : Env) (m : List (Str × Target)) (tr : List Call) :
    reportsOf (closeAll env tr m) = reportsOf tr := by
  induction m generalizing tr with
  | nil => rfl
  | cons kv rest ih =>
    simp only [closeAll]
    cases hfp : (FlushTarget env tr kv.2).2.fp with
    | none => dsimp only; rw [ih, flushTarget_reports]
    | some hd =>
      dsimp only
      rw [ih, reportsOf_append, flushTarget_reports]
      simp [reportsOf]

/-- What `Enqueue` does to the drop counter. -/
theorem enqueue_dropped (s : State) (path line : Str) :
    (Enqueue s path line).1.m_Dropped
      = s.m_Dropped + (if isFullRefusal s path line then 1 else 0) := by
  rcases enqueue_cases s path line with c | c | c
  · rw [c.2]
    have : isFullRefusal s path line = false := by
      unfold isFullRefusal
      rcases c.1 with (h | h) | h
      · simp [h]
      · simp [h]
      · simp [h]
    simp [this]
  · rw [c.2.2.2.2]
    have : isFullRefusal s path line = true := by
      unfold isFullRefusal
      simp [c.2.2.1, normalizePath_isEmpty_false c.1, isEmpty_false_of_ne_nil c.2.1]
      exact c.2.2.2.1
    simp [this]
  · rw [c.2.2.2.2]
    have : isFullRefusal s path line = false := by
      unfold isFullRefusal
      have := c.2.2.2.1
      simp only [Bool.and_eq_false_iff, decide_eq_false_iff_not]
      right
      omega
    simp [this]

/-- Outside the periodic sweep the drop counter is never reset and no drop
message is written: the counter moves only by one, on an `Enqueue` refused for
a full queue. -/
theorem dropped_step_other (env : Env) (s : State) (l : Label) (hl : l ≠ Label.sweep) :
    (step env s l).m_Dropped = s.m_Dropped + (if refusedNow s l then 1 else 0)
    ∧ reportsOf (step env s l).trace = reportsOf s.trace := by
  cases l with
  | sweep => exact absurd rfl hl
  | enqueue path line =>
    simp only [step, refusedNow]
    exact ⟨enqueue_dropped s path line, by rw [(enqueue_frame s path line).2.2.1]⟩
  | start =>
    simp only [step, Start, refusedNow]
    split
    · simp
    · split <;> simp
  | stopRequest =>
    simp only [step, StopRequest, refusedNow]
    split
    · simp
    · split <;> simp
  | stopJoin =>
    simp only [step, StopJoin, refusedNow]
    split <;> simp
  | threadEntry =>
    simp only [step, threadEntry, refusedNow]
    split
    · simp [NowMs, reportsOf_append, reportsOf]
    · simp
  | drainLock =>
    simp only [step, drainLock, refusedNow]
    split
    · split <;> split <;> simp
    · simp
  | route =>
    simp only [step, routeLocal, refusedNow]
    split
    · simp [foldl_routeEntry_reports]
    · simp
  | threadExit =>
    simp only [step, threadExit, refusedNow]
    split
    · simp [closeAll_reports]
    · simp

/-- The periodic check and the drop counter: one message with the counter's
value, and the reset, exactly when the flush interval has elapsed, the counter
is not zero and warnings are enabled; otherwise no message and no reset. -/
theorem periodic_dropped (env : Env) (s : State) :
    ((u64sub (NowMs env s.trace).2 s.last_global_flush ≥ kFlushIntervalMs
        ∧ s.m_Dropped ≠ 0
        ∧ env.warnEnabled
            (sweepAll env (NowMs env s.trace).2 (NowMs env s.trace).1 s.m_Targets).1 = true) →
      reportsOf (periodic env s).trace = reportsOf s.trace ++ [s.m_Dropped]
      ∧ (periodic env s).m_Dropped = 0)
    ∧ (¬ (u64sub (NowMs env s.trace).2 s.last_global_flush ≥ kFlushIntervalMs
        ∧ s.m_Dropped ≠ 0
        ∧ env.warnEnabled
            (sweepAll env (NowMs env s.trace).2 (NowMs env s.trace).1 s.m_Targets).1 = true) →
      reportsOf (periodic env s).trace = reportsOf s.trace
      ∧ (periodic env s).m_Dropped = s.m_Dropped) := by
  have hnow : reportsOf (NowMs env s.trace).1 = reportsOf s.trace := by
    simp [NowMs, reportsOf_append, reportsOf]
  have hsw := sweepAll_reports env (NowMs env s.trace).2 s.m_Targets (NowMs env s.trace).1
  rw [hnow] at hsw
  constructor
  · rintro ⟨h1, h2, h3⟩
    unfold periodic
    dsimp only
    rw [if_pos h1, if_pos ⟨h2, h3⟩]
    dsimp only
    simp [reportsOf_append, reportsOf, hsw]
  · intro hn
    unfold periodic
    dsimp only
    by_cases h1 : u64sub (NowMs env s.trace).2 s.last_global_flush ≥ kFlushIntervalMs
    · have h23 : ¬ (s.m_Dropped ≠ 0 ∧ env.warnEnabled
          (sweepAll env (NowMs env s.trace).2 (NowMs env s.trace).1 s.m_Targets).1 = true) :=
        fun h => hn ⟨h1, h.1, h.2⟩
      rw [if_pos h1, if_neg h23]
      dsimp only
      refine ⟨?_, rfl⟩
      split
      · simp [reportsOf_append, reportsOf, hsw]
      · exact hsw
    · rw [if_neg h1]
      exact ⟨hnow, rfl⟩

theorem dropped_step_sum (env : Env) (s : State) (l : Label) :
    (reportsOf (step env s l).trace).sum + (step env s l).m_Dropped
      = (reportsOf s.trace).sum + s.m_Dropped + (if refusedNow s l then 1 else 0) := by
  by_cases hl : l = Label.sweep
  · subst hl
    simp only [step, refusedNow]
    split
    · obtain ⟨p1, p2⟩ := periodic_dropped env s
      by_cases hc : u64sub (NowMs env s.trace).2 s.last_global_flush ≥ kFlushIntervalMs
          ∧ s.m_Dropped ≠ 0
          ∧ env.warnEnabled
              (sweepAll env (NowMs env s.trace).2 (NowMs env s.trace).1 s.m_Targets).1 = true
      · rw [(p1 hc).1, (p1 hc).2]
        simp
      · rw [(p2 hc).1, (p2 hc).2]
        simp
    · simp
  · obtain ⟨h1, h2⟩ := dropped_step_other env s l hl
    rw [h1, h2]
    omega

theorem fullRefusals_cons (env : Env) (s : State) (l : Label) (ls : List Label) :
    fullRefusals env s (l :: ls)
      = (if refusedNow s l then 1 else 0) + fullRefusals env (step env s l) ls := by
  cases l <;> simp [fullRefusals, refusedNow]

theorem dropped_exec_sum (env : Env) (ls : List Label) (s : State) :
    (reportsOf (exec env s ls).trace).sum + (exec env s ls).m_Dropped
      = (reportsOf s.trace).sum + s.m_Dropped + fullRefusals env s ls := by
  induction ls generalizing s with
  | nil => simp [exec, fullRefusals]
  | cons l ls ih =>
    rw [exec_cons, ih, dropped_step_sum, fullRefusals_cons]
    omega

theorem reports_exec_of_disabled (env : Env) (hoff : ∀ tr, env.warnEnabled tr = false)
    (ls : List Label) (s : State) : reportsOf (exec env s ls).trace = reportsOf s.trace := by
  induction ls generalizing s with
  | nil => rfl
  | cons l ls ih =>
    rw [exec_cons, ih]
    by_cases hl : l = Label.sweep
    · subst hl
      simp only [step]
      split
      · exact ((periodic_dropped env s).2 (fun h => by rw [hoff] at h; simp at h)).1
      · rfl
    · exact (dropped_step_other env s l hl).2

/-- C17. Drop diagnostic accounting, with `Enqueue` and the periodic check as
atomic steps. Outside the periodic check the drop counter is never reset and
no message is written; it grows by one on every `Enqueue` refused for a full
queue. The periodic check writes exactly one message, carrying the counter's
value, and resets the counter, when the flush interval has elapsed, the
counter is not zero and warnings are enabled; otherwise it writes no message
and leaves the counter. Along every schedule the reported counts and the
counter add up to the number of refusals; so over a stretch without a message
the counter grows by the refusals of the stretch, and the message that follows
a stretch begun with the counter at zero carries exactly the refusals of that
stretch. While warnings are disabled no message is written and the counter is
never reset. -/
theorem drop_diagnostic_accounting (env : Env) :
    (∀ s l, l ≠ Label.sweep →
        (step env s l).m_Dropped = s.m_Dropped + (if refusedNow s l then 1 else 0)
        ∧ reportsOf (step env s l).trace = reportsOf s.trace)
    ∧ (∀ s : State,
        ((u64sub (NowMs env s.trace).2 s.last_global_flush ≥ 250
            ∧ s.m_Dropped ≠ 0
            ∧ env.warnEnabled
                (sweepAll env (NowMs env s.trace).2 (NowMs env s.trace).1 s.m_Targets).1
              = true) →
          reportsOf (periodic env s).trace = reportsOf s.trace ++ [s.m_Dropped]
          ∧ (periodic env s).m_Dropped = 0)
        ∧ (¬ (u64sub (NowMs env s.trace).2 s.last_global_flush ≥ 250
            ∧ s.m_Dropped ≠ 0
            ∧ env.warnEnabled
                (sweepAll env (NowMs env s.trace).2 (NowMs env s.trace).1 s.m_Targets).1
              = true) →
          reportsOf (periodic env s).trace = reportsOf s.trace
          ∧ (periodic env s).m_Dropped = s.m_Dropped))
    ∧ (∀ s ls,
        (reportsOf (exec env s ls).trace).sum + (exec env s ls).m_Dropped
          = (reportsOf s.trace).sum + s.m_Dropped + fullRefusals env s ls)
    ∧ (∀ s ls, reportsOf (exec env s ls).trace = reportsOf s.trace →
        (exec env s ls).m_Dropped = s.m_Dropped + fullRefusals env s ls)
    ∧ (∀ s ls, s.m_Dropped = 0 → reportsOf (exec env s ls).trace = reportsOf s.trace →
        reportsOf (step env (exec env s ls) Label.sweep).trace ≠ reportsOf s.trace →
        reportsOf (step env (exec env s ls) Label.sweep).trace
          = reportsOf s.trace ++ [fullRefusals env s ls])
    ∧ ((∀ tr, env.warnEnabled tr = false) → ∀ s ls,
        reportsOf (exec env s ls).trace = reportsOf s.trace
        ∧ (exec env s ls).m_Dropped = s.m_Dropped + fullRefusals env s ls) := by
  have hacc : ∀ s ls, reportsOf (exec env s ls).trace = reportsOf s.trace →
      (exec env s ls).m_Dropped = s.m_Dropped + fullRefusals env s ls := by
    intro s ls h
    have := dropped_exec_sum env ls s
    rw [h] at this
    omega
  refine ⟨fun s l hl => dropped_step_other env s l hl, fun s => periodic_dropped env s,
    fun s ls => dropped_exec_sum env ls s, hacc, fun s ls h0 hno hrep => ?_,
    fun hoff s ls => ?_⟩
  · have hd := hacc s ls hno
    rw [h0, Nat.zero_add] at hd
    simp only [step] at hrep ⊢
    split at hrep
    · rename_i hpc
      rw [if_pos hpc]
      obtain ⟨p1, p2⟩ := periodic_dropped env (exec env s ls)
      by_cases hc : u64sub (NowMs env (exec env s ls).trace).2 (exec env s ls).last_global_flush
            ≥ kFlushIntervalMs
          ∧ (exec env s ls).m_Dropped ≠ 0
          ∧ env.warnEnabled
              (sweepAll env (NowMs env (exec env s ls).trace).2 (NowMs env (exec env s ls).trace).1
                (exec env s ls).m_Targets).1 = true
      · rw [(p1 hc).1, hno, hd]
      · rw [(p2 hc).1] at hrep
        exact absurd hno hrep
    · exact absurd hno hrep
  · have hr := reports_exec_of_disabled env hoff ls s
    exact ⟨hr, hacc s ls hr⟩

/-- C17 on samples: with three refusals counted, the periodic check writes one
message carrying 3 and resets the counter; on a full queue, two refusals, a
sweep and one more refusal give the message 2 and the counter 1. -/
theorem drop_diagnostic_accounting_witness :
    reportsOf (periodic okEnv droppedState).trace = [] ++ [3]
    ∧ (periodic okEnv droppedState).m_Dropped = 0
    ∧ fullRefusals okEnv fullSweepState refusalRun = 3
    ∧ reportsOf (exec okEnv fullSweepState refusalRun).trace = [2]
    ∧ (reportsOf (exec okEnv fullSweepState refusalRun).trace).sum
        + (exec okEnv fullSweepState refusalRun).m_Dropped
      = 0 + 0 + fullRefusals okEnv fullSweepState refusalRun := by
  have h := drop_diagnostic_accounting okEnv
  have h1 := (h.2.1 droppedState).1 (by decide)
  exact ⟨h1.1, h1.2, by decide, by decide, h.2.2.1 fullSweepState refusalRun⟩

/-! ## Clock reads and stamps -/

theorem extends_refl (a : List Call) : Extends a a := ⟨[], by simp⟩

theorem extends_trans {a b c : List Call} (h1 : Extends a b) (h2 : Extends b c) :
    Extends a c := by
  obtain ⟨x, rfl⟩ := h1
  obtain ⟨y, rfl⟩ := h2
  exact ⟨x ++ y, by rw [List.append_assoc]⟩

theorem extends_append (a ex : List Call) : Extends a (a ++ ex) := ⟨ex, rfl⟩

theorem extends_of_dirExt {a b : List Call} (h : DirExt a b) : Extends a b := by
  obtain ⟨ex, h1, _⟩ := h
  exact ⟨ex, h1⟩

theorem extends_length {a b : List Call} (h : Extends a b) : a.length ≤ b.length := by
  obtain ⟨ex, rfl⟩ := h
  simp

theorem reading_mono {env : Env} {a b : List Call} {x : Nat} (h : Reading env a x)
    (hab : Extends a b) : Reading env b x := by
  rcases h with h | ⟨pre, ex, h1, h2⟩
  · exact Or.inl h
  · obtain ⟨y, rfl⟩ := hab
    exact Or.inr ⟨pre, ex ++ y, by rw [h1, List.append_assoc], h2⟩

theorem reading_now (env : Env) (tr ex : List Call) :
    Reading env (tr ++ ex) (env.clock tr % u64) := Or.inr ⟨tr, ex, rfl, rfl⟩

theorem reading_le (env : Env) (hmono : MonotoneClock env) (tr : List Call) (x : Nat)
    (h : Reading env tr x) : x ≤ env.clock tr % u64 := by
  rcases h with h | ⟨pre, ex, h1, h2⟩
  · rw [h]; exact Nat.zero_le _
  · rw [h2, h1]; exact hmono pre ex

theorem reading_lt (env : Env) (tr : List Call) (x : Nat) (h : Reading env tr x) : x < u64 := by
  rcases h with h | ⟨pre, ex, _, h2⟩
  · rw [h]; decide
  · rw [h2]; exact Nat.mod_lt _ (by decide)

theorem u64sub_exact (a b : Nat) (ha : a < u64) (hb : b ≤ a) : u64sub a b = a - b := by
  unfold u64sub
  have hb2 : b < u64 := Nat.lt_of_le_of_lt hb ha
  rw [Nat.mod_eq_of_lt ha, Nat.mod_eq_of_lt hb2]
  have : a + u64 - b = (a - b) + u64 := by omega
  rw [this, Nat.add_mod_right]
  exact Nat.mod_eq_of_lt (by omega)

theorem flushTarget_stamp (env : Env) (tr : List Call) (t : Target)
    (h : Reading env tr t.last_flush_ms) :
    Extends tr (FlushTarget env tr t).1
    ∧ Reading env (FlushTarget env tr t).1 (FlushTarget env tr t).2.last_flush_ms := by
  cases hfp : t.fp with
  | none => rw [flushTarget_of_no_handle env tr t hfp]; exact ⟨extends_refl tr, h⟩
  | some hd =>
    by_cases hb : t.buffer = []
    · rw [flushTarget_of_empty env tr t hb]; exact ⟨extends_refl tr, h⟩
    · rw [flushTarget_of_data env tr t hd hfp hb]
      refine ⟨extends_append tr _, ?_⟩
      exact Or.inr ⟨tr ++ [Call.fwrite hd t.buffer (env.fwrite tr hd t.buffer), Call.fflush hd],
        [Call.nowMs (env.clock (tr ++
          [Call.fwrite hd t.buffer (env.fwrite tr hd t.buffer), Call.fflush hd]) % u64)],
        by simp, rfl⟩

theorem openTarget_stamp (env : Env) (tr : List Call) (t : Target) (k : Str)
    (h : Reading env tr t.last_flush_ms) :
    Extends tr (OpenTarget env tr t k).1
    ∧ Reading env (OpenTarget env tr t k).1 (OpenTarget env tr t k).2.1.last_flush_ms := by
  have hdir := extends_of_dirExt (ensureParentDirs_trace env tr k)
  by_cases hfp : t.fp = none
  · cases hf : t.failed with
    | true => rw [openTarget_of_failed env tr t k hfp hf]; exact ⟨extends_refl tr, h⟩
    | false =>
      cases hopen : env.fopen (EnsureParentDirs env tr k).1 k with
      | true =>
        rw [openTarget_fresh_ok env tr t k hfp hf hopen]
        refine ⟨extends_trans hdir (extends_append _ _), ?_⟩
        exact Or.inr ⟨(EnsureParentDirs env tr k).1 ++
            [Call.fopen k (some { id := (EnsureParentDirs env tr k).1.length, path := k }),
              Call.setvbuf { id := (EnsureParentDirs env tr k).1.length, path := k }
                (64 * 1024)],
          [Call.nowMs (env.clock ((EnsureParentDirs env tr k).1 ++
            [Call.fopen k (some { id := (EnsureParentDirs env tr k).1.length, path := k }),
              Call.setvbuf { id := (EnsureParentDirs env tr k).1.length, path := k }
                (64 * 1024)]) % u64)],
          by simp, rfl⟩
      | false =>
        rw [openTarget_fresh_fail env tr t k hfp hf hopen]
        exact ⟨extends_trans hdir (extends_append _ _),
          reading_mono h (extends_trans hdir (extends_append _ _))⟩
  · rw [openTarget_of_open env tr t k hfp]; exact ⟨extends_refl tr, h⟩

theorem routeTarget_stamp (env : Env) (tr : List Call) (t : Target) (e : Entry)
    (h : Reading env tr t.last_flush_ms) :
    Extends tr (routeTarget env tr t e).1
    ∧ Reading env (routeTarget env tr t e).1 (routeTarget env tr t e).2.last_flush_ms := by
  obtain ⟨o1, o2⟩ := openTarget_stamp env tr t e.path h
  unfold routeTarget
  dsimp only
  split
  · exact ⟨o1, o2⟩
  · split
    · obtain ⟨f1, f2⟩ := flushTarget_stamp env (OpenTarget env tr t e.path).1
        { (OpenTarget env tr t e.path).2.1 with
          buffer := (OpenTarget env tr t e.path).2.1.buffer ++ e.line } o2
      exact ⟨extends_trans o1 f1, f2⟩
    · exact ⟨o1, o2⟩

theorem mem_store_weak (m : List (Str × Target)) (k : Str) (t : Target) (kv : Str × Target)
    (h : kv ∈ Targets.store m k t) : kv = (k, t) ∨ kv ∈ m := by
  induction m with
  | nil => left; simpa [Targets.store] using h
  | cons au m ih =>
    obtain ⟨a, u⟩ := au
    by_cases hk : a = k
    · simp only [Targets.store, if_pos hk, List.mem_cons] at h
      rcases h with h | h
      · exact Or.inl h
      · exact Or.inr (List.mem_cons_of_mem _ h)
    · simp only [Targets.store, if_neg hk, List.mem_cons] at h
      rcases h with h | h
      · right; rw [h]; exact List.mem_cons_self _ _
      · rcases ih h with h2 | h2
        · exact Or.inl h2
        · exact Or.inr (List.mem_cons_of_mem _ h2)

theorem find_stamp (env : Env) (tr : List Call) (m : List (Str × Target)) (k : Str)
    (h : StampsOk env tr m) : Reading env tr (Targets.find m k).last_flush_ms := by
  by_cases hin : k ∈ m.map Prod.fst
  · exact h _ (find_mem_of_mem_keys m k hin)
  · rw [find_of_not_mem_keys m k hin]
    exact Or.inl rfl

theorem routeEntry_stamps (env : Env) (tr : List Call) (m : List (Str × Target)) (e : Entry)
    (h : StampsOk env tr m) :
    Extends tr (routeEntry env (tr, m) e).1
    ∧ StampsOk env (routeEntry env (tr, m) e).1 (routeEntry env (tr, m) e).2 := by
  obtain ⟨r1, r2⟩ := routeTarget_stamp env tr (Targets.find m e.path) e (find_stamp env tr m _ h)
  rw [routeEntry_eq]
  refine ⟨r1, fun kv hkv => ?_⟩
  rcases mem_store_weak _ _ _ kv hkv with c | c
  · rw [c]; exact r2
  · exact reading_mono (h kv c) r1

theorem foldl_routeEntry_stamps (env : Env) (es : List Entry) (tr : List Call)
    (m : List (Str × Target)) (h : StampsOk env tr m) :
    Extends tr (es.foldl (routeEntry env) (tr, m)).1
    ∧ StampsOk env (es.foldl (routeEntry env) (tr, m)).1
        (es.foldl (routeEntry env) (tr, m)).2 := by
  induction es generalizing tr m with
  | nil => exact ⟨extends_refl tr, h⟩
  | cons e es ih =>
    simp only [List.foldl_cons]
    obtain ⟨r1, r2⟩ := routeEntry_stamps env tr m e h
    have hih := ih (routeEntry env (tr, m) e).1 (routeEntry env (tr, m) e).2 r2
    simp only [Prod.mk.eta] at hih
    exact ⟨extends_trans r1 hih.1, hih.2⟩

theorem sweepTarget_stamp (env : Env) (now : Nat) (tr : List Call) (t : Target)
    (h : Reading env tr t.last_flush_ms) :
    Extends tr (sweepTarget env now tr t).1
    ∧ Reading env (sweepTarget env now tr t).1 (sweepTarget env now tr t).2.last_flush_ms := by
  rcases sweepTarget_cases env now tr t with c | c
  · rw [c]; exact flushTarget_stamp env tr t h
  · rw [c]; exact ⟨extends_refl tr, h⟩

theorem sweepAll_stamps (env : Env) (now : Nat) (m : List (Str × Target)) (tr : List Call)
    (h : StampsOk env tr m) :
    Extends tr (sweepAll env now tr m).1
    ∧ StampsOk env (sweepAll env now tr m).1 (sweepAll env now tr m).2 := by
  induction m generalizing tr with
  | nil => exact ⟨extends_refl tr, h⟩
  | cons kv rest ih =>
    obtain ⟨s1, s2⟩ := sweepTarget_stamp env now tr kv.2 (h kv (List.mem_cons_self _ _))
    obtain ⟨i1, i2⟩ := ih (sweepTarget env now tr kv.2).1
      (fun x hx => reading_mono (h x (List.mem_cons_of_mem _ hx)) s1)
    simp only [sweepAll]
    refine ⟨extends_trans s1 i1, fun x hx => ?_⟩
    rcases List.mem_cons.1 hx with hx | hx
    · rw [hx]; exact reading_mono s2 i1
    · exact i2 x hx

theorem closeAll_extends (env : Env) (m : List (Str × Target)) (tr : List Call) :
    Extends tr (closeAll env tr m) := by
  induction m generalizing tr with
  | nil => exact extends_refl tr
  | cons kv rest ih =>
    have hf : Extends tr (FlushTarget env tr kv.2).1 := by
      cases hfp : kv.2.fp with
      | none => rw [flushTarget_of_no_handle env tr kv.2 hfp]; exact extends_refl tr
      | some hd =>
        by_cases hb : kv.2.buffer = []
        · rw [flushTarget_of_empty env tr kv.2 hb]; exact extends_refl tr
        · rw [flushTarget_of_data env tr kv.2 hd hfp hb]; exact extends_append tr _
    simp only [closeAll]
    cases hfp : (FlushTarget env tr kv.2).2.fp with
    | none => exact extends_trans hf (ih _)
    | some hd => exact extends_trans hf (extends_trans (extends_append _ _) (ih _))
/-- Every stamp of the state is the initial 0 or an earlier clock read. -/
theorem stamps_step (env : Env) (s : State) (l : Label)
    (h : Reading env s.trace s.last_global_flush ∧ StampsOk env s.trace s.m_Targets) :
    Extends s.trace (step env s l).trace
    ∧ Reading env (step env s l).trace (step env s l).last_global_flush
    ∧ StampsOk env (step env s l).trace (step env s l).m_Targets := by
  obtain ⟨h1, h2⟩ := h
  have hsame : Extends s.trace s.trace ∧ Reading env s.trace s.last_global_flush
      ∧ StampsOk env s.trace s.m_Targets := ⟨extends_refl _, h1, h2⟩
  cases l with
  | enqueue path line =>
    have hs : step env s (Label.enqueue path line) = (Enqueue s path line).1 := rfl
    rw [hs]
    rcases enqueue_cases s path line with c | c | c
    · rw [c.2]; exact hsame
    · rw [c.2.2.2.2]; exact hsame
    · rw [c.2.2.2.2]; exact hsame
  | start =>
    simp only [step, Start]
    split
    · exact hsame
    · split <;> exact hsame
  | stopRequest =>
    simp only [step, StopRequest]
    split
    · exact hsame
    · split <;> exact hsame
  | stopJoin =>
    simp only [step, StopJoin]
    split <;> exact hsame
  | threadEntry =>
    simp only [step]
    split
    · simp only [threadEntry, NowMs]
      exact ⟨extends_append _ _, reading_now env s.trace _,
        fun kv hkv => reading_mono (h2 kv hkv) (extends_append _ _)⟩
    · exact hsame
  | drainLock =>
    simp only [step, drainLock]
    split
    · split <;> split <;> exact hsame
    · exact hsame
  | route =>
    simp only [step]
    split
    · obtain ⟨r1, r2⟩ := foldl_routeEntry_stamps env s.localQ s.trace s.m_Targets h2
      simp only [routeLocal]
      exact ⟨r1, reading_mono h1 r1, r2⟩
    · exact hsame
  | sweep =>
    simp only [step]
    split
    · have hn : Extends s.trace (NowMs env s.trace).1 := extends_append _ _
      have hnr : Reading env (NowMs env s.trace).1 (NowMs env s.trace).2 :=
        reading_now env s.trace _
      obtain ⟨w1, w2⟩ := sweepAll_stamps env (NowMs env s.trace).2 s.m_Targets
        (NowMs env s.trace).1 (fun kv hkv => reading_mono (h2 kv hkv) hn)
      unfold periodic
      dsimp only
      split
      · split
        · exact ⟨extends_trans hn (extends_trans w1 (extends_append _ _)),
            reading_mono hnr (extends_trans w1 (extends_append _ _)),
            fun kv hkv => reading_mono (w2 kv hkv) (extends_append _ _)⟩
        · dsimp only
          split
          · exact ⟨extends_trans hn (extends_trans w1 (extends_append _ _)),
              reading_mono hnr (extends_trans w1 (extends_append _ _)),
              fun kv hkv => reading_mono (w2 kv hkv) (extends_append _ _)⟩
          · exact ⟨extends_trans hn w1, reading_mono hnr w1, w2⟩
      · exact ⟨hn, reading_mono h1 hn, fun kv hkv => reading_mono (h2 kv hkv) hn⟩
    · exact hsame
  | threadExit =>
    simp only [step]
    split
    · simp only [threadExit]
      exact ⟨closeAll_extends env _ _, reading_mono h1 (closeAll_extends env _ _),
        fun kv hkv => by simp at hkv⟩
    · exact hsame

theorem stamps_exec (env : Env) (ls : List Label) (s : State)
    (h : Reading env s.trace s.last_global_flush ∧ StampsOk env s.trace s.m_Targets) :
    Extends s.trace (exec env s ls).trace
    ∧ Reading env (exec env s ls).trace (exec env s ls).last_global_flush
    ∧ StampsOk env (exec env s ls).trace (exec env s ls).m_Targets := by
  induction ls generalizing s with
  | nil => exact ⟨extends_refl _, h.1, h.2⟩
  | cons l ls ih =>
    obtain ⟨g1, g2, g3⟩ := stamps_step env s l h
    obtain ⟨i1, i2, i3⟩ := ih (step env s l) ⟨g2, g3⟩
    exact ⟨extends_trans g1 i1, i2, i3⟩

theorem steadyEnv_monotone : MonotoneClock steadyEnv := by
  intro tr ex
  have h1 : ∀ n : Nat, min (100 * n) (2 ^ 64 - 1) < u64 := by
    intro n
    have : min (100 * n) (2 ^ 64 - 1) ≤ 2 ^ 64 - 1 := Nat.min_le_right _ _
    unfold u64
    omega
  show min (100 * tr.length) (2 ^ 64 - 1) % u64 ≤ min (100 * (tr ++ ex).length) (2 ^ 64 - 1) % u64
  rw [Nat.mod_eq_of_lt (h1 _), Nat.mod_eq_of_lt (h1 _), List.length_append]
  omega

/-- C20. The drain loop's 64-bit time differences never wrap. If the clock is
non-decreasing across successive reads, then in every reachable state (so in
every drain cycle, where the read `now` precedes the periodic check) the value
`now` the clock gives is at least `lastGlobalFlush` and at least `lastFlush`
of every target in the registry, each of these stamps being the initial 0 or
an earlier read; so the differences the code computes modulo `2 ^ 64` are the
exact elapsed times, and a target is due in the sweep exactly when its handle
is open, its buffer is non-empty and `lastFlush + 250 ≤ now`. -/
theorem time_differences_exact (env : Env) (hmono : MonotoneClock env) (ls : List Label) :
    (exec env State.init ls).last_global_flush ≤ (NowMs env (exec env State.init ls).trace).2
    ∧ u64sub (NowMs env (exec env State.init ls).trace).2
          (exec env State.init ls).last_global_flush
        = (NowMs env (exec env State.init ls).trace).2
          - (exec env State.init ls).last_global_flush
    ∧ (∀ kv ∈ (exec env State.init ls).m_Targets,
        Reading env (exec env State.init ls).trace kv.2.last_flush_ms
        ∧ kv.2.last_flush_ms ≤ (NowMs env (exec env State.init ls).trace).2
        ∧ u64sub (NowMs env (exec env State.init ls).trace).2 kv.2.last_flush_ms
            = (NowMs env (exec env State.init ls).trace).2 - kv.2.last_flush_ms
        ∧ (flushDue (NowMs env (exec env State.init ls).trace).2 kv.2 = true
            ↔ (kv.2.fp ≠ none ∧ kv.2.buffer ≠ []
                ∧ kv.2.last_flush_ms + 250 ≤ (NowMs env (exec env State.init ls).trace).2))) := by
  obtain ⟨_, g2, g3⟩ := stamps_exec env ls State.init
    ⟨Or.inl rfl, fun kv hkv => by simp [State.init] at hkv⟩
  have hnow : (NowMs env (exec env State.init ls).trace).2
      = env.clock (exec env State.init ls).trace % u64 := rfl
  have hlt : (NowMs env (exec env State.init ls).trace).2 < u64 := by
    rw [hnow]; exact Nat.mod_lt _ (by decide)
  have hle1 := reading_le env hmono _ _ g2
  rw [← hnow] at hle1
  refine ⟨hle1, u64sub_exact _ _ hlt hle1, fun kv hkv => ?_⟩
  have hle2 := reading_le env hmono _ _ (g3 kv hkv)
  rw [← hnow] at hle2
  have hex := u64sub_exact _ _ hlt hle2
  refine ⟨g3 kv hkv, hle2, hex, ?_⟩
  simp only [flushDue, Bool.and_eq_true, Bool.not_eq_true', decide_eq_true_eq, hex,
    kFlushIntervalMs]
  constructor
  · rintro ⟨⟨a, b⟩, c⟩
    refine ⟨?_, ?_, by omega⟩
    · intro hc; rw [hc] at a; simp at a
    · intro hc; rw [hc] at b; simp at b
  · rintro ⟨a, b, c⟩
    refine ⟨⟨?_, ?_⟩, by omega⟩
    · cases hx : kv.2.fp with
      | none => exact absurd hx a
      | some x => rfl
    · cases hx : kv.2.buffer with
      | nil => exact absurd hx b
      | cons y ys => rfl

/-- C20 on `stampRun` with the steady clock: at the periodic check the clock
reads 400, the last sweep stamp is 0 and the target was stamped 300. -/
theorem time_differences_exact_witness :
    (exec steadyEnv State.init stampRun).pc = ThreadPc.sweeping
    ∧ (NowMs steadyEnv (exec steadyEnv State.init stampRun).trace).2 = 400
    ∧ (exec steadyEnv State.init stampRun).last_global_flush
        ≤ (NowMs steadyEnv (exec steadyEnv State.init stampRun).trace).2
    ∧ u64sub (NowMs steadyEnv (exec steadyEnv State.init stampRun).trace).2
          (exec steadyEnv State.init stampRun).last_global_flush
        = (NowMs steadyEnv (exec steadyEnv State.init stampRun).trace).2
          - (exec steadyEnv State.init stampRun).last_global_flush
    ∧ (Targets.find (exec steadyEnv State.init stampRun).m_Targets
        "a.log".toList).last_flush_ms = 300 := by
  have h := time_differences_exact steadyEnv steadyEnv_monotone stampRun
  exact ⟨by decide, by decide, h.1, h.2.1, by decide⟩

/-! ## Handles: opened once, written while open, closed once -/

theorem life_append (h : Handle) (tr ex : List Call) :
    life h (tr ++ ex) = ex.foldl (lifeStep h) (life h tr) := by
  simp [life, List.foldl_append]

theorem life_unused (h : Handle) (tr ex : List Call)
    (hex : ∀ c ∈ ex, usesHandle h c = false) : life h (tr ++ ex) = life h tr := by
  rw [life_append]
  generalize life h tr = l
  induction ex generalizing l with
  | nil => rfl
  | cons c ex ih =>
    have hc : usesHandle h c = false := hex c (List.mem_cons_self _ _)
    simp only [List.foldl_cons, lifeStep, hc, Bool.false_eq_true, if_false]
    exact ih (fun c hc => hex c (List.mem_cons_of_mem _ hc)) l

theorem usesHandle_of_dirCall (h : Handle) (c : Call) (hc : isDirCall c = true) :
    usesHandle h c = false := by
  cases c <;> simp_all [isDirCall, usesHandle]

theorem life_dirExt (h : Handle) {tr1 tr2 : List Call} (hd : DirExt tr1 tr2) :
    life h tr2 = life h tr1 := by
  obtain ⟨ex, rfl, hex⟩ := hd
  exact life_unused h tr1 ex (fun c hc => usesHandle_of_dirCall h c (hex c hc))

theorem handleCalls_append (h : Handle) (tr ex : List Call) :
    handleCalls h (tr ++ ex) = handleCalls h tr ++ handleCalls h ex := by
  simp [handleCalls]

theorem flushTarget_fp (env : Env) (tr : List Call) (t : Target) :
    (FlushTarget env tr t).2.fp = t.fp := by
  cases hfp : t.fp with
  | none => rw [flushTarget_of_no_handle env tr t hfp]; exact hfp
  | some hd =>
    by_cases hb : t.buffer = []
    · rw [flushTarget_of_empty env tr t hb]; exact hfp
    · rw [flushTarget_of_data env tr t hd hfp hb]; exact hfp

/-- `FlushTarget` on a target whose handle is open changes the life of no
handle. -/
theorem flushTarget_life (env : Env) (tr : List Call) (t : Target)
    (hop : ∀ g, t.fp = some g → life g tr = Life.opened) (h : Handle) :
    life h (FlushTarget env tr t).1 = life h tr := by
  cases hfp : t.fp with
  | none => rw [flushTarget_of_no_handle env tr t hfp]
  | some hd =>
    by_cases hb : t.buffer = []
    · rw [flushTarget_of_empty env tr t hb]
    · rw [flushTarget_of_data env tr t hd hfp hb, life_append]
      by_cases e : hd = h
      · subst e
        rw [hop hd hfp]
        simp [lifeStep, usesHandle]
      · simp [lifeStep, usesHandle, e]

/-- The calls `FlushTarget` makes on a handle. -/
theorem flushTarget_handleCalls (env : Env) (tr : List Call) (t : Target) (h : Handle) :
    (t.fp = some h → handleCalls h (FlushTarget env tr t).1
        = handleCalls h tr ++ flushCalls h t.buffer (env.fwrite tr h t.buffer))
    ∧ (t.fp ≠ some h → handleCalls h (FlushTarget env tr t).1 = handleCalls h tr) := by
  cases hfp : t.fp with
  | none =>
    rw [flushTarget_of_no_handle env tr t hfp]
    exact ⟨fun e => absurd e (by simp), fun _ => rfl⟩
  | some hd =>
    by_cases hb : t.buffer = []
    · rw [flushTarget_of_empty env tr t hb]
      exact ⟨fun _ => by simp [flushCalls, hb], fun _ => rfl⟩
    · rw [flushTarget_of_data env tr t hd hfp hb, handleCalls_append]
      have hne : t.buffer.isEmpty = false := isEmpty_false_of_ne_nil hb
      constructor
      · intro e
        simp only [Option.some.injEq] at e
        subst e
        simp [handleCalls, usesHandle, flushCalls, hne]
      · intro e
        have e2 : ¬ hd = h := fun x => e (by rw [x])
        simp [handleCalls, usesHandle, e2]

theorem flushTarget_extends (env : Env) (tr : List Call) (t : Target) :
    Extends tr (FlushTarget env tr t).1 := by
  cases hfp : t.fp with
  | none => rw [flushTarget_of_no_handle env tr t hfp]; exact extends_refl tr
  | some hd =>
    by_cases hb : t.buffer = []
    · rw [flushTarget_of_empty env tr t hb]; exact extends_refl tr
    · rw [flushTarget_of_data env tr t hd hfp hb]; exact extends_append _ _

/-- `OpenTarget` and the handles: the only life it changes is that of the
handle it returns from `fopen`, which was fresh and is now open. -/
theorem openTarget_life (env : Env) (tr : List Call) (t : Target) (k : Str)
    (hb : ∀ h, tr.length ≤ h.id → life h tr = Life.fresh) :
    Extends tr (OpenTarget env tr t k).1
    ∧ (t.fp ≠ none → (OpenTarget env tr t k).2.1.fp = t.fp)
    ∧ (∀ h, t.fp = none → (OpenTarget env tr t k).2.1.fp = some h →
        tr.length ≤ h.id ∧ h.id < (OpenTarget env tr t k).1.length
        ∧ life h (OpenTarget env tr t k).1 = Life.opened)
    ∧ (∀ h, ¬ (t.fp = none ∧ (OpenTarget env tr t k).2.1.fp = some h) →
        life h (OpenTarget env tr t k).1 = life h tr) := by
  have hdir := ensureParentDirs_trace env tr k
  have hlen := extends_length (extends_of_dirExt hdir)
  by_cases hfp : t.fp = none
  · cases hf : t.failed with
    | true =>
      rw [openTarget_of_failed env tr t k hfp hf]
      refine ⟨extends_refl tr, fun _ => rfl, fun h _ hh => ?_, fun _ _ => rfl⟩
      rw [hfp] at hh; exact absurd hh (by simp)
    | false =>
      cases hopen : env.fopen (EnsureParentDirs env tr k).1 k with
      | true =>
        rw [openTarget_fresh_ok env tr t k hfp hf hopen]
        refine ⟨extends_trans (extends_of_dirExt hdir) (extends_append _ _),
          fun hn => absurd hfp hn, fun h _ hh => ?_, fun h hn => ?_⟩
        · simp only [Option.some.injEq] at hh
          subst hh
          refine ⟨hlen, by simp, ?_⟩
          rw [life_append, life_dirExt _ hdir, hb _ hlen]
          simp [lifeStep, usesHandle]
        · have hne : ¬ ({ id := (EnsureParentDirs env tr k).1.length, path := k } : Handle) = h :=
            fun e => hn ⟨hfp, by rw [e]⟩
          rw [life_append, life_dirExt _ hdir]
          simp [lifeStep, usesHandle, hne]
      | false =>
        rw [openTarget_fresh_fail env tr t k hfp hf hopen]
        refine ⟨extends_trans (extends_of_dirExt hdir) (extends_append _ _),
          fun hn => absurd hfp hn, fun h _ hh => absurd hh (by simp), fun h _ => ?_⟩
        rw [life_append, life_dirExt _ hdir]
        simp [lifeStep, usesHandle]
  · rw [openTarget_of_open env tr t k hfp]
    exact ⟨extends_refl tr, fun _ => rfl, fun h hh _ => absurd hh hfp, fun _ _ => rfl⟩

/-- The routing of one entry and the handles. -/
theorem routeTarget_life (env : Env) (tr : List Call) (t : Target) (e : Entry)
    (hb : ∀ h, tr.length ≤ h.id → life h tr = Life.fresh)
    (hop : ∀ g, t.fp = some g → life g tr = Life.opened) :
    Extends tr (routeTarget env tr t e).1
    ∧ (t.fp ≠ none → (routeTarget env tr t e).2.fp = t.fp)
    ∧ (∀ h, t.fp = none → (routeTarget env tr t e).2.fp = some h →
        tr.length ≤ h.id ∧ h.id < (routeTarget env tr t e).1.length
        ∧ life h (routeTarget env tr t e).1 = Life.opened)
    ∧ (∀ h, ¬ (t.fp = none ∧ (routeTarget env tr t e).2.fp = some h) →
        life h (routeTarget env tr t e).1 = life h tr) := by
  obtain ⟨o1, o2, o3, o4⟩ := openTarget_life env tr t e.path hb
  have hop1 : ∀ g, (OpenTarget env tr t e.path).2.1.fp = some g →
      life g (OpenTarget env tr t e.path).1 = Life.opened := by
    intro g hg
    by_cases hfp : t.fp = none
    · exact (o3 g hfp hg).2.2
    · rw [o4 g (fun c => hfp c.1)]
      exact hop g (by rw [← o2 hfp]; exact hg)
  unfold routeTarget
  dsimp only
  split
  · exact ⟨o1, o2, o3, o4⟩
  · split
    · have hfl := flushTarget_life env (OpenTarget env tr t e.path).1
        { (OpenTarget env tr t e.path).2.1 with
            buffer := (OpenTarget env tr t e.path).2.1.buffer ++ e.line } hop1
      have hext := flushTarget_extends env (OpenTarget env tr t e.path).1
        { (OpenTarget env tr t e.path).2.1 with
            buffer := (OpenTarget env tr t e.path).2.1.buffer ++ e.line }
      rw [flushTarget_fp]
      refine ⟨extends_trans o1 hext, o2, fun h h1 h2 => ?_, fun h hn => ?_⟩
      · obtain ⟨a, b, c⟩ := o3 h h1 h2
        exact ⟨a, Nat.lt_of_lt_of_le b (extends_length hext), by rw [hfl]; exact c⟩
      · rw [hfl]; exact o4 h hn
    · exact ⟨o1, o2, o3, o4⟩

theorem mem_store_self (m : List (Str × Target)) (k : Str) (t : Target) :
    (k, t) ∈ Targets.store m k t := by
  induction m with
  | nil => simp [Targets.store]
  | cons au m ih =>
    obtain ⟨a, u⟩ := au
    by_cases hk : a = k
    · simp [Targets.store, hk]
    · simp only [Targets.store, if_neg hk]
      exact List.mem_cons_of_mem _ ih

theorem mem_store_of_ne (m : List (Str × Target)) (k : Str) (t : Target) (kv : Str × Target)
    (h : kv ∈ m) (hne : kv.1 ≠ k) : kv ∈ Targets.store m k t := by
  induction m with
  | nil => simp at h
  | cons au m ih =>
    obtain ⟨a, u⟩ := au
    by_cases hk : a = k
    · simp only [Targets.store, if_pos hk]
      rcases List.mem_cons.1 h with h | h
      · subst h; exact absurd hk hne
      · exact List.mem_cons_of_mem _ h
    · simp only [Targets.store, if_neg hk]
      rcases List.mem_cons.1 h with h | h
      · subst h; exact List.mem_cons_self _ _
      · exact List.mem_cons_of_mem _ (ih h)

theorem find_held (m : List (Str × Target)) (k : Str) (g : Handle)
    (h : (Targets.find m k).fp = some g) : Held m g := by
  by_cases hin : k ∈ m.map Prod.fst
  · exact ⟨_, find_mem_of_mem_keys m k hin, h⟩
  · rw [find_of_not_mem_keys m k hin] at h
    exact absurd h (by simp)

/-- The routing of one entry keeps the handles of the history and of the
registry in agreement. -/
theorem routeEntry_handleInv (env : Env) (tr : List Call) (m : List (Str × Target))
    (e : Entry) (hnd : (m.map Prod.fst).Nodup) (hi : HandleInv tr m) :
    Extends tr (routeEntry env (tr, m) e).1
    ∧ HandleInv (routeEntry env (tr, m) e).1 (routeEntry env (tr, m) e).2 := by
  have hb : ∀ h, tr.length ≤ h.id → life h tr = Life.fresh := fun h => (hi h).2.2
  have hop : ∀ g, (Targets.find m e.path).fp = some g → life g tr = Life.opened :=
    fun g hg => ((hi g).2.1).2 (find_held m e.path g hg)
  obtain ⟨r1, r2, r3, r4⟩ := routeTarget_life env tr (Targets.find m e.path) e hb hop
  rw [routeEntry_eq]
  refine ⟨r1, fun h => ?_⟩
  by_cases hnew : (Targets.find m e.path).fp = none
      ∧ (routeTarget env tr (Targets.find m e.path) e).2.fp = some h
  · obtain ⟨a, b, c⟩ := r3 h hnew.1 hnew.2
    refine ⟨?_, ⟨fun _ => ⟨_, mem_store_self m e.path _, hnew.2⟩, fun _ => c⟩,
      fun hl => absurd (show (routeTarget env tr (Targets.find m e.path) e).1.length ≤ h.id from hl)
        (by omega)⟩
    show life h (routeTarget env tr (Targets.find m e.path) e).1 ≠ Life.broken
    rw [c]; decide
  · have hl := r4 h hnew
    show life h (routeTarget env tr (Targets.find m e.path) e).1 ≠ Life.broken
      ∧ (life h (routeTarget env tr (Targets.find m e.path) e).1 = Life.opened ↔
          Held (Targets.store m e.path (routeTarget env tr (Targets.find m e.path) e).2) h)
      ∧ ((routeTarget env tr (Targets.find m e.path) e).1.length ≤ h.id →
          life h (routeTarget env tr (Targets.find m e.path) e).1 = Life.fresh)
    rw [hl]
    refine ⟨(hi h).1, ?_, fun hlen => (hi h).2.2 (le_trans (extends_length r1) hlen)⟩
    rw [(hi h).2.1]
    constructor
    · rintro ⟨kv, hkv, hfp⟩
      by_cases hk : kv.1 = e.path
      · have hf : Targets.find m e.path = kv.2 :=
          find_of_mem m e.path kv.2 hnd (by rw [← hk]; exact hkv)
        have hne : (Targets.find m e.path).fp ≠ none := by rw [hf, hfp]; simp
        exact ⟨_, mem_store_self m e.path _, by rw [r2 hne, hf]; exact hfp⟩
      · exact ⟨kv, mem_store_of_ne m e.path _ kv hkv hk, hfp⟩
    · rintro ⟨kv, hkv, hfp⟩
      rcases mem_store _ _ _ kv hnd hkv with h1 | h1
      · subst h1
        have hne : (Targets.find m e.path).fp ≠ none := fun c => hnew ⟨c, hfp⟩
        exact find_held m e.path h (by rw [← r2 hne]; exact hfp)
      · exact ⟨kv, h1.1, hfp⟩

theorem foldl_routeEntry_handleInv (env : Env) (es : List Entry) (tr : List Call)
    (m : List (Str × Target)) (hm : RegistryOk m) (hi : HandleInv tr m) :
    HandleInv (es.foldl (routeEntry env) (tr, m)).1 (es.foldl (routeEntry env) (tr, m)).2 := by
  induction es generalizing tr m with
  | nil => exact hi
  | cons e es ih =>
    simp only [List.foldl_cons]
    have h1 := routeEntry_handleInv env tr m e hm.1 hi
    have h2 := routeEntry_registryOk env tr m e hm
    have := ih (routeEntry env (tr, m) e).1 (routeEntry env (tr, m) e).2 h2 h1.2
    simp only [Prod.mk.eta] at this
    exact this

/-- The sweep changes the life of no handle and the handle of no target. -/
theorem sweepAll_handles (env : Env) (now : Nat) (m : List (Str × Target)) (tr : List Call)
    (hop : ∀ g, Held m g → life g tr = Life.opened) :
    Extends tr (sweepAll env now tr m).1
    ∧ (∀ h, life h (sweepAll env now tr m).1 = life h tr)
    ∧ (∀ h, Held (sweepAll env now tr m).2 h ↔ Held m h) := by
  induction m generalizing tr with
  | nil => exact ⟨extends_refl tr, fun _ => rfl, fun _ => Iff.rfl⟩
  | cons kv rest ih =>
    have hop0 : ∀ g, kv.2.fp = some g → life g tr = Life.opened :=
      fun g hg => hop g ⟨kv, List.mem_cons_self _ _, hg⟩
    have hs : Extends tr (sweepTarget env now tr kv.2).1
        ∧ (∀ h, life h (sweepTarget env now tr kv.2).1 = life h tr)
        ∧ (sweepTarget env now tr kv.2).2.fp = kv.2.fp := by
      rcases sweepTarget_cases env now tr kv.2 with c | c
      · rw [c]
        exact ⟨flushTarget_extends env tr kv.2, flushTarget_life env tr kv.2 hop0,
          flushTarget_fp env tr kv.2⟩
      · rw [c]; exact ⟨extends_refl tr, fun _ => rfl, rfl⟩
    obtain ⟨s1, s2, s3⟩ := hs
    obtain ⟨i1, i2, i3⟩ := ih (sweepTarget env now tr kv.2).1
      (fun g hg => by
        rw [s2]
        obtain ⟨x, hx, hfp⟩ := hg
        exact hop g ⟨x, List.mem_cons_of_mem _ hx, hfp⟩)
    simp only [sweepAll]
    refine ⟨extends_trans s1 i1, fun h => by rw [i2, s2], fun h => ?_⟩
    constructor
    · rintro ⟨x, hx, hfp⟩
      rcases List.mem_cons.1 hx with hx | hx
      · subst hx
        exact ⟨kv, List.mem_cons_self _ _, by rw [← s3]; exact hfp⟩
      · obtain ⟨y, hy, hfy⟩ := (i3 h).1 ⟨x, hx, hfp⟩
        exact ⟨y, List.mem_cons_of_mem _ hy, hfy⟩
    · rintro ⟨x, hx, hfp⟩
      rcases List.mem_cons.1 hx with hx | hx
      · subst hx
        exact ⟨_, List.mem_cons_self _ _, by rw [s3]; exact hfp⟩
      · obtain ⟨y, hy, hfy⟩ := (i3 h).2 ⟨x, hx, hfp⟩
        exact ⟨y, List.mem_cons_of_mem _ hy, hfy⟩

theorem held_cons (kv : Str × Target) (rest : List (Str × Target)) (h : Handle) :
    Held (kv :: rest) h ↔ kv.2.fp = some h ∨ Held rest h := by
  constructor
  · rintro ⟨x, hx, hfp⟩
    rcases List.mem_cons.1 hx with e | hin
    · subst e; exact Or.inl hfp
    · exact Or.inr ⟨x, hin, hfp⟩
  · rintro (hfp | ⟨x, hin, hfp⟩)
    · exact ⟨kv, List.mem_cons_self _ _, hfp⟩
    · exact ⟨x, List.mem_cons_of_mem _ hin, hfp⟩

/-- In a well-formed registry the handle of the first target is held by no
other target. -/
theorem not_held_rest (kv : Str × Target) (rest : List (Str × Target)) (g : Handle)
    (hm : RegistryOk (kv :: rest)) (hfp : kv.2.fp = some g) : ¬ Held rest g := by
  obtain ⟨k, t⟩ := kv
  obtain ⟨h1, h2, _, h4⟩ := (registryOk_cons k t rest).1 hm
  rintro ⟨x, hx, hxf⟩
  have e1 : g.path = k := h2.2.2 g hfp
  have e2 : g.path = x.1 := (h4.2 x hx).1.2.2 g hxf
  exact h1 (List.mem_map.2 ⟨x, hx, by rw [← e2, e1]⟩)

/-- The final loop closes every handle the registry holds, and changes the
life of no other handle. -/
theorem closeAll_life (env : Env) (m : List (Str × Target)) (tr : List Call)
    (hm : RegistryOk m) (hop : ∀ g, Held m g → life g tr = Life.opened) (h : Handle) :
    (Held m h → life h (closeAll env tr m) = Life.closed)
    ∧ (¬ Held m h → life h (closeAll env tr m) = life h tr) := by
  induction m generalizing tr with
  | nil => exact ⟨fun ⟨x, hx, _⟩ => by simp at hx, fun _ => rfl⟩
  | cons kv rest ih =>
    have hrest : RegistryOk rest := ((registryOk_cons kv.1 kv.2 rest).1 hm).2.2.2
    have hop0 : ∀ g, kv.2.fp = some g → life g tr = Life.opened :=
      fun g hg => hop g ((held_cons kv rest g).2 (Or.inl hg))
    have hfl := flushTarget_life env tr kv.2 hop0
    have hfp0 := flushTarget_fp env tr kv.2
    simp only [closeAll]
    cases hfp : (FlushTarget env tr kv.2).2.fp with
    | none =>
      rw [hfp] at hfp0
      have hi := ih (FlushTarget env tr kv.2).1 hrest
        (fun g hg => by rw [hfl]; exact hop g ((held_cons kv rest g).2 (Or.inr hg)))
      rw [held_cons, ← hfp0, hfl] at *
      refine ⟨fun hh => ?_, fun hh => ?_⟩
      · rcases hh with hh | hh
        · exact absurd hh (by simp)
        · exact hi.1 hh
      · exact hi.2 (fun c => hh (Or.inr c))
    | some g =>
      rw [hfp] at hfp0
      have hng : ¬ Held rest g := not_held_rest kv rest g hm hfp0.symm
      have hclosed : life g ((FlushTarget env tr kv.2).1 ++ [Call.fclose g]) = Life.closed := by
        rw [life_append, hfl, hop0 g hfp0.symm]
        simp [lifeStep, usesHandle]
      have hother : ∀ x, x ≠ g →
          life x ((FlushTarget env tr kv.2).1 ++ [Call.fclose g]) = life x tr := by
        intro x hx
        rw [life_append, hfl]
        have : ¬ g = x := fun c => hx c.symm
        simp [lifeStep, usesHandle, this]
      have hi := ih ((FlushTarget env tr kv.2).1 ++ [Call.fclose g]) hrest
        (fun x hx => by
          have hxg : x ≠ g := fun c => hng (by rw [← c]; exact hx)
          rw [hother x hxg]
          exact hop x ((held_cons kv rest x).2 (Or.inr hx)))
      rw [held_cons, ← hfp0]
      refine ⟨fun hh => ?_, fun hh => ?_⟩
      · rcases hh with hh | hh
        · simp only [Option.some.injEq] at hh
          subst hh
          rw [hi.2 hng]; exact hclosed
        · exact hi.1 hh
      · have hxg : h ≠ g := fun c => hh (Or.inl (by rw [c]))
        rw [hi.2 (fun c => hh (Or.inr c))]
        exact hother h hxg

/-- The final loop makes no call on a handle the registry does not hold. -/
theorem closeAll_handleCalls_other (env : Env) (m : List (Str × Target)) (tr : List Call)
    (h : Handle) (hn : ¬ Held m h) :
    handleCalls h (closeAll env tr m) = handleCalls h tr := by
  induction m generalizing tr with
  | nil => rfl
  | cons kv rest ih =>
    have hn0 : kv.2.fp ≠ some h := fun c => hn ((held_cons kv rest h).2 (Or.inl c))
    have hn1 : ¬ Held rest h := fun c => hn ((held_cons kv rest h).2 (Or.inr c))
    have hf := (flushTarget_handleCalls env tr kv.2 h).2 hn0
    have hfp0 := flushTarget_fp env tr kv.2
    simp only [closeAll]
    cases hfp : (FlushTarget env tr kv.2).2.fp with
    | none => rw [ih _ hn1, hf]
    | some g =>
      have hg : ¬ g = h := fun c => hn0 (by rw [← hfp0, hfp, c])
      rw [ih _ hn1, handleCalls_append, hf]
      simp [handleCalls, usesHandle, hg]

/-- The final loop on the handle of a target of the registry: the remaining
buffer is written, then the handle is closed, and nothing else is done with
it. -/
theorem closeAll_handleCalls (env : Env) (m : List (Str × Target)) (tr : List Call)
    (hm : RegistryOk m) (kv : Str × Target) (hkv : kv ∈ m) (h : Handle)
    (hfp : kv.2.fp = some h) :
    ∃ n, handleCalls h (closeAll env tr m)
      = handleCalls h tr ++ flushCalls h kv.2.buffer n ++ [Call.fclose h] := by
  induction m generalizing tr with
  | nil => simp at hkv
  | cons x rest ih =>
    have hrest : RegistryOk rest := ((registryOk_cons x.1 x.2 rest).1 hm).2.2.2
    have hfp0 := flushTarget_fp env tr x.2
    rcases List.mem_cons.1 hkv with e | hin
    · subst e
      have hng : ¬ Held rest h := not_held_rest kv rest h hm hfp
      have hf := (flushTarget_handleCalls env tr kv.2 h).1 hfp
      simp only [closeAll]
      rw [hfp] at hfp0
      rw [hfp0]
      refine ⟨env.fwrite tr h kv.2.buffer, ?_⟩
      dsimp only
      rw [closeAll_handleCalls_other env rest _ h hng, handleCalls_append, hf]
      simp [handleCalls, usesHandle]
    · have hx : x.2.fp ≠ some h := by
        intro c
        exact not_held_rest x rest h hm c ⟨kv, hin, hfp⟩
      have hf := (flushTarget_handleCalls env tr x.2 h).2 hx
      simp only [closeAll]
      cases hfx : (FlushTarget env tr x.2).2.fp with
      | none =>
        obtain ⟨n, hn⟩ := ih (FlushTarget env tr x.2).1 hrest hin
        exact ⟨n, by rw [hn, hf]⟩
      | some g =>
        have hg : ¬ g = h := fun c => hx (by rw [← hfp0, hfx, c])
        obtain ⟨n, hn⟩ := ih ((FlushTarget env tr x.2).1 ++ [Call.fclose g]) hrest hin
        refine ⟨n, ?_⟩
        rw [hn, handleCalls_append, hf]
        simp [handleCalls, usesHandle, hg]

theorem handleInv_unused (tr ex : List Call) (m : List (Str × Target))
    (hi : HandleInv tr m) (hex : ∀ c ∈ ex, ∀ h, usesHandle h c = false) :
    HandleInv (tr ++ ex) m := by
  intro h
  rw [life_unused h tr ex (fun c hc => hex c hc h)]
  refine ⟨(hi h).1, (hi h).2.1, fun hl => (hi h).2.2 ?_⟩
  rw [List.length_append] at hl
  omega

theorem handleInv_sweepAll (env : Env) (now : Nat) (m : List (Str × Target)) (tr : List Call)
    (hi : HandleInv tr m) : HandleInv (sweepAll env now tr m).1 (sweepAll env now tr m).2 := by
  obtain ⟨s1, s2, s3⟩ := sweepAll_handles env now m tr (fun g hg => ((hi g).2.1).2 hg)
  intro h
  rw [s2 h, s3 h]
  exact ⟨(hi h).1, (hi h).2.1, fun hl => (hi h).2.2 (le_trans (extends_length s1) hl)⟩

theorem handleInv_closeAll (env : Env) (m : List (Str × Target)) (tr : List Call)
    (hm : RegistryOk m) (hi : HandleInv tr m) : HandleInv (closeAll env tr m) [] := by
  intro h
  obtain ⟨c1, c2⟩ := closeAll_life env m tr hm (fun g hg => ((hi g).2.1).2 hg) h
  have hno : ¬ Held [] h := fun ⟨x, hx, _⟩ => by simp at hx
  by_cases hh : Held m h
  · rw [c1 hh]
    refine ⟨by decide, ⟨fun c => absurd c (by decide), fun c => absurd c hno⟩, fun hl => ?_⟩
    have hf := (hi h).2.2 (le_trans (extends_length (closeAll_extends env m tr)) hl)
    have ho := ((hi h).2.1).2 hh
    rw [hf] at ho
    exact absurd ho (by decide)
  · rw [c2 hh]
    refine ⟨(hi h).1, ⟨fun c => absurd (((hi h).2.1).1 c) hh, fun c => absurd c hno⟩,
      fun hl => (hi h).2.2 (le_trans (extends_length (closeAll_extends env m tr)) hl)⟩

theorem handleInv_init : HandleInv State.init.trace State.init.m_Targets := by
  intro h
  have hl : life h State.init.trace = Life.fresh := rfl
  rw [hl]
  refine ⟨by decide, ⟨fun c => absurd c (by decide), fun ⟨x, hx, _⟩ => ?_⟩, fun _ => rfl⟩
  simp [State.init] at hx

theorem handleInv_step (env : Env) (s : State) (l : Label) (hs : StateInv s)
    (hi : HandleInv s.trace s.m_Targets) :
    HandleInv (step env s l).trace (step env s l).m_Targets := by
  cases l with
  | enqueue path line =>
    have hst : step env s (Label.enqueue path line) = (Enqueue s path line).1 := rfl
    rw [hst]
    rcases enqueue_cases s path line with c | c | c
    · rw [c.2]; exact hi
    · rw [c.2.2.2.2]; exact hi
    · rw [c.2.2.2.2]; exact hi
  | start =>
    simp only [step, Start]
    split
    · exact hi
    · split <;> exact hi
  | stopRequest =>
    simp only [step, StopRequest]
    split
    · exact hi
    · split <;> exact hi
  | stopJoin =>
    simp only [step, StopJoin]
    split <;> exact hi
  | threadEntry =>
    simp only [step]
    split
    · simp only [threadEntry, NowMs]
      exact handleInv_unused _ _ _ hi (fun c hc h => by
        simp only [List.mem_singleton] at hc
        subst hc; rfl)
    · exact hi
  | drainLock =>
    simp only [step, drainLock]
    split
    · split <;> split <;> exact hi
    · exact hi
  | route =>
    simp only [step]
    split
    · simp only [routeLocal]
      exact foldl_routeEntry_handleInv env s.localQ s.trace s.m_Targets hs.2.1 hi
    · exact hi
  | sweep =>
    simp only [step]
    split
    · have hn : HandleInv (NowMs env s.trace).1 s.m_Targets :=
        handleInv_unused _ _ _ hi (fun c hc h => by
          simp only [List.mem_singleton] at hc
          subst hc; rfl)
      have hw := handleInv_sweepAll env (NowMs env s.trace).2 s.m_Targets _ hn
      unfold periodic
      dsimp only
      split
      · split
        · exact handleInv_unused _ _ _ hw (fun c hc h => by
            simp only [List.mem_cons, List.mem_singleton, List.not_mem_nil, or_false] at hc
            rcases hc with hc | hc <;> subst hc <;> rfl)
        · dsimp only
          split
          · exact handleInv_unused _ _ _ hw (fun c hc h => by
              simp only [List.mem_singleton] at hc
              subst hc; rfl)
          · exact hw
      · exact hn
    · exact hi
  | threadExit =>
    simp only [step]
    split
    · simp only [threadExit]
      exact handleInv_closeAll env s.m_Targets s.trace hs.2.1 hi
    · exact hi

theorem handleInv_exec (env : Env) (ls : List Label) (s : State) (hs : StateInv s)
    (hi : HandleInv s.trace s.m_Targets) :
    HandleInv (exec env s ls).trace (exec env s ls).m_Targets := by
  induction ls generalizing s with
  | nil => exact hi
  | cons l ls ih => exact ih _ (stateInv_step env s l hs) (handleInv_step env s l hs hi)

theorem life_settled (tr : List Call) (h : Handle) (hi : HandleInv tr []) :
    life h tr = Life.fresh ∨ life h tr = Life.closed := by
  have h1 := (hi h).1
  have h2 : life h tr ≠ Life.opened := fun c => by
    obtain ⟨x, hx, _⟩ := ((hi h).2.1).1 c
    simp at hx
  cases hl : life h tr with
  | fresh => exact Or.inl rfl
  | closed => exact Or.inr rfl
  | opened => exact absurd hl h2
  | broken => exact absurd hl h1

/-- C12. Shutdown closes everything exactly once. In every state reached from
the constructed writer by any schedule, under any environment: (1) no handle
was misused (opened twice, written or closed while not open) and the open
handles are exactly those the registry holds; (2) when the drain loop has
exited, the final loop does on the handle of every target of the registry
exactly this: it writes the remaining buffer, if there is one, and then closes
the handle; afterwards the registry is empty and every handle is either never
opened or closed; (3) once `Stop` has returned (`m_Running` is false), the
registry is empty, so no target holds unwritten bytes, and every handle ever
opened has been closed, exactly once. -/
theorem shutdown_closes_once (env : Env) (ls : List Label) :
    (∀ h, life h (exec env State.init ls).trace ≠ Life.broken
        ∧ (life h (exec env State.init ls).trace = Life.opened
            ↔ Held (exec env State.init ls).m_Targets h))
    ∧ ((exec env State.init ls).pc = ThreadPc.exiting →
        (step env (exec env State.init ls) Label.threadExit).m_Targets = []
        ∧ (step env (exec env State.init ls) Label.threadExit).pc = ThreadPc.finished
        ∧ (∀ kv ∈ (exec env State.init ls).m_Targets, ∀ h, kv.2.fp = some h →
            ∃ n, handleCalls h (step env (exec env State.init ls) Label.threadExit).trace
              = handleCalls h (exec env State.init ls).trace
                ++ flushCalls h kv.2.buffer n ++ [Call.fclose h])
        ∧ (∀ h, life h (step env (exec env State.init ls) Label.threadExit).trace = Life.fresh
              ∨ life h (step env (exec env State.init ls) Label.threadExit).trace = Life.closed))
    ∧ ((exec env State.init ls).m_Running = false →
        (exec env State.init ls).m_Targets = []
        ∧ (∀ h, life h (exec env State.init ls).trace = Life.fresh
              ∨ life h (exec env State.init ls).trace = Life.closed)) := by
  have hs := stateInv_exec env ls State.init stateInv_init
  have hi := handleInv_exec env ls State.init stateInv_init handleInv_init
  refine ⟨fun h => ⟨(hi h).1, (hi h).2.1⟩, fun hpc => ?_, fun hrun => ?_⟩
  · have hx := handleInv_step env _ Label.threadExit hs hi
    have hst : step env (exec env State.init ls) Label.threadExit
        = threadExit env (exec env State.init ls) := by
      simp [step, hpc]
    rw [hst] at hx ⊢
    refine ⟨rfl, rfl, fun kv hkv h hfp => ?_, fun h => life_settled _ h hx⟩
    exact closeAll_handleCalls env _ _ hs.2.1 kv hkv h hfp
  · have hpc := hs.1.2.2.2 hrun
    have hm := hs.2.2 (Or.inl hpc)
    refine ⟨hm, fun h => life_settled _ h ?_⟩
    rw [← hm]; exact hi

/-- C12 on `closingRun`: the target of `"logs/a.log"` still holds `"one;"`
when the loop exits; the final loop writes it and closes the handle. -/
theorem shutdown_closes_once_witness :
    (exec okEnv State.init closingRun).pc = ThreadPc.exiting
    ∧ (Targets.find (exec okEnv State.init closingRun).m_Targets "logs/a.log".toList).fp
        = some sampleHandle
    ∧ (Targets.find (exec okEnv State.init closingRun).m_Targets "logs/a.log".toList).buffer
        = "one;".toList
    ∧ handleCalls sampleHandle
        (step okEnv (exec okEnv State.init closingRun) Label.threadExit).trace
      = [Call.fopen "logs/a.log".toList (some sampleHandle),
          Call.setvbuf sampleHandle (64 * 1024),
          Call.fwrite sampleHandle "one;".toList 4, Call.fflush sampleHandle,
          Call.fclose sampleHandle]
    ∧ (step okEnv (exec okEnv State.init closingRun) Label.threadExit).m_Targets = []
    ∧ (life sampleHandle
          (step okEnv (exec okEnv State.init closingRun) Label.threadExit).trace = Life.fresh
        ∨ life sampleHandle
          (step okEnv (exec okEnv State.init closingRun) Label.threadExit).trace = Life.closed) := by
  have h := (shutdown_closes_once okEnv closingRun).2.1 (by decide)
  exact ⟨by decide, by decide, by decide, by decide, h.1, h.2.2.2 sampleHandle⟩

/-! ## The walk of `EnsureParentDirs` along a relative path -/

theorem find_last_of_from_none (chars : Str) (i : Nat) (s : Str) (acc : Option Nat)
    (h : ∀ c ∈ s, c ∉ chars) : find_last_of_from chars i s acc = acc := by
  induction s generalizing i acc with
  | nil => rfl
  | cons c cs ih =>
    have hc : c ∉ chars := h c (List.mem_cons_self _ _)
    simp only [find_last_of_from, if_neg hc]
    exact ih (i + 1) acc (fun x hx => h x (List.mem_cons_of_mem _ hx))

theorem find_last_of_from_last (chars : Str) (i : Nat) (pre : Str) (c : Char) (post : Str)
    (acc : Option Nat) (hc : c ∈ chars) (h : ∀ x ∈ post, x ∉ chars) :
    find_last_of_from chars i (pre ++ c :: post) acc = some (i + pre.length) := by
  induction pre generalizing i acc with
  | nil =>
    simp only [List.nil_append, find_last_of_from, if_pos hc, List.length_nil, Nat.add_zero]
    exact find_last_of_from_none chars (i + 1) post _ h
  | cons a pre ih =>
    rw [List.cons_append, find_last_of_from, ih (i + 1), List.length_cons]
    congr 1
    omega

/-- The characters of a component are pushed onto `current` and nothing else
happens. -/
theorem mkdirLoop_component (env : Env) (d rest cur : Str) (tr : List Call)
    (hd : '/' ∉ d) : mkdirLoop env (d ++ rest) cur tr = mkdirLoop env rest (cur ++ d) tr := by
  induction d generalizing cur with
  | nil => simp
  | cons c d ih =>
    have hc : c ≠ '/' := fun e => hd (by rw [e]; exact List.mem_cons_self _ _)
    have hd2 : '/' ∉ d := fun e => hd (List.mem_cons_of_mem _ e)
    rw [List.cons_append, mkdirLoop]
    simp only [ne_eq, hc, not_false_eq_true, if_true]
    rw [ih _ hd2]
    simp

/-- At a separator after a non-empty directory string the loop ensures that
directory. -/
theorem mkdirLoop_separator (env : Env) (rest cur : Str) (tr : List Call) (hcur : cur ≠ []) :
    mkdirLoop env ('/' :: rest) cur tr
      = if (ensureDir env tr cur).2 then
          mkdirLoop env rest (cur ++ ['/']) (ensureDir env tr cur).1
        else ((ensureDir env tr cur).1, none) := by
  have hlen : ¬ (cur ++ ['/']).length ≤ 1 := by
    cases cur with
    | nil => exact absurd rfl hcur
    | cons a as => simp
  have hne : (cur ++ ['/']).isEmpty = false := by cases cur <;> rfl
  have hce : cur.isEmpty = false := by
    cases cur with
    | nil => exact absurd rfl hcur
    | cons a as => rfl
  simp only [mkdirLoop, ne_eq, not_true_eq_false, if_false, hlen, hne, Bool.not_false,
    List.getLast?_append, List.getLast?_singleton, Bool.true_and,
    decide_True, if_true, List.dropLast_concat, hce, Bool.false_eq_true, ensureDir]
  cases h1 : (DirExists env tr cur).2 with
  | true => simp [hcur, h1]
  | false =>
    cases h2 : (MkdirOne env (DirExists env tr cur).1 cur).2 <;> simp [hcur, h1, h2]

/-- After the loop a non-empty directory string without a trailing separator
is ensured. -/
theorem mkdirFinal_plain (env : Env) (tr : List Call) (cur : Str) (hcur : cur ≠ [])
    (hlast : cur.getLast? ≠ some '/') : mkdirFinal env tr cur = ensureDir env tr cur := by
  have hce : cur.isEmpty = false := by
    cases cur with
    | nil => exact absurd rfl hcur
    | cons a as => rfl
  simp only [mkdirFinal, hce, Bool.not_false, Bool.true_and, decide_eq_true_eq, hlast, if_false,
    if_true, ensureDir]
  cases h1 : (DirExists env tr cur).2 with
  | true => simp
  | false =>
    cases h2 : (MkdirOne env (DirExists env tr cur).1 cur).2 <;> simp [h2] <;>
      exact Prod.ext rfl h2.symm

theorem getLast_append_ne (cur d : Str) (c : Char) (hd : d ≠ []) (hc : c ∉ d) :
    (cur ++ d).getLast? ≠ some c := by
  intro h
  have h2 : (cur ++ d).getLast? = d.getLast? := by
    rw [List.getLast?_append]
    cases hl : d.getLast? with
    | none => rw [List.getLast?_eq_none_iff] at hl; exact absurd hl hd
    | some x => rfl
  rw [h2] at h
  exact hc (List.mem_of_getLast?_eq_some h)

theorem ensureAll_single (env : Env) (tr : List Call) (d : Str) :
    ensureAll env tr [d] = ensureDir env tr d := by
  simp only [ensureAll]
  cases h : (ensureDir env tr d).2
  · simp only [Bool.false_eq_true, if_false]; exact Prod.ext rfl h.symm
  · simp only [if_true]; exact Prod.ext rfl h.symm

/-- The loop and the final step of `EnsureParentDirs` on the directory portion
`d1/.../dn`: the directories `d1`, `d1/d2`, ... are ensured one after the
other, and the walk stops at the first that cannot be made. -/
theorem walk_eq (env : Env) (comps : List Str) (hne : comps ≠ [])
    (hc : ∀ d ∈ comps, d ≠ [] ∧ '/' ∉ d) (cur : Str) (tr : List Call) :
    finishWalk env (mkdirLoop env (joinDirs comps) cur tr)
      = ensureAll env tr (walkDirs cur comps) := by
  induction comps generalizing cur tr with
  | nil => exact absurd rfl hne
  | cons d ds ih =>
    obtain ⟨hd1, hd2⟩ := hc d (List.mem_cons_self _ _)
    have hcur : cur ++ d ≠ [] := by
      intro e
      exact hd1 (List.append_eq_nil.1 e).2
    cases ds with
    | nil =>
      have h1 : mkdirLoop env (joinDirs [d]) cur tr = (tr, some (cur ++ d)) := by
        have := mkdirLoop_component env d [] cur tr hd2
        rw [List.append_nil] at this
        show mkdirLoop env d cur tr = _
        rw [this]; rfl
      rw [h1]
      show mkdirFinal env tr (cur ++ d) = ensureAll env tr [cur ++ d]
      rw [ensureAll_single, mkdirFinal_plain env tr _ hcur (getLast_append_ne cur d '/' hd1 hd2)]
    | cons d2 ds2 =>
      have hj : joinDirs (d :: d2 :: ds2) = d ++ '/' :: joinDirs (d2 :: ds2) := rfl
      rw [hj, mkdirLoop_component env d _ cur tr hd2, mkdirLoop_separator env _ _ tr hcur]
      show _ = ensureAll env tr ((cur ++ d) :: walkDirs (cur ++ d ++ ['/']) (d2 :: ds2))
      rw [ensureAll]
      cases h : (ensureDir env tr (cur ++ d)).2
      · simp only [Bool.false_eq_true, if_false]; rfl
      · simp only [if_true]
        exact ih (by simp) (fun x hx => hc x (List.mem_cons_of_mem _ hx)) _ _

theorem walkDirs_eq (cur : Str) (comps : List Str) :
    walkDirs cur comps = (dirChain comps).map (fun p => cur ++ p) := by
  induction comps generalizing cur with
  | nil => rfl
  | cons d ds ih =>
    simp only [walkDirs, dirChain, List.map_cons, List.map_map, ih]
    congr 1
    apply List.map_congr_left
    intro p _
    simp

theorem walkDirs_nil (comps : List Str) : walkDirs [] comps = dirChain comps := by
  rw [walkDirs_eq]
  simp

theorem joinDirs_cons (d : Str) (ds : List Str) :
    ∃ rest, joinDirs (d :: ds) = d ++ rest ∧ (rest = [] ∨ ∃ r, rest = '/' :: r) := by
  cases ds with
  | nil => exact ⟨[], by simp [joinDirs], Or.inl rfl⟩
  | cons d2 ds2 => exact ⟨'/' :: joinDirs (d2 :: ds2), rfl, Or.inr ⟨_, rfl⟩⟩

/-- A relative directory portion has neither a drive letter nor a root marker
for the walk to take over. -/
theorem dirWalkStart_relative (d : Str) (ds : List Str) (hd1 : d ≠ []) (hd2 : '/' ∉ d)
    (hrel : driveLike d = false) : dirWalkStart (joinDirs (d :: ds)) = (0, []) := by
  obtain ⟨rest, hj, hr⟩ := joinDirs_cons d ds
  rw [hj]
  unfold dirWalkStart
  match d, hd1, hd2, hrel with
  | [a], _, h2, _ =>
    have ha : a ≠ '/' := fun e => h2 (by simp [e])
    rcases hr with hr | ⟨r, hr⟩ <;> subst hr <;> simp [ha]
  | [a, b], _, h2, h3 =>
    have ha : a ≠ '/' := fun e => h2 (by simp [e])
    simp only [driveLike, Bool.and_eq_false_iff, decide_eq_false_iff_not] at h3
    rcases hr with hr | ⟨r, hr⟩ <;> subst hr
    · simp [ha]
    · simp only [List.cons_append, List.nil_append, List.singleton_append, List.getD_cons_zero,
        List.getD_cons_succ, List.isEmpty_cons, Bool.not_false, Bool.true_and, decide_eq_true_eq,
        ha, if_false]
      rw [if_neg]
      rintro ⟨_, h5, h6, _⟩
      rcases h3 with h3 | h3
      · rw [h5] at h3; exact absurd h3 (by simp)
      · exact h3 h6
  | a :: b :: c :: e, _, h2, _ =>
    have ha : a ≠ '/' := fun x => h2 (by simp [x])
    have hc : c ≠ '/' := fun x => h2 (by simp [x])
    simp [ha, hc]

/-- `EnsureParentDirs` on a relative path `d1/.../dn/file` ensures the
directories `d1`, `d1/d2`, ..., `d1/.../dn` in this order and stops at the
first that cannot be made. -/
theorem ensureParentDirs_relative (env : Env) (tr : List Call) (d : Str) (ds : List Str)
    (file : Str) (hc : ∀ x ∈ d :: ds, x ≠ [] ∧ '/' ∉ x ∧ '\\' ∉ x)
    (hf : '/' ∉ file ∧ '\\' ∉ file) (hrel : driveLike d = false) :
    EnsureParentDirs env tr (joinDirs (d :: ds) ++ '/' :: file)
      = ensureAll env tr (dirChain (d :: ds)) := by
  have hfind : find_last_of (joinDirs (d :: ds) ++ '/' :: file) ['/', '\\']
      = some (joinDirs (d :: ds)).length := by
    unfold find_last_of
    rw [find_last_of_from_last _ 0 _ '/' file none (by simp)
      (fun x hx hm => by
        simp only [List.mem_cons, List.mem_singleton, List.not_mem_nil, or_false] at hm
        rcases hm with hm | hm
        · exact hf.1 (hm ▸ hx)
        · exact hf.2 (hm ▸ hx))]
    simp
  obtain ⟨hd1, hd2, _⟩ := hc d (List.mem_cons_self _ _)
  have hne : (joinDirs (d :: ds)).isEmpty = false := by
    obtain ⟨rest, hj, _⟩ := joinDirs_cons d ds
    rw [hj]
    cases d with
    | nil => exact absurd rfl hd1
    | cons a as => rfl
  unfold EnsureParentDirs
  rw [hfind]
  simp only [List.take_left', hne, Bool.false_eq_true, if_false,
    dirWalkStart_relative d ds hd1 hd2 hrel, List.drop_zero]
  have hw := walk_eq env (d :: ds) (by simp) (fun x hx => ⟨(hc x hx).1, (hc x hx).2.1⟩) [] tr
  rw [walkDirs_nil] at hw
  rw [← hw]
  unfold finishWalk
  rfl

theorem dirShown_mono {tr : List Call} {d : Str} (h : dirShown tr d) (ex : List Call) :
    dirShown (tr ++ ex) d := by
  rcases h with h | h | h
  · exact Or.inl (List.mem_append_left _ h)
  · exact Or.inr (Or.inl (List.mem_append_left _ h))
  · exact Or.inr (Or.inr (List.mem_append_left _ h))

theorem mkdirPaths_append (a b : List Call) :
    mkdirPaths (a ++ b) = mkdirPaths a ++ mkdirPaths b := by
  induction a with
  | nil => rfl
  | cons c a ih => cases c <;> simp [mkdirPaths, ih]

/-- One directory ensured when its create call cannot fail: the result is
`true`, the history shows the directory, and at most one create call was
made, for this directory. -/
theorem ensureDir_ok (env : Env) (tr : List Call) (d : Str)
    (hmk : env.mkdir (tr ++ [Call.dirExists d false]) d ≠ MkdirResult.error) :
    ∃ ex, ensureDir env tr d = (tr ++ ex, true)
      ∧ dirShown (tr ++ ex) d
      ∧ (mkdirPaths ex).Sublist [d] := by
  unfold ensureDir DirExists MkdirOne
  cases he : env.dirExists tr d with
  | true =>
    refine ⟨[Call.dirExists d true], by simp, Or.inl (by simp), ?_⟩
    simp [mkdirPaths]
  | false =>
    cases hm : env.mkdir (tr ++ [Call.dirExists d false]) d with
    | error => exact absurd hm hmk
    | created =>
      refine ⟨[Call.dirExists d false, Call.mkdir d MkdirResult.created], by simp [hm],
        Or.inr (Or.inl (by simp)), ?_⟩
      simp [mkdirPaths]
    | alreadyExists =>
      refine ⟨[Call.dirExists d false, Call.mkdir d MkdirResult.alreadyExists], by simp [hm],
        Or.inr (Or.inr (by simp)), ?_⟩
      simp [mkdirPaths]

/-- The directories below `cur` ensured one after the other, when a directory
can be made inside one that the history shows and inside `cur`. -/
theorem ensureAll_walk (env : Env)
    (hfs : ∀ tr0 parent name, dirShown tr0 parent → '/' ∉ name →
      env.mkdir tr0 (parent ++ '/' :: name) ≠ MkdirResult.error)
    (comps : List Str) (hc : ∀ d ∈ comps, '/' ∉ d) (cur : Str) (tr : List Call)
    (hcur : ∀ ex name, '/' ∉ name → env.mkdir (tr ++ ex) (cur ++ name) ≠ MkdirResult.error) :
    ∃ ex, ensureAll env tr (walkDirs cur comps) = (tr ++ ex, true)
      ∧ (∀ p ∈ walkDirs cur comps, dirShown (tr ++ ex) p)
      ∧ (mkdirPaths ex).Sublist (walkDirs cur comps) := by
  induction comps generalizing cur tr with
  | nil => exact ⟨[], by simp [walkDirs, ensureAll], fun p hp => by simp [walkDirs] at hp,
      by simp [walkDirs, mkdirPaths]⟩
  | cons d ds ih =>
    have hd : '/' ∉ d := hc d (List.mem_cons_self _ _)
    obtain ⟨e1, h1, h2, h3⟩ := ensureDir_ok env tr (cur ++ d) (hcur _ d hd)
    obtain ⟨e2, g1, g2, g3⟩ := ih (fun x hx => hc x (List.mem_cons_of_mem _ hx))
      (cur ++ d ++ ['/']) (tr ++ e1)
      (fun ex name hn => by
        have := hfs (tr ++ e1 ++ ex) (cur ++ d) name (dirShown_mono h2 ex) hn
        simpa using this)
    refine ⟨e1 ++ e2, ?_, ?_, ?_⟩
    · simp only [walkDirs, ensureAll, h1, if_true]
      rw [g1, List.append_assoc]
    · intro p hp
      simp only [walkDirs, List.mem_cons] at hp
      rcases hp with hp | hp
      · rw [hp, ← List.append_assoc]; exact dirShown_mono h2 e2
      · rw [← List.append_assoc]; exact g2 p hp
    · rw [mkdirPaths_append]
      exact List.Sublist.append h3 g3

/-- Every directory of the chain is the directory portion cut at a component
boundary. -/
theorem dirChain_boundary (comps : List Str) :
    ∀ p ∈ dirChain comps, p = joinDirs comps ∨ ∃ rest, joinDirs comps = p ++ '/' :: rest := by
  induction comps with
  | nil => intro p hp; simp [dirChain] at hp
  | cons d ds ih =>
    intro p hp
    simp only [dirChain, List.mem_cons, List.mem_map] at hp
    cases ds with
    | nil =>
      rcases hp with hp | ⟨q, hq, _⟩
      · exact Or.inl hp
      · simp [dirChain] at hq
    | cons d2 ds2 =>
      have hj : joinDirs (d :: d2 :: ds2) = d ++ '/' :: joinDirs (d2 :: ds2) := rfl
      rcases hp with hp | ⟨q, hq, hp⟩
      · exact Or.inr ⟨joinDirs (d2 :: ds2), by rw [hj, hp]⟩
      · rcases ih q hq with e | ⟨rest, e⟩
        · exact Or.inl (by rw [hj, ← hp, e])
        · exact Or.inr ⟨rest, by rw [hj, ← hp, e]; simp⟩

/-- The directories of the chain come in increasing length. -/
theorem dirChain_increasing (comps : List Str) :
    (dirChain comps).Pairwise (fun a b => a.length < b.length) := by
  induction comps with
  | nil => simp [dirChain]
  | cons d ds ih =>
    simp only [dirChain, List.pairwise_cons, List.mem_map, forall_exists_index, and_imp,
      forall_apply_eq_imp_iff₂]
    refine ⟨fun q _ => by simp, ?_⟩
    rw [List.pairwise_map]
    exact ih.imp (fun h => by simpa using h)

theorem knownDirs_cons (c : Call) (tr : List Call) (d : Str) (h : d ∈ knownDirs tr) :
    d ∈ knownDirs (c :: tr) := by
  cases c with
  | dirExists p r => cases r <;> simp [knownDirs, h]
  | mkdir p r => cases r <;> simp [knownDirs, h]
  | _ => simpa [knownDirs] using h

theorem knownDirs_of_shown (tr : List Call) (d : Str) (h : dirShown tr d) :
    d ∈ knownDirs tr := by
  induction tr with
  | nil => rcases h with h | h | h <;> simp at h
  | cons c tr ih =>
    by_cases hc : c = Call.dirExists d true ∨ c = Call.mkdir d MkdirResult.created
        ∨ c = Call.mkdir d MkdirResult.alreadyExists
    · rcases hc with hc | hc | hc <;> subst hc <;> simp [knownDirs]
    · apply knownDirs_cons
      apply ih
      simp only [not_or] at hc
      rcases h with h | h | h
      · rcases List.mem_cons.1 h with e | e
        · exact absurd e.symm hc.1
        · exact Or.inl e
      · rcases List.mem_cons.1 h with e | e
        · exact absurd e.symm hc.2.1
        · exact Or.inr (Or.inl e)
      · rcases List.mem_cons.1 h with e | e
        · exact absurd e.symm hc.2.2
        · exact Or.inr (Or.inr e)

theorem plainFs_top (tr0 : List Call) (name : Str) (hn : '/' ∉ name) :
    plainFsEnv.mkdir tr0 name ≠ MkdirResult.error := by
  have hcn : name.contains '/' = false := by
    cases h : name.contains '/' with
    | false => rfl
    | true => exact absurd (by simpa using h) hn
  show (if name ∈ knownDirs tr0 then MkdirResult.alreadyExists
    else if (!name.contains '/' || (knownDirs tr0).any (childOf name)) = true
      then MkdirResult.created else MkdirResult.error) ≠ MkdirResult.error
  rw [hcn]
  split <;> simp

theorem plainFs_child (tr0 : List Call) (parent name : Str) (hp : dirShown tr0 parent)
    (hn : '/' ∉ name) :
    plainFsEnv.mkdir tr0 (parent ++ '/' :: name) ≠ MkdirResult.error := by
  have hk := knownDirs_of_shown tr0 parent hp
  have hch : childOf (parent ++ '/' :: name) parent = true := by
    have h1 : (parent ++ '/' :: name).take (parent.length + 1) = parent ++ ['/'] := by
      have : parent ++ '/' :: name = (parent ++ ['/']) ++ name := by simp
      rw [this]
      exact List.take_left' (by simp)
    have h2 : (parent ++ '/' :: name).drop (parent.length + 1) = name := by
      have : parent ++ '/' :: name = (parent ++ ['/']) ++ name := by simp
      rw [this]
      exact List.drop_left' (by simp)
    unfold childOf
    rw [h1, h2]
    simp [hn]
  have hany : (knownDirs tr0).any (childOf (parent ++ '/' :: name)) = true :=
    List.any_eq_true.2 ⟨parent, hk, hch⟩
  show (if parent ++ '/' :: name ∈ knownDirs tr0 then MkdirResult.alreadyExists
    else if (!(parent ++ '/' :: name).contains '/'
        || (knownDirs tr0).any (childOf (parent ++ '/' :: name))) = true
      then MkdirResult.created else MkdirResult.error) ≠ MkdirResult.error
  rw [hany]
  split <;> simp

/-- C11. `EnsureParentDirs` creates every missing intermediate directory left
to right. For a normalized relative path `d1/.../dn/file` (components
non-empty and free of separators, `d1` not a drive letter), from any history,
over any file system in which a create call for a directory inside the working
directory, or inside a directory the history shows to exist, succeeds or
reports that the directory exists already: `EnsureParentDirs` returns `true`;
the history then shows each of `d1`, `d1/d2`, ..., `d1/.../dn` to exist; the
directories of its create calls are among these, in this order; these come in
increasing length and each is the directory portion cut at a component
boundary; and `MkdirOne` answers `true` when the create call reports that the
directory exists already. -/
theorem ensureParentDirs_creates_chain (env : Env) (tr : List Call) (d : Str) (ds : List Str)
    (file : Str) (hc : ∀ x ∈ d :: ds, x ≠ [] ∧ '/' ∉ x ∧ '\\' ∉ x)
    (hf : '/' ∉ file ∧ '\\' ∉ file) (hrel : driveLike d = false)
    (htop : ∀ tr0 name, '/' ∉ name → env.mkdir tr0 name ≠ MkdirResult.error)
    (hfs : ∀ tr0 parent name, dirShown tr0 parent → '/' ∉ name →
      env.mkdir tr0 (parent ++ '/' :: name) ≠ MkdirResult.error) :
    (∃ ex, EnsureParentDirs env tr (joinDirs (d :: ds) ++ '/' :: file) = (tr ++ ex, true)
      ∧ (∀ p ∈ dirChain (d :: ds), dirShown (tr ++ ex) p)
      ∧ (mkdirPaths ex).Sublist (dirChain (d :: ds)))
    ∧ (dirChain (d :: ds)).Pairwise (fun a b => a.length < b.length)
    ∧ (∀ p ∈ dirChain (d :: ds),
        p = joinDirs (d :: ds) ∨ ∃ rest, joinDirs (d :: ds) = p ++ '/' :: rest)
    ∧ (∀ tr0 p, env.mkdir tr0 p = MkdirResult.alreadyExists → (MkdirOne env tr0 p).2 = true) := by
  refine ⟨?_, dirChain_increasing _, dirChain_boundary _, fun tr0 p h => ?_⟩
  · rw [ensureParentDirs_relative env tr d ds file hc hf hrel, ← walkDirs_nil]
    exact ensureAll_walk env hfs (d :: ds) (fun x hx => (hc x hx).2.1) [] tr
      (fun ex name hn => htop _ name hn)
  · simp [MkdirOne, h]

/-- C11 on `"x/y/z/file.log"`: in an empty working directory the three
directories are made in turn; when another process makes each of them first,
the create calls report it and the result is still `true`. -/
theorem ensureParentDirs_creates_chain_witness :
    joinDirs ["x".toList, "y".toList, "z".toList] ++ '/' :: "file.log".toList
      = "x/y/z/file.log".toList
    ∧ dirChain ["x".toList, "y".toList, "z".toList]
      = ["x".toList, "x/y".toList, "x/y/z".toList]
    ∧ EnsureParentDirs plainFsEnv [] "x/y/z/file.log".toList
      = ([Call.dirExists "x".toList false, Call.mkdir "x".toList MkdirResult.created,
          Call.dirExists "x/y".toList false, Call.mkdir "x/y".toList MkdirResult.created,
          Call.dirExists "x/y/z".toList false, Call.mkdir "x/y/z".toList MkdirResult.created],
          true)
    ∧ EnsureParentDirs raceEnv [] "x/y/z/file.log".toList
      = ([Call.dirExists "x".toList false, Call.mkdir "x".toList MkdirResult.alreadyExists,
          Call.dirExists "x/y".toList false, Call.mkdir "x/y".toList MkdirResult.alreadyExists,
          Call.dirExists "x/y/z".toList false,
          Call.mkdir "x/y/z".toList MkdirResult.alreadyExists], true)
    ∧ (∃ ex, EnsureParentDirs plainFsEnv []
          (joinDirs ["x".toList, "y".toList, "z".toList] ++ '/' :: "file.log".toList)
          = ([] ++ ex, true)
        ∧ (∀ p ∈ dirChain ["x".toList, "y".toList, "z".toList], dirShown ([] ++ ex) p)
        ∧ (mkdirPaths ex).Sublist (dirChain ["x".toList, "y".toList, "z".toList])) :=
  ⟨by decide, by decide, by decide, by decide,
    (ensureParentDirs_creates_chain plainFsEnv [] "x".toList ["y".toList, "z".toList]
      "file.log".toList (by decide) (by decide) (by decide) plainFs_top plainFs_child).1⟩

/-! ## Delivery for one path whose open succeeds

The counterpart of the delivery invariant for a single path: only the opens
of this path are assumed to succeed, those of other paths may fail. -/

theorem flushTarget_failed (env : Env) (tr : List Call) (t : Target) :
    (FlushTarget env tr t).2.failed = t.failed := by
  cases hfp : t.fp with
  | none => rw [flushTarget_of_no_handle env tr t hfp]
  | some hd =>
    by_cases hb : t.buffer = []
    · rw [flushTarget_of_empty env tr t hb]
    · rw [flushTarget_of_data env tr t hd hfp hb]

/-- On a target that has not failed, `OpenTarget` succeeds when the opens of
its path do. -/
theorem openTarget_ok_of_path (env : Env) (tr : List Call) (t : Target) (k : Str)
    (hopen : ∀ tr0, env.fopen tr0 k = true) (hf : t.failed = false) :
    (OpenTarget env tr t k).2.2 = true ∧ (OpenTarget env tr t k).2.1.failed = false := by
  by_cases hfp : t.fp = none
  · rw [openTarget_fresh_ok env tr t k hfp hf (hopen _)]
    exact ⟨rfl, hf⟩
  · rw [openTarget_of_open env tr t k hfp]
    exact ⟨rfl, hf⟩

/-- The routing of one entry to a target that has not failed, when the opens
of its path and all writes succeed: the line reaches the buffer or the
file. -/
theorem routeTarget_delivers (env : Env) (tr : List Call) (t : Target) (e : Entry)
    (hwf : TargetWf e.path t) (hopen : ∀ tr0, env.fopen tr0 e.path = true)
    (hwrite : ∀ tr0 h d, env.fwrite tr0 h d = d.length) (hf : t.failed = false) :
    (routeTarget env tr t e).2.failed = false
    ∧ writtenTo e.path (routeTarget env tr t e).1 ++ (routeTarget env tr t e).2.buffer
        = writtenTo e.path tr ++ t.buffer ++ e.line := by
  obtain ⟨o1, o2, _, o4, _, _, o7, _⟩ := openTarget_effect env tr t e.path hwf
  obtain ⟨hok, hlive⟩ := openTarget_ok_of_path env tr t e.path hopen hf
  have hsome : (OpenTarget env tr t e.path).2.1.fp ≠ none := o2.1 hok
  have hwf1 : TargetWf e.path
      { (OpenTarget env tr t e.path).2.1 with
        buffer := (OpenTarget env tr t e.path).2.1.buffer ++ e.line } :=
    ⟨o1.1, fun h => absurd h hsome, o1.2.2⟩
  rcases routeTarget_of_opened env tr t e hok with h | h
  · rw [h.2]
    refine ⟨hlive, ?_⟩
    simp only [o7, o4, List.append_assoc]
  · rw [h.2]
    obtain ⟨_, _, f3, _, _, _, f7⟩ := flushTarget_effect env (OpenTarget env tr t e.path).1
      { (OpenTarget env tr t e.path).2.1 with
        buffer := (OpenTarget env tr t e.path).2.1.buffer ++ e.line } e.path hwf1
    refine ⟨by rw [f3]; exact hlive, ?_⟩
    rw [f7 hwrite, o7, o4, List.append_assoc]

/-- The routing of one entry, seen from a path whose opens succeed; the
targets of other paths may have failed. -/
theorem routeEntry_delivers (env : Env) (p : Str) (hopen : ∀ tr0, env.fopen tr0 p = true)
    (hwrite : ∀ tr0 h d, env.fwrite tr0 h d = d.length)
    (tr : List Call) (m : List (Str × Target)) (e : Entry)
    (hm : RegistryOk m) (hl : (Targets.find m p).failed = false) :
    (Targets.find (routeEntry env (tr, m) e).2 p).failed = false
    ∧ writtenTo p (routeEntry env (tr, m) e).1
          ++ (Targets.find (routeEntry env (tr, m) e).2 p).buffer
        = writtenTo p tr ++ (Targets.find m p).buffer
          ++ (if e.path = p then e.line else []) := by
  rw [routeEntry_eq]
  dsimp only
  by_cases hp : e.path = p
  · subst hp
    obtain ⟨r1, r2⟩ := routeTarget_delivers env tr (Targets.find m e.path) e
      (find_wf m e.path hm) hopen hwrite hl
    rw [find_store_same, if_pos rfl]
    exact ⟨r1, r2⟩
  · have hp2 : p ≠ e.path := fun h => hp h.symm
    obtain ⟨_, _, _, r4, _⟩ :=
      routeTarget_effect env tr (Targets.find m e.path) e (find_wf m e.path hm)
    rw [find_store_other _ _ _ _ hp2, r4 p hp2, if_neg hp, List.append_nil]
    exact ⟨hl, rfl⟩

theorem foldl_routeEntry_delivers (env : Env) (p : Str)
    (hopen : ∀ tr0, env.fopen tr0 p = true)
    (hwrite : ∀ tr0 h d, env.fwrite tr0 h d = d.length)
    (es : List Entry) (tr : List Call) (m : List (Str × Target))
    (hm : RegistryOk m) (hl : (Targets.find m p).failed = false) :
    (Targets.find (es.foldl (routeEntry env) (tr, m)).2 p).failed = false
    ∧ writtenTo p (es.foldl (routeEntry env) (tr, m)).1
          ++ (Targets.find (es.foldl (routeEntry env) (tr, m)).2 p).buffer
        = writtenTo p tr ++ (Targets.find m p).buffer ++ linesFor p es := by
  induction es generalizing tr m with
  | nil => exact ⟨hl, by simp [linesFor]⟩
  | cons e es ih =>
    simp only [List.foldl_cons]
    obtain ⟨h1, h2⟩ := routeEntry_delivers env p hopen hwrite tr m e hm hl
    have hih := ih (routeEntry env (tr, m) e).1 (routeEntry env (tr, m) e).2
      (routeEntry_registryOk env tr m e hm) h1
    simp only [Prod.mk.eta] at hih
    obtain ⟨h3, h4⟩ := hih
    refine ⟨h3, ?_⟩
    rw [h4, h2]
    simp [linesFor, List.append_assoc]

/-- The sweep leaves the `failed` mark of every target as it is. -/
theorem sweepAll_find_failed (env : Env) (now : Nat) (m : List (Str × Target))
    (tr : List Call) (p : Str) :
    (Targets.find (sweepAll env now tr m).2 p).failed = (Targets.find m p).failed := by
  induction m generalizing tr with
  | nil => rfl
  | cons kv rest ih =>
    obtain ⟨a, u⟩ := kv
    simp only [sweepAll, Targets.find]
    by_cases ha : a = p
    · simp only [if_pos ha]
      rcases sweepTarget_cases env now tr u with c | c
      · rw [c]; exact flushTarget_failed env tr u
      · rw [c]
    · simp only [if_neg ha]
      exact ih _

/-- The delivery invariant for one path whose opens succeed, step by step:
the bytes written for the path, the buffer of its target, `local` and the
shared queue hold the accepted lines of the path in order, and its target
never fails. Other paths may fail to open. -/
theorem delivers_step (env : Env) (p : Str) (hopen : ∀ tr0, env.fopen tr0 p = true)
    (hwrite : ∀ tr0 h d, env.fwrite tr0 h d = d.length)
    (s : State) (l : Label) (acc : List Entry) (hinv : StateInv s)
    (hlive : (Targets.find s.m_Targets p).failed = false)
    (hc : writtenTo p s.trace ++ (Targets.find s.m_Targets p).buffer ++ linesFor p s.localQ
        ++ linesFor p s.m_Queue = linesFor p acc) :
    (Targets.find (step env s l).m_Targets p).failed = false
    ∧ writtenTo p (step env s l).trace ++ (Targets.find (step env s l).m_Targets p).buffer
        ++ linesFor p (step env s l).localQ ++ linesFor p (step env s l).m_Queue
      = linesFor p (acc ++ accepted env s [l]) := by
  obtain ⟨hq, hr, _⟩ := hinv
  cases l with
  | enqueue path line =>
    have hs : step env s (Label.enqueue path line) = (Enqueue s path line).1 := rfl
    rw [hs]
    simp only [accepted, List.append_nil]
    rcases enqueue_cases s path line with c | c | c
    · rw [c.2]; simpa [List.append_assoc] using And.intro hlive hc
    · rw [c.2.2.2.2]; simpa [List.append_assoc] using And.intro hlive hc
    · rw [c.2.2.2.2]
      refine ⟨hlive, ?_⟩
      simp only [if_true, linesFor_append, ← hc, List.append_assoc]
  | start =>
    simp only [accepted, List.append_nil, step, Start]
    split
    · exact ⟨hlive, hc⟩
    · split <;> exact ⟨hlive, hc⟩
  | stopRequest =>
    simp only [accepted, List.append_nil, step, StopRequest]
    split
    · exact ⟨hlive, hc⟩
    · split <;> exact ⟨hlive, hc⟩
  | stopJoin =>
    simp only [accepted, List.append_nil, step, StopJoin]
    split <;> exact ⟨hlive, hc⟩
  | threadEntry =>
    simp only [accepted, List.append_nil, step]
    split
    · rename_i hpc
      have hl : s.localQ = [] := hq.2.2.1 (by rw [hpc]; decide)
      refine ⟨hlive, ?_⟩
      rw [hl] at hc
      simpa [threadEntry, NowMs, writtenTo_append, writtenTo] using hc
    · exact ⟨hlive, hc⟩
  | drainLock =>
    simp only [accepted, List.append_nil, step]
    split
    · rename_i hpc
      have hl : s.localQ = [] := hq.2.2.1 (by rw [hpc]; decide)
      obtain ⟨d1, d2, d3, d4, _⟩ := drainLock_fields s hl
      refine ⟨by rw [d2]; exact hlive, ?_⟩
      rw [hl] at hc
      rw [d1, d2, d3, d4, ← hc]
      simp [linesFor]
    · exact ⟨hlive, hc⟩
  | route =>
    simp only [accepted, List.append_nil, step]
    split
    · obtain ⟨h1, h2⟩ :=
        foldl_routeEntry_delivers env p hopen hwrite s.localQ s.trace s.m_Targets hr hlive
      refine ⟨h1, ?_⟩
      simp only [routeLocal]
      rw [h2, ← hc]
      simp [linesFor]
    · exact ⟨hlive, hc⟩
  | sweep =>
    simp only [accepted, List.append_nil, step]
    split
    · obtain ⟨_, _, _, _, _, _, s7⟩ :=
        sweepAll_effect env (NowMs env s.trace).2 s.m_Targets (NowMs env s.trace).1 hr
      have s3 := sweepAll_find_failed env (NowMs env s.trace).2 s.m_Targets
        (NowMs env s.trace).1 p
      rw [hlive] at s3
      have hnow : writtenTo p (NowMs env s.trace).1 = writtenTo p s.trace := by
        simp [NowMs, writtenTo_append, writtenTo]
      have h7 := s7 hwrite p
      rw [hnow] at h7
      unfold periodic
      dsimp only
      split
      · split
        · refine ⟨s3, ?_⟩
          simp only [writtenTo_append, writtenTo, List.append_nil]
          rw [h7, hc]
        · refine ⟨s3, ?_⟩
          dsimp only
          split
          · simp only [writtenTo_append, writtenTo, List.append_nil]
            rw [h7, hc]
          · rw [h7, hc]
      · refine ⟨hlive, ?_⟩
        dsimp only
        rw [hnow, hc]
    · exact ⟨hlive, hc⟩
  | threadExit =>
    simp only [accepted, List.append_nil, step]
    split
    · rename_i hpc
      have hl : s.localQ = [] := hq.2.2.1 (by rw [hpc]; decide)
      obtain ⟨_, _, c3⟩ := closeAll_effect env s.m_Targets s.trace hr
      refine ⟨rfl, ?_⟩
      simp only [threadExit]
      rw [c3 hwrite p, ← hc]
      simp [Targets.find]
    · exact ⟨hlive, hc⟩

theorem delivers_exec (env : Env) (p : Str) (hopen : ∀ tr0, env.fopen tr0 p = true)
    (hwrite : ∀ tr0 h d, env.fwrite tr0 h d = d.length)
    (ls : List Label) (s : State) (acc : List Entry) (hinv : StateInv s)
    (hlive : (Targets.find s.m_Targets p).failed = false)
    (hc : writtenTo p s.trace ++ (Targets.find s.m_Targets p).buffer ++ linesFor p s.localQ
        ++ linesFor p s.m_Queue = linesFor p acc) :
    (Targets.find (exec env s ls).m_Targets p).failed = false
    ∧ writtenTo p (exec env s ls).trace ++ (Targets.find (exec env s ls).m_Targets p).buffer
        ++ linesFor p (exec env s ls).localQ ++ linesFor p (exec env s ls).m_Queue
      = linesFor p (acc ++ accepted env s ls) := by
  induction ls generalizing s acc with
  | nil => simpa [exec, accepted, List.append_assoc] using And.intro hlive hc
  | cons l ls ih =>
    obtain ⟨h1, h2⟩ := delivers_step env p hopen hwrite s l acc hinv hlive hc
    have := ih (step env s l) (acc ++ accepted env s [l]) (stateInv_step env s l hinv) h1 h2
    rw [exec_cons, accepted_cons, ← List.append_assoc]
    exact this

/-- When `Stop()` is called after the last `Enqueue` and has returned, nothing
is left in the shared queue. -/
theorem quiet_after_stop (env : Env) (before after : List Label)
    (hbefore : Label.stopRequest ∉ before)
    (hafter : ∀ path line, Label.enqueue path line ∉ after) :
    Quiet (exec env State.init (before ++ Label.stopRequest :: after)) := by
  have hb := beforeStop_exec env before State.init hbefore queueInv_init beforeStop_init
  have hqb := queueInv_exec env before State.init queueInv_init
  have hquiet1 : Quiet (step env (exec env State.init before) Label.stopRequest) := by
    intro hc
    have hpc : (step env (exec env State.init before) Label.stopRequest).pc
        = (exec env State.init before).pc := by
      simp only [step, StopRequest]
      split
      · rfl
      · split <;> rfl
    have hqu : (step env (exec env State.init before) Label.stopRequest).m_Queue
        = (exec env State.init before).m_Queue := by
      simp only [step, StopRequest]
      split
      · rfl
      · split <;> rfl
    rw [hpc] at hc
    rw [hqu]
    rcases hc with hc | hc | hc
    · exact (hb.2.2.1 hc).2
    · exact absurd hc hb.2.2.2.1
    · exact absurd hc hb.2.2.2.2
  rw [exec_append, exec_cons]
  exact quiet_exec env after _ hafter (queueInv_step env _ _ hqb) hquiet1

/-- An entry whose open succeeds is appended to the buffer of its target.
Below the threshold the buffer is kept and no further call is made; from the
threshold on the whole buffer is handed to `fwrite` and cleared. The rest of
the registry plays no part. -/
theorem routeEntry_opened_sized (env : Env) (tr : List Call) (m : List (Str × Target))
    (e : Entry)
    (hok : (OpenTarget env tr (Targets.find m e.path) e.path).2.2 = true) :
    (Targets.find (routeEntry env (tr, m) e).2 e.path).fp ≠ none
    ∧ (((Targets.find m e.path).buffer ++ e.line).length < kFlushThresholdBytes →
        (Targets.find (routeEntry env (tr, m) e).2 e.path).buffer
          = (Targets.find m e.path).buffer ++ e.line
        ∧ (routeEntry env (tr, m) e).1 = (OpenTarget env tr (Targets.find m e.path) e.path).1)
    ∧ (((Targets.find m e.path).buffer ++ e.line).length ≥ kFlushThresholdBytes →
        (Targets.find (routeEntry env (tr, m) e).2 e.path).buffer = []
        ∧ ∃ h, (Targets.find (routeEntry env (tr, m) e).2 e.path).fp = some h
          ∧ (routeEntry env (tr, m) e).1
            = (OpenTarget env tr (Targets.find m e.path) e.path).1
              ++ [Call.fwrite h ((Targets.find m e.path).buffer ++ e.line)
                    (env.fwrite (OpenTarget env tr (Targets.find m e.path) e.path).1 h
                      ((Targets.find m e.path).buffer ++ e.line)),
                  Call.fflush h,
                  Call.nowMs (env.clock ((OpenTarget env tr (Targets.find m e.path) e.path).1
                    ++ [Call.fwrite h ((Targets.find m e.path).buffer ++ e.line)
                          (env.fwrite (OpenTarget env tr (Targets.find m e.path) e.path).1 h
                            ((Targets.find m e.path).buffer ++ e.line)),
                        Call.fflush h]) % u64)]) := by
  have hbuf := openTarget_buffer env tr (Targets.find m e.path) e.path
  have hfp := openTarget_fp_of_ok env tr (Targets.find m e.path) e.path hok
  obtain ⟨t1, ht1⟩ : ∃ t1 : Target, t1 =
      { (OpenTarget env tr (Targets.find m e.path) e.path).2.1 with
        buffer := (OpenTarget env tr (Targets.find m e.path) e.path).2.1.buffer ++ e.line } :=
    ⟨_, rfl⟩
  have ht1fp : t1.fp = (OpenTarget env tr (Targets.find m e.path) e.path).2.1.fp := by rw [ht1]
  have ht1buf : t1.buffer = (Targets.find m e.path).buffer ++ e.line := by rw [ht1, ← hbuf]
  rw [routeEntry_eq]
  dsimp only
  rw [find_store_same]
  rcases routeTarget_of_opened env tr (Targets.find m e.path) e hok with h | h
  · have hlt := h.1
    rw [hbuf] at hlt
    rw [h.2, ← ht1]
    exact ⟨by rw [ht1fp]; exact hfp, fun _ => ⟨ht1buf, rfl⟩,
      fun hge => absurd hlt (Nat.not_lt.2 hge)⟩
  · have hge := h.1
    rw [hbuf] at hge
    rw [h.2, ← ht1]
    cases hh : t1.fp with
    | none => rw [ht1fp] at hh; exact absurd hh hfp
    | some hd =>
      have hne : t1.buffer ≠ [] := by
        intro hc
        rw [← ht1buf, hc] at hge
        simp [kFlushThresholdBytes] at hge
      rw [flushTarget_of_data env _ t1 hd hh hne]
      refine ⟨by simp [hh], fun hlt => absurd hlt (Nat.not_lt.2 hge),
        fun _ => ⟨rfl, hd, hh, ?_⟩⟩
      rw [ht1buf]

/-- C9. Sticky failure is isolated per path. (1) From the spawn of the drain
thread, in any schedule without a further `Start` (one run), `fopen` is called
at most once on each path. (2) The first entry of a path whose `fopen` fails
leaves a failed target with no handle and an empty buffer. (3) An entry for a
failed target is discarded: the history and the registry are unchanged.
(4) For the rest of the run the failed target stays as it is (until the final
loop clears the registry), its buffer stays empty, and no `fopen` and no
`fwrite` is made for its path. (5) An entry of any path whose open succeeds is
appended to the buffer of its target, whatever the state of the other targets:
below 64 KiB the buffer is kept and no further call is made, from 64 KiB on
the whole buffer is handed to `fwrite` and cleared. (6) Whatever happens to
the opens of other paths, for a path whose opens succeed (writes being
complete), when `Stop()` is called after the last `Enqueue` and has returned,
the bytes written to the file of the path are exactly the lines of the
accepted entries of the path, in order. (7) The invariant these facts rest on
holds in every reachable state. -/
theorem sticky_failure_isolated (env : Env) :
    (∀ s ls p, StateInv s → s.pc = ThreadPc.entry → Label.start ∉ ls →
        opensOf p (exec env s ls).trace ≤ opensOf p s.trace + 1)
    ∧ (∀ tr m e, e.path ∉ m.map Prod.fst →
        env.fopen (EnsureParentDirs env tr e.path).1 e.path = false →
        (Targets.find (routeEntry env (tr, m) e).2 e.path).failed = true
        ∧ (Targets.find (routeEntry env (tr, m) e).2 e.path).fp = none
        ∧ (Targets.find (routeEntry env (tr, m) e).2 e.path).buffer = [])
    ∧ (∀ tr m e, RegistryOk m → (Targets.find m e.path).failed = true →
        routeEntry env (tr, m) e = (tr, m))
    ∧ (∀ s ls p, StateInv s → (Targets.find s.m_Targets p).failed = true →
        Label.start ∉ ls →
        ((exec env s ls).m_Targets = []
          ∨ Targets.find (exec env s ls).m_Targets p = Targets.find s.m_Targets p)
        ∧ (Targets.find (exec env s ls).m_Targets p).buffer = []
        ∧ opensOf p (exec env s ls).trace = opensOf p s.trace
        ∧ writtenTo p (exec env s ls).trace = writtenTo p s.trace)
    ∧ (∀ tr m e, (OpenTarget env tr (Targets.find m e.path) e.path).2.2 = true →
        (Targets.find (routeEntry env (tr, m) e).2 e.path).fp ≠ none
        ∧ (((Targets.find m e.path).buffer ++ e.line).length < kFlushThresholdBytes →
            (Targets.find (routeEntry env (tr, m) e).2 e.path).buffer
              = (Targets.find m e.path).buffer ++ e.line
            ∧ (routeEntry env (tr, m) e).1
              = (OpenTarget env tr (Targets.find m e.path) e.path).1)
        ∧ (((Targets.find m e.path).buffer ++ e.line).length ≥ kFlushThresholdBytes →
            (Targets.find (routeEntry env (tr, m) e).2 e.path).buffer = []
            ∧ ∃ h, (Targets.find (routeEntry env (tr, m) e).2 e.path).fp = some h
              ∧ (routeEntry env (tr, m) e).1
                = (OpenTarget env tr (Targets.find m e.path) e.path).1
                  ++ [Call.fwrite h ((Targets.find m e.path).buffer ++ e.line)
                        (env.fwrite (OpenTarget env tr (Targets.find m e.path) e.path).1 h
                          ((Targets.find m e.path).buffer ++ e.line)),
                      Call.fflush h,
                      Call.nowMs (env.clock
                        ((OpenTarget env tr (Targets.find m e.path) e.path).1
                          ++ [Call.fwrite h ((Targets.find m e.path).buffer ++ e.line)
                                (env.fwrite
                                  (OpenTarget env tr (Targets.find m e.path) e.path).1 h
                                  ((Targets.find m e.path).buffer ++ e.line)),
                              Call.fflush h]) % u64)]))
    ∧ (∀ p before after, (∀ tr0, env.fopen tr0 p = true) →
        (∀ tr0 h d, env.fwrite tr0 h d = d.length) →
        Label.stopRequest ∉ before → (∀ path line, Label.enqueue path line ∉ after) →
        (exec env State.init (before ++ Label.stopRequest :: after)).m_Running = false →
        writtenTo p (exec env State.init (before ++ Label.stopRequest :: after)).trace
          = linesFor p (accepted env State.init before))
    ∧ (∀ ls, StateInv (exec env State.init ls)) := by
  refine ⟨?_, ?_, ?_, ?_, ?_, ?_, ?_⟩
  · intro s ls p hinv _ hl
    exact opens_exec env ls s p (opensOf p s.trace) hl hinv (Nat.le_succ _) (fun _ => Or.inr rfl)
  · intro tr m e hnew hfail
    exact routeEntry_of_open_failure env tr m e hnew hfail
  · intro tr m e hm hf
    exact routeEntry_of_failed env tr m e hm hf
  · intro s ls p hinv hf hl
    obtain ⟨g1, g2, g3⟩ := failed_exec env ls s p (Targets.find s.m_Targets p) hl hinv hf
      (Or.inr rfl)
    refine ⟨g1, ?_, g2, g3⟩
    rcases g1 with h | h
    · rw [h]; rfl
    · rw [h]
      exact (find_wf s.m_Targets p hinv.2.1).2.1 ((find_wf s.m_Targets p hinv.2.1).1 hf)
  · intro tr m e hok
    exact routeEntry_opened_sized env tr m e hok
  · intro p before after hopen hwrite hbefore hafter hstopped
    have hinv := stateInv_exec env (before ++ Label.stopRequest :: after) State.init
      stateInv_init
    have hd := (delivers_exec env p hopen hwrite (before ++ Label.stopRequest :: after)
      State.init [] stateInv_init rfl
      (by simp [State.init, writtenTo, Targets.find, linesFor])).2
    have hacc : accepted env State.init (before ++ Label.stopRequest :: after)
        = accepted env State.init before := by
      rw [accepted_append, accepted_cons, accepted_of_no_enqueue env after _ hafter]
      simp [accepted]
    have hpc := hinv.1.2.2.2 hstopped
    have hqueue := quiet_after_stop env before after hbefore hafter (Or.inl hpc)
    have htargets := hinv.2.2 (Or.inl hpc)
    have hlocal := hinv.1.2.2.1 (by rw [hpc]; decide)
    rw [hacc, hqueue, htargets, hlocal] at hd
    simpa [Targets.find, linesFor] using hd
  · intro ls
    exact stateInv_exec env ls State.init stateInv_init

/-- C9 on `mixedRun` in `readOnlyEnv`, then `Stop()`: `ro/a.log` is opened
once and fails, its two entries are accepted and nothing is written for it;
both lines of `ok.log` reach its buffer and, by the time `Stop()` has
returned, its file. -/
theorem sticky_failure_isolated_witness :
    opensOf "ro/a.log".toList
        (exec readOnlyEnv (exec readOnlyEnv State.init [Label.start]) mixedRun).trace
      ≤ opensOf "ro/a.log".toList (exec readOnlyEnv State.init [Label.start]).trace + 1
    ∧ (Targets.find (exec readOnlyEnv (exec readOnlyEnv State.init [Label.start])
          mixedRun).m_Targets "ro/a.log".toList).failed = true
    ∧ opensOf "ro/a.log".toList
        (exec readOnlyEnv (exec readOnlyEnv State.init [Label.start]) mixedRun).trace = 1
    ∧ (Targets.find (exec readOnlyEnv (exec readOnlyEnv State.init [Label.start])
          mixedRun).m_Targets "ok.log".toList).buffer = "y1;y2;".toList
    ∧ enqueueResults readOnlyEnv State.init (Label.start :: mixedRun) = [true, true, true, true]
    ∧ (exec readOnlyEnv State.init
        ((Label.start :: mixedRun) ++ Label.stopRequest :: sampleShutdown)).m_Running = false
    ∧ writtenTo "ok.log".toList (exec readOnlyEnv State.init
        ((Label.start :: mixedRun) ++ Label.stopRequest :: sampleShutdown)).trace
      = "y1;y2;".toList
    ∧ writtenTo "ro/a.log".toList (exec readOnlyEnv State.init
        ((Label.start :: mixedRun) ++ Label.stopRequest :: sampleShutdown)).trace = [] := by
  have h := sticky_failure_isolated readOnlyEnv
  refine ⟨h.1 (exec readOnlyEnv State.init [Label.start]) mixedRun "ro/a.log".toList
      (h.2.2.2.2.2.2 [Label.start]) (by decide) (by decide),
    by decide, by decide, by decide, by decide, by decide, ?_, by decide⟩
  rw [h.2.2.2.2.2.1 "ok.log".toList (Label.start :: mixedRun) sampleShutdown
    (fun _ => rfl) (fun _ _ _ => rfl) (by decide)
    (by intro path line hin; simp [sampleShutdown] at hin) (by decide)]
  decide

end FileLogWriter
